import Mathlib

/-!
Verification of the sorting algorithms in `sorts.cpp` (repository EliahKagan/Sorts).

The C++ algorithms are templates over an iterator whose element type supplies a
strict `operator<`.  We embed them as Lean functions over `List α` together with
an explicit comparison `lt : α → α → Bool` standing for that `operator<`.
A valid instantiation makes `lt` a strict weak ordering; `IsSWO` below packages
exactly the properties such an ordering provides.  Loops become recursions,
in-place updates become explicit state passing on lists, and the half-open
iterator range `[first, last)` becomes the list (or a `Nat` index into it).
-/

namespace Sorts

variable {α : Type}

/-- `leOf lt a b` : `a` is not greater than `b` under the strict comparison `lt`
(the relation that "sorted" means for every adjacent pair). -/
def leOf (lt : α → α → Bool) (a b : α) : Prop := lt b a = false

/-- Strict weak ordering, the validity contract `operator<` must satisfy:
asymmetry, transitivity, and the spread property (equivalent, given the other
two, to transitivity of incomparability). -/
structure IsSWO (lt : α → α → Bool) : Prop where
  asymm : ∀ a b, lt a b = true → lt b a = false
  trans : ∀ a b c, lt a b = true → lt b c = true → lt a c = true
  spread : ∀ a b c, lt a c = true → lt a b = true ∨ lt b c = true

namespace IsSWO

theorem irrefl {lt : α → α → Bool} (h : IsSWO lt) (a : α) : lt a a = false := by
  cases hb : lt a a with
  | false => rfl
  | true => exact absurd (h.asymm a a hb) (by simp [hb])

theorem le_refl {lt : α → α → Bool} (h : IsSWO lt) (a : α) : leOf lt a a := h.irrefl a

theorem le_total {lt : α → α → Bool} (h : IsSWO lt) (a b : α) :
    leOf lt a b ∨ leOf lt b a := by
  cases hb : lt b a with
  | false => exact Or.inl hb
  | true => exact Or.inr (h.asymm b a hb)

theorem le_trans {lt : α → α → Bool} (h : IsSWO lt) {a b c : α}
    (hab : leOf lt a b) (hbc : leOf lt b c) : leOf lt a c := by
  cases hb : lt c a with
  | false => exact hb
  | true =>
    rcases h.spread c b a hb with hcb | hba
    · rw [leOf] at hbc; rw [hbc] at hcb; exact absurd hcb (by simp)
    · rw [leOf] at hab; rw [hab] at hba; exact absurd hba (by simp)

theorem lt_of_lt_of_le {lt : α → α → Bool} (h : IsSWO lt) {a b c : α}
    (hab : lt a b = true) (hbc : leOf lt b c) : lt a c = true := by
  rcases h.spread a c b hab with hac | hcb
  · exact hac
  · rw [leOf] at hbc; rw [hbc] at hcb; exact absurd hcb (by simp)

theorem lt_of_le_of_lt {lt : α → α → Bool} (h : IsSWO lt) {a b c : α}
    (hab : leOf lt a b) (hbc : lt b c = true) : lt a c = true := by
  rcases h.spread b a c hbc with hba | hac
  · rw [leOf] at hab; rw [hab] at hba; exact absurd hba (by simp)
  · exact hac

theorem le_of_lt {lt : α → α → Bool} (h : IsSWO lt) {a b : α}
    (hab : lt a b = true) : leOf lt a b := h.asymm a b hab

theorem le_of_not_lt {lt : α → α → Bool} {a b : α}
    (hab : lt b a = false) : leOf lt a b := hab

end IsSWO

/-- A linear order's `<`, the default instantiation of `operator<`, is a strict
weak ordering. -/
theorem isSWO_of_linearOrder {β : Type} [LinearOrder β] :
    IsSWO (fun a b : β => decide (a < b)) := by
  refine ⟨?_, ?_, ?_⟩
  · intro a b hab
    simp only [decide_eq_true_eq] at hab
    simp only [decide_eq_false_iff_not]
    exact not_lt_of_gt hab
  · intro a b c hab hbc
    simp only [decide_eq_true_eq] at hab hbc
    simp only [decide_eq_true_eq]
    exact lt_trans hab hbc
  · intro a b c hac
    simp only [decide_eq_true_eq] at hac
    simp only [decide_eq_true_eq]
    rcases lt_or_ge a b with hab | hba
    · exact Or.inl hab
    · exact Or.inr (lt_of_le_of_lt hba hac)

/-- Sorted in the sense every claim uses: for every adjacent pair the left
element is not greater than the right under `lt`. -/
def sortedB (lt : α → α → Bool) (l : List α) : Prop := List.Chain' (leOf lt) l

theorem sortedB_of_pairwise {lt : α → α → Bool} {l : List α}
    (hp : List.Pairwise (leOf lt) l) : sortedB lt l :=
  List.Pairwise.chain' hp

/-- The canonical stable insertion of `e` into `acc`, before the first element
strictly greater than `e` (upper-bound position).  Several of the algorithms
are proved equal to a fold of this function. -/
def upInsert (lt : α → α → Bool) : List α → α → List α
  | [], e => [e]
  | y :: ys, e => if lt e y then e :: y :: ys else y :: upInsert lt ys e

/-- Reference insertion sort: left fold of `upInsert` (inserting each element
into the sorted prefix built so far). -/
def isortFold (lt : α → α → Bool) (l : List α) : List α :=
  l.foldl (upInsert lt) []

theorem upInsert_perm (lt : α → α → Bool) (e : α) :
    ∀ A : List α, List.Perm (upInsert lt A e) (e :: A) := by
  intro A
  induction A with
  | nil => simp [upInsert]
  | cons y ys ih =>
    cases hy : lt e y with
    | true => simp [upInsert, hy]
    | false =>
      simp only [upInsert, hy, Bool.false_eq_true, if_false]
      exact (ih.cons y).trans (List.Perm.swap e y ys)

/-- `upInsert` as take/drop at the upper-bound position. -/
theorem upInsert_eq_takeWhile (lt : α → α → Bool) (e : α) :
    ∀ A : List α, upInsert lt A e =
      A.takeWhile (fun y => !lt e y) ++ e :: A.dropWhile (fun y => !lt e y) := by
  intro A
  induction A with
  | nil => simp [upInsert]
  | cons y ys ih =>
    cases hy : lt e y with
    | true => simp [upInsert, hy, List.takeWhile_cons, List.dropWhile_cons]
    | false => simp [upInsert, hy, List.takeWhile_cons, List.dropWhile_cons, ih]

theorem upInsert_append_last {lt : α → α → Bool} {e p : α} (hp : lt e p = true)
    (A : List α) : upInsert lt (A ++ [p]) e = upInsert lt A e ++ [p] := by
  induction A with
  | nil => simp [upInsert, hp]
  | cons y ys ih =>
    cases hy : lt e y with
    | true => simp [upInsert, hy]
    | false => simp [upInsert, hy, ih]

theorem upInsert_at_end {lt : α → α → Bool} {e : α} {A : List α}
    (hall : ∀ y ∈ A, lt e y = false) : upInsert lt A e = A ++ [e] := by
  induction A with
  | nil => simp [upInsert]
  | cons y ys ih =>
    have hy := hall y (by simp)
    simp only [upInsert, hy, Bool.false_eq_true, if_false, List.cons_append, List.cons.injEq,
      true_and]
    exact ih (fun z hz => hall z (by simp [hz]))

theorem pairwise_upInsert {lt : α → α → Bool} (h : IsSWO lt) (e : α) :
    ∀ {A : List α}, List.Pairwise (leOf lt) A →
      List.Pairwise (leOf lt) (upInsert lt A e) := by
  intro A
  induction A with
  | nil => simp [upInsert]
  | cons y ys ih =>
    intro hA
    rw [List.pairwise_cons] at hA
    cases hy : lt e y with
    | true =>
      simp only [upInsert, hy, if_true]
      rw [List.pairwise_cons]
      refine ⟨?_, List.pairwise_cons.mpr hA⟩
      intro b hb
      rcases List.mem_cons.mp hb with rfl | hb
      · exact h.le_of_lt hy
      · exact h.le_of_lt (h.lt_of_lt_of_le hy (hA.1 b hb))
    | false =>
      simp only [upInsert, hy, Bool.false_eq_true, if_false]
      rw [List.pairwise_cons]
      refine ⟨?_, ih hA.2⟩
      intro b hb
      have := (upInsert_perm lt e ys).mem_iff.mp hb
      rcases List.mem_cons.mp this with rfl | hb2
      · exact IsSWO.le_of_not_lt hy
      · exact hA.1 b hb2

theorem isortFold_go_perm (lt : α → α → Bool) :
    ∀ (rest : List α) (acc : List α),
      List.Perm (rest.foldl (upInsert lt) acc) (acc ++ rest) := by
  intro rest
  induction rest with
  | nil => simp
  | cons x xs ih =>
    intro acc
    have h1 : (x :: xs).foldl (upInsert lt) acc = xs.foldl (upInsert lt) (upInsert lt acc x) := rfl
    rw [h1]
    refine (ih _).trans ?_
    refine ((upInsert_perm lt x acc).append_right xs).trans ?_
    have h2 : (x :: acc) ++ xs = x :: (acc ++ xs) := by simp
    rw [h2]
    exact List.perm_middle.symm

theorem isortFold_perm (lt : α → α → Bool) (l : List α) :
    List.Perm (isortFold lt l) l := by
  simpa using isortFold_go_perm lt l []

theorem isortFold_go_pairwise {lt : α → α → Bool} (h : IsSWO lt) :
    ∀ (rest : List α) (acc : List α), List.Pairwise (leOf lt) acc →
      List.Pairwise (leOf lt) (rest.foldl (upInsert lt) acc) := by
  intro rest
  induction rest with
  | nil => intro acc hacc; simpa using hacc
  | cons x xs ih =>
    intro acc hacc
    exact ih _ (pairwise_upInsert h x hacc)

theorem isortFold_pairwise {lt : α → α → Bool} (h : IsSWO lt) (l : List α) :
    List.Pairwise (leOf lt) (isortFold lt l) :=
  isortFold_go_pairwise h l [] (by simp)

/-! ### Stability

Stability is expressed through filters: a sort is stable when, for every
predicate `q` that never holds on both sides of a strict comparison (for
instance "has key `k`" when `lt` compares keys), filtering the output by `q`
gives exactly the input filtered by `q`. -/

/-- `q` selects elements from a single `lt`-equivalence class (no two
`q`-elements are strictly ordered). -/
def stablePred (lt : α → α → Bool) (q : α → Bool) : Prop :=
  ∀ x y, lt x y = true → q x = false ∨ q y = false

theorem mem_dropWhile_lt {lt : α → α → Bool} (h : IsSWO lt) (e : α) :
    ∀ {A : List α}, List.Pairwise (leOf lt) A →
      ∀ z ∈ A.dropWhile (fun y => !lt e y), lt e z = true := by
  intro A
  induction A with
  | nil => simp
  | cons a as ih =>
    intro hA z hz
    rw [List.pairwise_cons] at hA
    rw [List.dropWhile_cons] at hz
    cases ha : lt e a with
    | false => simp only [ha, Bool.not_false, if_true] at hz; exact ih hA.2 z hz
    | true =>
      simp only [ha, Bool.not_true, Bool.false_eq_true, if_false] at hz
      rcases List.mem_cons.mp hz with rfl | hz2
      · exact ha
      · exact h.lt_of_lt_of_le ha (hA.1 z hz2)

theorem filter_upInsert {lt : α → α → Bool} (h : IsSWO lt) {q : α → Bool}
    (hq : stablePred lt q) {A : List α} (hA : List.Pairwise (leOf lt) A) (e : α) :
    (upInsert lt A e).filter q =
      if q e then A.filter q ++ [e] else A.filter q := by
  rw [upInsert_eq_takeWhile, List.filter_append]
  cases hqe : q e with
  | false =>
    simp only [List.filter_cons, hqe, Bool.false_eq_true, if_false, if_neg]
    rw [← List.filter_append, List.takeWhile_append_dropWhile]
  | true =>
    have hD : (A.dropWhile (fun y => !lt e y)).filter q = [] := by
      rw [List.filter_eq_nil_iff]
      intro z hz
      have hlt := mem_dropWhile_lt h e hA z hz
      rcases hq e z hlt with h1 | h2
      · rw [hqe] at h1; exact absurd h1 (by simp)
      · simp [h2]
    have hAf : A.filter q = (A.takeWhile (fun y => !lt e y)).filter q := by
      conv_lhs => rw [← List.takeWhile_append_dropWhile (p := fun y => !lt e y) (l := A)]
      rw [List.filter_append, hD, List.append_nil]
    simp only [List.filter_cons, hqe, if_true, if_pos, hD, hAf]

theorem isortFold_go_filter {lt : α → α → Bool} (h : IsSWO lt) {q : α → Bool}
    (hq : stablePred lt q) :
    ∀ (rest : List α) (acc : List α), List.Pairwise (leOf lt) acc →
      (rest.foldl (upInsert lt) acc).filter q = acc.filter q ++ rest.filter q := by
  intro rest
  induction rest with
  | nil => intro acc _; simp
  | cons x xs ih =>
    intro acc hacc
    have h1 : (x :: xs).foldl (upInsert lt) acc = xs.foldl (upInsert lt) (upInsert lt acc x) := rfl
    rw [h1, ih _ (pairwise_upInsert h x hacc), filter_upInsert h hq hacc x]
    cases hqx : q x with
    | false => simp [List.filter_cons, hqx]
    | true => simp [List.filter_cons, hqx]

theorem isortFold_filter {lt : α → α → Bool} (h : IsSWO lt) {q : α → Bool}
    (hq : stablePred lt q) (l : List α) :
    (isortFold lt l).filter q = l.filter q := by
  simpa using isortFold_go_filter h hq l []

/-! ### `insertion_sort`

The C++ loop keeps the prefix left of `right` sorted; the inner loop scans the
prefix from its right end, shifting each element greater than `elem` one slot
to the right, and places `elem` in the hole where the scan stops.  In the
embedding the prefix is carried in reverse (`rpre`, right end first) and
`moved` holds the elements already shifted, in order; the scan returns the new
prefix, again in reverse. -/

def scan_insert (lt : α → α → Bool) (e : α) : List α → List α → List α
  | [], moved => List.reverseAux moved [e]
  | p :: ps, moved =>
    if lt e p then scan_insert lt e ps (p :: moved)
    else List.reverseAux moved (e :: p :: ps)

def insertion_sortGo (lt : α → α → Bool) : List α → List α → List α
  | rpre, [] => rpre.reverse
  | rpre, x :: xs => insertion_sortGo lt (scan_insert lt x rpre []) xs

/-- `insertion_sort` from sorts.cpp (the buffered-shift variant).  The C++
starts the loop at `next(first)` with the one-element prefix `[*first]`;
inserting the head into the empty prefix gives the same state, and the
`first == last` early return is the `[]` case of the loop. -/
def insertion_sort (lt : α → α → Bool) (l : List α) : List α :=
  insertion_sortGo lt [] l

theorem scan_insert_eq {lt : α → α → Bool} (h : IsSWO lt) (e : α) :
    ∀ (rpre moved : List α), List.Pairwise (leOf lt) rpre.reverse →
      (scan_insert lt e rpre moved).reverse = upInsert lt rpre.reverse e ++ moved := by
  intro rpre
  induction rpre with
  | nil => intro moved _; simp [scan_insert, List.reverseAux_eq, upInsert]
  | cons p ps ih =>
    intro moved hsorted
    cases hp : lt e p with
    | true =>
      have hps : List.Pairwise (leOf lt) ps.reverse := by
        have := List.pairwise_append.mp (by simpa using hsorted)
        exact this.1
      simp only [scan_insert, hp, if_true]
      rw [ih (p :: moved) hps]
      simp only [List.reverse_cons]
      rw [upInsert_append_last hp]
      simp
    | false =>
      simp only [scan_insert, hp, Bool.false_eq_true, if_false, List.reverseAux_eq]
      have hall : ∀ y ∈ ps.reverse ++ [p], lt e y = false := by
        intro y hy
        rcases List.mem_append.mp hy with hy1 | hy2
        · cases hey : lt e y with
          | false => rfl
          | true =>
            have hyp : leOf lt y p := by
              have hsp := List.pairwise_append.mp (by simpa using hsorted)
              exact hsp.2.2 y hy1 p (by simp)
            have := h.lt_of_lt_of_le hey hyp
            rw [this] at hp; exact absurd hp (by simp)
        · rcases List.mem_singleton.mp hy2 with rfl
          exact hp
      have : upInsert lt (p :: ps).reverse e = ps.reverse ++ [p] ++ [e] := by
        rw [List.reverse_cons]
        exact upInsert_at_end (by simpa using hall)
      rw [this]
      simp

theorem insertion_sortGo_eq {lt : α → α → Bool} (h : IsSWO lt) :
    ∀ (rest rpre : List α), List.Pairwise (leOf lt) rpre.reverse →
      insertion_sortGo lt rpre rest = rest.foldl (upInsert lt) rpre.reverse := by
  intro rest
  induction rest with
  | nil => intro rpre _; rfl
  | cons x xs ih =>
    intro rpre hsorted
    have hscan := scan_insert_eq h x rpre [] hsorted
    rw [List.append_nil] at hscan
    have hsorted2 : List.Pairwise (leOf lt) (scan_insert lt x rpre []).reverse := by
      rw [hscan]; exact pairwise_upInsert h x hsorted
    calc insertion_sortGo lt rpre (x :: xs)
        = insertion_sortGo lt (scan_insert lt x rpre []) xs := rfl
      _ = xs.foldl (upInsert lt) (scan_insert lt x rpre []).reverse := ih _ hsorted2
      _ = xs.foldl (upInsert lt) (upInsert lt rpre.reverse x) := by rw [hscan]
      _ = (x :: xs).foldl (upInsert lt) rpre.reverse := rfl

theorem insertion_sort_eq_isortFold {lt : α → α → Bool} (h : IsSWO lt) (l : List α) :
    insertion_sort lt l = isortFold lt l := by
  have := insertion_sortGo_eq h l [] (by simp)
  simpa [insertion_sort, isortFold] using this

/-! ### `insertion_sort_byswap`

Here the inner loop performs `iter_swap(left, prev(left))` while
`*left < *prev(left)`; the element at the cursor is always the element being
moved down, so in zipper form the step is identical to the shifting scan:
the passed element goes onto `moved`, the cursor element stays in focus. -/

def swap_scan (lt : α → α → Bool) (e : α) : List α → List α → List α
  | [], moved => List.reverseAux moved [e]
  | p :: ps, moved =>
    if lt e p then swap_scan lt e ps (p :: moved)
    else List.reverseAux moved (e :: p :: ps)

def insertion_sort_byswapGo (lt : α → α → Bool) : List α → List α → List α
  | rpre, [] => rpre.reverse
  | rpre, x :: xs => insertion_sort_byswapGo lt (swap_scan lt x rpre []) xs

/-- `insertion_sort_byswap` from sorts.cpp. -/
def insertion_sort_byswap (lt : α → α → Bool) (l : List α) : List α :=
  insertion_sort_byswapGo lt [] l

theorem swap_scan_eq_scan_insert (lt : α → α → Bool) (e : α) :
    ∀ (rpre moved : List α), swap_scan lt e rpre moved = scan_insert lt e rpre moved := by
  intro rpre
  induction rpre with
  | nil => intro moved; rfl
  | cons p ps ih =>
    intro moved
    cases hp : lt e p with
    | true => simp only [swap_scan, scan_insert, hp, if_true]; exact ih _
    | false => simp only [swap_scan, scan_insert, hp, Bool.false_eq_true, if_false]

theorem insertion_sort_byswap_eq (lt : α → α → Bool) (l : List α) :
    insertion_sort_byswap lt l = insertion_sort lt l := by
  have : ∀ (rest rpre : List α),
      insertion_sort_byswapGo lt rpre rest = insertion_sortGo lt rpre rest := by
    intro rest
    induction rest with
    | nil => intro rpre; rfl
    | cons x xs ih =>
      intro rpre
      calc insertion_sort_byswapGo lt rpre (x :: xs)
          = insertion_sort_byswapGo lt (swap_scan lt x rpre []) xs := rfl
        _ = insertion_sortGo lt (swap_scan lt x rpre []) xs := ih _
        _ = insertion_sortGo lt (scan_insert lt x rpre []) xs := by
            rw [swap_scan_eq_scan_insert]
        _ = insertion_sortGo lt rpre (x :: xs) := rfl
  exact this l []

/-! ### Binary insertion sorts

`std::upper_bound` is standard-library code, not part of the repository; it
is modelled by its specified result on a partitioned range: the first
position whose element is greater than the key, i.e. the length of the
longest prefix of elements not greater than the key. -/

def upper_bound (lt : α → α → Bool) (e : α) (A : List α) : Nat :=
  (A.takeWhile (fun y => !lt e y)).length

def binary_insertion_sortGo (lt : α → α → Bool) : List α → List α → List α
  | pre, [] => pre
  | pre, x :: xs =>
    binary_insertion_sortGo lt
      (pre.take (upper_bound lt x pre) ++ x :: pre.drop (upper_bound lt x pre)) xs

/-- `binary_insertion_sort` from sorts.cpp: find the upper-bound position by
binary search, shift `[left, right)` one slot right (`std::move_backward`) and
place the element; the net effect on the prefix is insertion at that
position. -/
def binary_insertion_sort (lt : α → α → Bool) (l : List α) : List α :=
  binary_insertion_sortGo lt [] l

theorem insert_at_upper_bound (lt : α → α → Bool) (e : α) :
    ∀ A : List α,
      A.take (upper_bound lt e A) ++ e :: A.drop (upper_bound lt e A) = upInsert lt A e := by
  intro A
  induction A with
  | nil => simp [upper_bound, upInsert]
  | cons y ys ih =>
    cases hy : lt e y with
    | true => simp [upper_bound, List.takeWhile_cons, hy, upInsert]
    | false =>
      simp only [upper_bound, List.takeWhile_cons, hy, Bool.not_false, if_true,
        List.length_cons, List.take_succ_cons, List.drop_succ_cons, List.cons_append,
        upInsert, Bool.false_eq_true, if_false, List.cons.injEq, true_and]
      exact ih

theorem binary_insertion_sortGo_eq (lt : α → α → Bool) :
    ∀ (rest pre : List α),
      binary_insertion_sortGo lt pre rest = rest.foldl (upInsert lt) pre := by
  intro rest
  induction rest with
  | nil => intro pre; rfl
  | cons x xs ih =>
    intro pre
    calc binary_insertion_sortGo lt pre (x :: xs)
        = binary_insertion_sortGo lt
            (pre.take (upper_bound lt x pre) ++ x :: pre.drop (upper_bound lt x pre)) xs := rfl
      _ = xs.foldl (upInsert lt) (upInsert lt pre x) := by rw [ih, insert_at_upper_bound]
      _ = (x :: xs).foldl (upInsert lt) pre := rfl

theorem binary_insertion_sort_eq_isortFold (lt : α → α → Bool) (l : List α) :
    binary_insertion_sort lt l = isortFold lt l :=
  binary_insertion_sortGo_eq lt l []

/-- The rotating variant: `std::rotate(left, right, next(right))` moves
`*right` in front of `[left, right)`; the net effect on the prefix is again
insertion at the upper-bound position. -/
def binary_insertion_sort_byrotateGo (lt : α → α → Bool) : List α → List α → List α
  | pre, [] => pre
  | pre, x :: xs =>
    binary_insertion_sort_byrotateGo lt
      (pre.take (upper_bound lt x pre) ++ x :: pre.drop (upper_bound lt x pre)) xs

def binary_insertion_sort_byrotate (lt : α → α → Bool) (l : List α) : List α :=
  binary_insertion_sort_byrotateGo lt [] l

theorem binary_insertion_sort_byrotate_eq (lt : α → α → Bool) (l : List α) :
    binary_insertion_sort_byrotate lt l = binary_insertion_sort lt l := by
  have : ∀ (rest pre : List α),
      binary_insertion_sort_byrotateGo lt pre rest = binary_insertion_sortGo lt pre rest := by
    intro rest
    induction rest with
    | nil => intro pre; rfl
    | cons x xs ih => intro pre; exact ih _
  exact this l []

/-! ### `std::iter_swap` on a list -/

/-- Swap the elements at positions `i`, `j` (identity when a position is out of
range, which never happens on the calls the algorithms make). -/
def listSwap (s : List α) (i j : Nat) : List α :=
  match s[i]?, s[j]? with
  | some a, some b => (s.set i b).set j a
  | _, _ => s

theorem listSwap_length (s : List α) (i j : Nat) :
    (listSwap s i j).length = s.length := by
  unfold listSwap
  cases hi : s[i]? <;> cases hj : s[j]? <;> simp

theorem getElem?_listSwap (s : List α) (i j : Nat) (hi : i < s.length)
    (hj : j < s.length) (k : Nat) :
    (listSwap s i j)[k]? = if k = i then s[j]? else if k = j then s[i]? else s[k]? := by
  have hswap : listSwap s i j = (s.set i (s[j])).set j (s[i]) := by
    unfold listSwap
    rw [List.getElem?_eq_getElem hi, List.getElem?_eq_getElem hj]
  rw [hswap]
  by_cases hkj : k = j
  · subst hkj
    rw [List.getElem?_set_self (by simpa using hj)]
    by_cases hki : k = i
    · subst hki
      simp [List.getElem?_eq_getElem hi, List.getElem?_eq_getElem hj]
    · rw [if_neg hki, if_pos rfl, List.getElem?_eq_getElem hi]
  · rw [List.getElem?_set_ne (by omega)]
    by_cases hki : k = i
    · subst hki
      rw [List.getElem?_set_self hi, if_pos rfl, List.getElem?_eq_getElem hj]
    · rw [List.getElem?_set_ne (by omega), if_neg hki, if_neg hkj]

theorem perm_cons_swap_core (a b : α) (B C : List α) :
    List.Perm (a :: (B ++ b :: C)) (b :: (B ++ a :: C)) := by
  have h1 : List.Perm (B ++ b :: C) (b :: (B ++ C)) := List.perm_middle
  have h2 : List.Perm (B ++ a :: C) (a :: (B ++ C)) := List.perm_middle
  refine (h1.cons a).trans (List.Perm.trans ?_ (h2.cons b).symm)
  exact List.Perm.swap b a (B ++ C)

theorem listSwap_perm_of_lt (s : List α) {i j : Nat} (hij : i < j)
    (hj : j < s.length) : List.Perm (listSwap s i j) s := by
  have hi : i < s.length := lt_trans hij hj
  set a := s[i] with hadef
  set b := s[j] with hbdef
  have hswap : listSwap s i j = (s.set i b).set j a := by
    unfold listSwap
    rw [List.getElem?_eq_getElem hi, List.getElem?_eq_getElem hj]
  have hset1 : s.set i b = s.take i ++ b :: s.drop (i + 1) :=
    List.set_eq_take_cons_drop b hi
  have hjlen : j < (s.set i b).length := by simpa using hj
  have hset2 : (s.set i b).set j a =
      (s.set i b).take j ++ a :: (s.set i b).drop (j + 1) :=
    List.set_eq_take_cons_drop a hjlen
  -- decompose s itself at i
  have hs1 : s = s.take i ++ a :: s.drop (i + 1) := by
    conv_lhs => rw [← List.take_append_drop i s]
    rw [hadef]
    rw [List.getElem_cons_drop s i hi]
  -- within the region after i, decompose at j
  have hk : j - (i + 1) < (s.drop (i + 1)).length := by
    rw [List.length_drop]; omega
  set B := (s.drop (i + 1)).take (j - (i + 1)) with hBdef
  set C := (s.drop (i + 1)).drop (j - (i + 1) + 1) with hCdef
  have hv : (s.drop (i + 1))[j - (i + 1)] = s[j] := by
    rw [List.getElem_drop]
    have hidx : i + 1 + (j - (i + 1)) = j := by omega
    simp only [hidx]
  have hdropj : s.drop (i + 1) = B ++ b :: C := by
    conv_lhs => rw [← List.take_append_drop (j - (i + 1)) (s.drop (i + 1))]
    rw [hBdef, hCdef, hbdef, ← hv]
    rw [List.getElem_cons_drop (s.drop (i + 1)) (j - (i + 1)) hk]
  have hlen1 : (s.take i).length = i := by rw [List.length_take]; omega
  -- compute the two take/drop pieces of the swapped list
  have htake : (s.set i b).take j = s.take i ++ b :: B := by
    rw [hset1, List.take_append_eq_append_take,
      List.take_of_length_le (by omega : (s.take i).length ≤ j), hlen1]
    have hji : j - i = (j - (i + 1)) + 1 := by omega
    rw [hji, List.take_succ_cons]
  have hdrop : (s.set i b).drop (j + 1) = C := by
    rw [hset1, List.drop_append_eq_append_drop,
      List.drop_of_length_le (by omega : (s.take i).length ≤ j + 1), hlen1]
    have hji : j + 1 - i = (j - (i + 1)) + 1 + 1 := by omega
    rw [hji, List.nil_append, List.drop_succ_cons, hCdef, List.drop_drop]
  rw [hswap, hset2, htake, hdrop]
  conv_rhs => rw [hs1, hdropj]
  rw [List.append_assoc]
  exact List.Perm.append_left (s.take i) (perm_cons_swap_core a b B C).symm

theorem set_getElem_id (s : List α) (i : Nat) (hi : i < s.length) :
    s.set i (s[i]) = s := by
  apply List.ext_getElem?
  intro k
  rw [List.getElem?_set]
  split
  · next hik => subst hik; simp [List.getElem?_eq_getElem hi]
  · rfl

theorem listSwap_perm (s : List α) (i j : Nat) : List.Perm (listSwap s i j) s := by
  by_cases hi : i < s.length
  · by_cases hj : j < s.length
    · rcases Nat.lt_trichotomy i j with hij | hij | hij
      · exact listSwap_perm_of_lt s hij hj
      · subst hij
        have heq2 : listSwap s i i = (s.set i (s[i])).set i (s[i]) := by
          unfold listSwap
          rw [List.getElem?_eq_getElem hi]
        rw [heq2, List.set_set, set_getElem_id s i hi]
      · have hcomm : listSwap s i j = listSwap s j i := by
          unfold listSwap
          rw [List.getElem?_eq_getElem hi, List.getElem?_eq_getElem hj]
          exact List.set_comm _ _ _ (by omega)
        rw [hcomm]
        exact listSwap_perm_of_lt s hij hi
    · have heq : listSwap s i j = s := by
        unfold listSwap
        rw [List.getElem?_eq_none (by omega : s.length ≤ j)]
        cases s[i]? <;> rfl
      rw [heq]
  · have heq : listSwap s i j = s := by
      unfold listSwap
      rw [List.getElem?_eq_none (by omega : s.length ≤ i)]
    rw [heq]

/-! ### `selection_sort`

`std::min_element` is standard-library code; it is modelled by its specified
scan: keep the current best (initially the first element) and replace it
whenever a strictly smaller element is found, so the first of the smallest
elements wins.  `minIdxGo best bestIdx i xs` scans `xs`, which sits at offset
`i` of the whole range. -/

def minIdxGo (lt : α → α → Bool) : α → Nat → Nat → List α → Nat
  | _, bestIdx, _, [] => bestIdx
  | best, bestIdx, i, x :: xs =>
    if lt x best then minIdxGo lt x i (i + 1) xs else minIdxGo lt best bestIdx (i + 1) xs

def min_element_idx (lt : α → α → Bool) : List α → Nat
  | [] => 0
  | x :: xs => minIdxGo lt x 0 1 xs

theorem minIdxGo_spec {lt : α → α → Bool} (h : IsSWO lt) (l0 : List α) :
    ∀ (xs : List α) (best : α) (bestIdx i : Nat),
      l0[bestIdx]? = some best → l0.drop i = xs →
      ∃ m, l0[minIdxGo lt best bestIdx i xs]? = some m ∧ lt best m = false ∧
        ∀ z ∈ xs, lt z m = false := by
  intro xs
  induction xs with
  | nil =>
    intro best bestIdx i hb _
    exact ⟨best, by simpa [minIdxGo] using hb, h.irrefl best, by simp⟩
  | cons x xs ih =>
    intro best bestIdx i hb hdrop
    have hx : l0[i]? = some x := by
      have := List.getElem?_drop l0 i 0
      rw [hdrop] at this
      simpa using this.symm
    have hdrop2 : l0.drop (i + 1) = xs := by
      have := List.drop_drop 1 i l0
      rw [hdrop] at this
      simpa [Nat.add_comm] using this.symm
    cases hlt : lt x best with
    | true =>
      rcases ih x i (i + 1) hx hdrop2 with ⟨m, hm, hxm, hall⟩
      refine ⟨m, by simpa [minIdxGo, hlt] using hm, ?_, ?_⟩
      · cases hbm : lt best m with
        | false => rfl
        | true =>
          have : lt best x = true := h.lt_of_lt_of_le hbm hxm
          rw [h.asymm x best hlt] at this
          exact absurd this (by simp)
      · intro z hz
        rcases List.mem_cons.mp hz with rfl | hz2
        · exact hxm
        · exact hall z hz2
    | false =>
      rcases ih best bestIdx (i + 1) hb hdrop2 with ⟨m, hm, hbm, hall⟩
      refine ⟨m, by simpa [minIdxGo, hlt] using hm, hbm, ?_⟩
      intro z hz
      rcases List.mem_cons.mp hz with rfl | hz2
      · cases hzm : lt z m with
        | false => rfl
        | true =>
          have : lt z best = true := h.lt_of_lt_of_le hzm hbm
          rw [hlt] at this
          exact absurd this (by simp)
      · exact hall z hz2

theorem min_element_spec {lt : α → α → Bool} (h : IsSWO lt) (x : α) (xs : List α) :
    ∃ m, (x :: xs)[min_element_idx lt (x :: xs)]? = some m ∧
      ∀ z ∈ x :: xs, lt z m = false := by
  rcases minIdxGo_spec h (x :: xs) xs x 0 1 (by simp) (by simp) with ⟨m, hm, hxm, hall⟩
  refine ⟨m, by simpa [min_element_idx] using hm, ?_⟩
  intro z hz
  rcases List.mem_cons.mp hz with rfl | hz2
  · exact hxm
  · exact hall z hz2

/-- `selection_sort` from sorts.cpp: for each position, swap the first minimum
of the remaining suffix (`std::min_element`) to its front. -/
def selection_sortGo (lt : α → α → Bool) : List α → List α
  | [] => []
  | x :: xs =>
    let s2 := listSwap (x :: xs) 0 (min_element_idx lt (x :: xs))
    s2.headD x :: selection_sortGo lt s2.tail
termination_by s => s.length
decreasing_by
  simp only [List.length_tail, listSwap_length, List.length_cons]
  omega

def selection_sort (lt : α → α → Bool) (l : List α) : List α := selection_sortGo lt l

theorem selection_sortGo_spec {lt : α → α → Bool} (h : IsSWO lt) :
    ∀ (s : List α), List.Perm (selection_sortGo lt s) s ∧
      List.Pairwise (leOf lt) (selection_sortGo lt s) := by
  have H : ∀ (n : Nat) (s : List α), s.length ≤ n →
      List.Perm (selection_sortGo lt s) s ∧
        List.Pairwise (leOf lt) (selection_sortGo lt s) := by
    intro n
    induction n with
    | zero =>
      intro s hs
      have : s = [] := List.length_eq_zero.mp (by omega)
      subst this
      simp [selection_sortGo]
    | succ n ihn =>
      intro s hs
      cases s with
      | nil => simp [selection_sortGo]
      | cons x xs =>
        rcases min_element_spec h x xs with ⟨m, hm, hall⟩
        have hjlen : min_element_idx lt (x :: xs) < (x :: xs).length :=
          (List.getElem?_eq_some_iff.mp hm).1
        set j := min_element_idx lt (x :: xs) with hjdef
        have hperm : List.Perm (listSwap (x :: xs) 0 j) (x :: xs) :=
          listSwap_perm (x :: xs) 0 j
        have hhead : (listSwap (x :: xs) 0 j)[0]? = some m := by
          rw [getElem?_listSwap (x :: xs) 0 j (by simp) hjlen 0]
          simpa using hm
        have hlen2 : (listSwap (x :: xs) 0 j).length = xs.length + 1 := by
          rw [listSwap_length]; rfl
        obtain ⟨hd, tl, hcons⟩ : ∃ hd tl, listSwap (x :: xs) 0 j = hd :: tl := by
          cases hs2 : listSwap (x :: xs) 0 j with
          | nil => rw [hs2] at hlen2; simp at hlen2
          | cons hd tl => exact ⟨hd, tl, rfl⟩
        have hhd : hd = m := by rw [hcons] at hhead; simpa using hhead
        rw [hhd] at hcons
        have htl_len : tl.length = xs.length := by
          rw [hcons] at hlen2; simpa using hlen2
        have hrec := ihn tl (by simp at hs; omega)
        have hgo : selection_sortGo lt (x :: xs) = m :: selection_sortGo lt tl := by
          rw [selection_sortGo, hcons]
          rfl
        constructor
        · rw [hgo]
          refine List.Perm.trans ((hrec.1).cons m) ?_
          rw [← hcons]
          exact hperm
        · rw [hgo]
          rw [List.pairwise_cons]
          refine ⟨?_, hrec.2⟩
          intro z hz
          have hz2 : z ∈ m :: tl := List.mem_cons_of_mem m (hrec.1.mem_iff.mp hz)
          rw [← hcons] at hz2
          exact hall z (hperm.mem_iff.mp hz2)
  exact fun s => H s.length s (le_refl _)

theorem selection_sort_perm {lt : α → α → Bool} (h : IsSWO lt) (l : List α) :
    List.Perm (selection_sort lt l) l := (selection_sortGo_spec h l).1

theorem selection_sort_pairwise {lt : α → α → Bool} (h : IsSWO lt) (l : List α) :
    List.Pairwise (leOf lt) (selection_sort lt l) := (selection_sortGo_spec h l).2

/-! ### Bubble sorts

A pass walks adjacent pairs left to right, swapping each out-of-order pair and
carrying the larger element along.  `bubblePass` also reports whether any swap
happened (the `again` flag of the classic variant); `bubblePassLS` instead
reports the position just after the last swap (the `last_swapped` iterator of
the fully adaptive variant), `0` when no swap happened.  Termination of the
classic repeat-until-no-swap loop uses the inversion count. -/

def bubblePass (lt : α → α → Bool) : List α → List α × Bool
  | [] => ([], false)
  | [x] => ([x], false)
  | x :: y :: t =>
    if lt y x then
      let r := bubblePass lt (x :: t)
      (y :: r.1, true)
    else
      let r := bubblePass lt (y :: t)
      (x :: r.1, r.2)

def bubblePassLS (lt : α → α → Bool) : List α → List α × Nat
  | [] => ([], 0)
  | [x] => ([x], 0)
  | x :: y :: t =>
    if lt y x then
      let r := bubblePassLS lt (x :: t)
      (y :: r.1, r.2 + 1)
    else
      let r := bubblePassLS lt (y :: t)
      (x :: r.1, if r.2 = 0 then 0 else r.2 + 1)

/-- Number of inversions: pairs in the wrong strict order. -/
def invCount (lt : α → α → Bool) : List α → Nat
  | [] => 0
  | x :: xs => xs.countP (fun y => lt y x) + invCount lt xs

theorem bubblePass_eq_LS (lt : α → α → Bool) :
    ∀ l : List α, (bubblePass lt l).1 = (bubblePassLS lt l).1 ∧
      ((bubblePass lt l).2 = false ↔ (bubblePassLS lt l).2 = 0) := by
  intro l
  induction l using bubblePass.induct lt with
  | case1 => simp [bubblePass, bubblePassLS]
  | case2 x => simp [bubblePass, bubblePassLS]
  | case3 x y t hlt ih =>
    simp only [bubblePass, bubblePassLS, if_pos hlt]
    exact ⟨by rw [ih.1], by simp⟩
  | case4 x y t hlt ih =>
    simp only [bubblePass, bubblePassLS, if_neg hlt]
    rcases ih with ⟨h1, h2⟩
    refine ⟨by rw [h1], ?_⟩
    by_cases hz : (bubblePassLS lt (y :: t)).2 = 0
    · simp [hz, h2.mpr hz]
    · simp only [hz, if_neg, if_false]
      constructor
      · intro hf; exact absurd (h2.mp hf) hz
      · intro hc; exact absurd hc (by simp)

theorem bubblePassLS_perm (lt : α → α → Bool) :
    ∀ l : List α, List.Perm (bubblePassLS lt l).1 l := by
  intro l
  induction l using bubblePassLS.induct lt with
  | case1 => simp [bubblePassLS]
  | case2 x => simp [bubblePassLS]
  | case3 x y t hlt ih =>
    simp only [bubblePassLS, if_pos hlt]
    exact (ih.cons y).trans (List.Perm.swap x y t)
  | case4 x y t hlt ih =>
    simp only [bubblePassLS, if_neg hlt]
    exact ih.cons x

theorem bubblePassLS_length (lt : α → α → Bool) (l : List α) :
    (bubblePassLS lt l).1.length = l.length :=
  (bubblePassLS_perm lt l).length_eq

theorem bubblePassLS_bound (lt : α → α → Bool) :
    ∀ l : List α, (bubblePassLS lt l).2 + 1 ≤ l.length ∨ (bubblePassLS lt l).2 = 0 := by
  intro l
  induction l using bubblePassLS.induct lt with
  | case1 => simp [bubblePassLS]
  | case2 x => simp [bubblePassLS]
  | case3 x y t hlt ih =>
    simp only [bubblePassLS, if_pos hlt]
    rcases ih with h1 | h1
    · left; simp only [List.length_cons] at h1 ⊢; omega
    · left; simp [h1]
  | case4 x y t hlt ih =>
    simp only [bubblePassLS, if_neg hlt]
    by_cases hz : (bubblePassLS lt (y :: t)).2 = 0
    · right; simp [hz]
    · left
      rcases ih with h1 | h1
      · simp only [hz, if_neg, if_false, List.length_cons] at *
        omega
      · exact absurd h1 hz

theorem countP_eq_of_perm {p : α → Bool} {l1 l2 : List α} (h : List.Perm l1 l2) :
    l1.countP p = l2.countP p := h.countP_eq p

theorem bubblePass_invCount {lt : α → α → Bool} (h : IsSWO lt) :
    ∀ l : List α, invCount lt (bubblePass lt l).1 +
      (if (bubblePass lt l).2 = true then 1 else 0) ≤ invCount lt l := by
  intro l
  induction l using bubblePass.induct lt with
  | case1 => simp [bubblePass, invCount]
  | case2 x => simp [bubblePass, invCount]
  | case3 x y t hlt ih =>
    simp only [bubblePass, if_pos hlt, if_true]
    have hperm : List.Perm (bubblePass lt (x :: t)).1 (x :: t) := by
      rw [(bubblePass_eq_LS lt (x :: t)).1]
      exact bubblePassLS_perm lt (x :: t)
    have hcnt : (bubblePass lt (x :: t)).1.countP (fun z => lt z y) =
        (x :: t).countP (fun z => lt z y) := countP_eq_of_perm hperm
    have hxy : lt x y = false := h.asymm y x hlt
    have h1 : invCount lt (y :: (bubblePass lt (x :: t)).1) =
        t.countP (fun z => lt z y) + invCount lt (bubblePass lt (x :: t)).1 := by
      simp only [invCount, hcnt, List.countP_cons, hxy]
      simp
    rw [h1]
    have h2 : invCount lt (x :: y :: t) =
        1 + t.countP (fun z => lt z x) + t.countP (fun z => lt z y) + invCount lt t := by
      simp only [invCount, List.countP_cons, hlt]
      simp
      omega
    have h3 := ih
    simp only [invCount] at h3
    omega
  | case4 x y t hlt ih =>
    simp only [bubblePass, if_neg hlt]
    have hperm : List.Perm (bubblePass lt (y :: t)).1 (y :: t) := by
      rw [(bubblePass_eq_LS lt (y :: t)).1]
      exact bubblePassLS_perm lt (y :: t)
    have hcnt : (bubblePass lt (y :: t)).1.countP (fun z => lt z x) =
        (y :: t).countP (fun z => lt z x) := countP_eq_of_perm hperm
    have h1 : invCount lt (x :: (bubblePass lt (y :: t)).1) =
        (y :: t).countP (fun z => lt z x) + invCount lt (bubblePass lt (y :: t)).1 := by
      simp only [invCount, hcnt]
    have h2 : invCount lt (x :: y :: t) =
        (y :: t).countP (fun z => lt z x) + invCount lt (y :: t) := by
      simp only [invCount]
    rw [h1, h2]
    omega

/-- The key postcondition of a single pass: beyond the last swap position `m`
the list is an ascending chain, everything before position `m` is bounded by
everything from position `m` on, and everything from position `m` on dominates
the old head. -/
theorem bubblePassLS_inv {lt : α → α → Bool} (h : IsSWO lt) :
    ∀ l : List α, l ≠ [] →
      List.Pairwise (leOf lt) ((bubblePassLS lt l).1.drop (bubblePassLS lt l).2) ∧
      (∀ a ∈ (bubblePassLS lt l).1.take (bubblePassLS lt l).2,
        ∀ b ∈ (bubblePassLS lt l).1.drop (bubblePassLS lt l).2, leOf lt a b) ∧
      (∀ b ∈ (bubblePassLS lt l).1.drop (bubblePassLS lt l).2,
        ∀ hx : l ≠ [], leOf lt (l.head hx) b) := by
  intro l
  induction l using bubblePassLS.induct lt with
  | case1 => intro hne; exact absurd rfl hne
  | case2 x =>
    intro _
    refine ⟨by simp [bubblePassLS], by simp [bubblePassLS], ?_⟩
    intro b hb _
    simp only [bubblePassLS, List.drop_zero, List.mem_singleton] at hb
    subst hb
    exact h.le_refl _
  | case3 x y t hlt ih =>
    intro _
    rcases ih (by simp) with ⟨ha, hb, hd⟩
    have hstep1 : (bubblePassLS lt (x :: y :: t)).1 = y :: (bubblePassLS lt (x :: t)).1 := by
      simp [bubblePassLS, if_pos hlt]
    have hstep2 : (bubblePassLS lt (x :: y :: t)).2 = (bubblePassLS lt (x :: t)).2 + 1 := by
      simp [bubblePassLS, if_pos hlt]
    rw [hstep1, hstep2, List.drop_succ_cons, List.take_succ_cons]
    have hd2 : ∀ b ∈ (bubblePassLS lt (x :: t)).1.drop (bubblePassLS lt (x :: t)).2,
        leOf lt x b := fun b hbm => hd b hbm (by simp)
    refine ⟨ha, ?_, ?_⟩
    · intro a haMem b hbMem
      rcases List.mem_cons.mp haMem with rfl | ha2
      · -- a = y : from lt y x and x ≤ b conclude y ≤ b
        have hxb : lt b x = false := hd2 b hbMem
        cases hby : lt b a with
        | false => exact hby
        | true =>
          have hbx : lt b x = true := h.trans b a x hby hlt
          rw [hxb] at hbx
          exact absurd hbx (by simp)
      · exact hb a ha2 b hbMem
    · intro b hbMem _
      simp only [List.head_cons]
      exact hd2 b hbMem
  | case4 x y t hlt ih =>
    intro _
    rcases ih (by simp) with ⟨ha, hb, hd⟩
    have hxy : leOf lt x y := by
      cases hyx : lt y x with
      | false => exact hyx
      | true => exact absurd hyx hlt
    have hd2 : ∀ b ∈ (bubblePassLS lt (y :: t)).1.drop (bubblePassLS lt (y :: t)).2,
        leOf lt x b := by
      intro b hbMem
      exact h.le_trans hxy (hd b hbMem (by simp))
    have hstep1 : (bubblePassLS lt (x :: y :: t)).1 = x :: (bubblePassLS lt (y :: t)).1 := by
      simp [bubblePassLS, if_neg hlt]
    have hstep2 : (bubblePassLS lt (x :: y :: t)).2 =
        if (bubblePassLS lt (y :: t)).2 = 0 then 0 else (bubblePassLS lt (y :: t)).2 + 1 := by
      simp [bubblePassLS, if_neg hlt]
    by_cases hz : (bubblePassLS lt (y :: t)).2 = 0
    · rw [hstep1, hstep2, if_pos hz]
      rw [hz, List.drop_zero] at ha hd2
      refine ⟨?_, by simp, ?_⟩
      · rw [List.drop_zero, List.pairwise_cons]
        exact ⟨hd2, ha⟩
      · intro b hbMem _
        rw [List.drop_zero] at hbMem
        simp only [List.head_cons]
        rcases List.mem_cons.mp hbMem with rfl | hb2
        · exact h.le_refl _
        · exact hd2 b hb2
    · rw [hstep1, hstep2, if_neg hz, List.drop_succ_cons, List.take_succ_cons]
      refine ⟨ha, ?_, ?_⟩
      · intro a haMem b hbMem
        rcases List.mem_cons.mp haMem with rfl | ha2
        · exact hd2 b hbMem
        · exact hb a ha2 b hbMem
      · intro b hbMem _
        simp only [List.head_cons]
        exact hd2 b hbMem

/-- A pass changes nothing seen through a class filter: the two elements of a
swapped pair are strictly ordered, so at most one satisfies `q`. -/
theorem bubblePassLS_filter {lt : α → α → Bool} {q : α → Bool}
    (hq : stablePred lt q) :
    ∀ l : List α, (bubblePassLS lt l).1.filter q = l.filter q := by
  intro l
  induction l using bubblePassLS.induct lt with
  | case1 => simp [bubblePassLS]
  | case2 x => simp [bubblePassLS]
  | case3 x y t hlt ih =>
    have hstep1 : (bubblePassLS lt (x :: y :: t)).1 = y :: (bubblePassLS lt (x :: t)).1 := by
      simp [bubblePassLS, if_pos hlt]
    rw [hstep1]
    rcases hq y x hlt with hqy | hqx
    · simp [List.filter_cons, hqy, ih]
    · simp [List.filter_cons, hqx, ih]
  | case4 x y t hlt ih =>
    have hstep1 : (bubblePassLS lt (x :: y :: t)).1 = x :: (bubblePassLS lt (y :: t)).1 := by
      simp [bubblePassLS, if_neg hlt]
    rw [hstep1, List.filter_cons, ih]
    conv_rhs => rw [List.filter_cons]

/-- `bubble_sort` (classic) from sorts.cpp: repeat whole passes until one makes
no swap.  The loop terminates only because a swapping pass strictly lowers the
inversion count, which needs `lt` to be a strict weak ordering, so the
validity witness is a parameter of the definition itself. -/
def bubble_sort (lt : α → α → Bool) (h : IsSWO lt) (l : List α) : List α :=
  if hr : (bubblePass lt l).2 = true then bubble_sort lt h (bubblePass lt l).1
  else (bubblePass lt l).1
termination_by invCount lt l
decreasing_by
  have hle := bubblePass_invCount h l
  rw [if_pos hr] at hle
  omega

/-- Invariant of the shrinking bubble loops: the suffix from position `n` is
sorted and dominates the first `n` positions. -/
def sortedSuffixFrom (lt : α → α → Bool) (l : List α) (n : Nat) : Prop :=
  List.Pairwise (leOf lt) (l.drop n) ∧ ∀ a ∈ l.take n, ∀ b ∈ l.drop n, leOf lt a b

theorem sortedSuffixFrom_mono {lt : α → α → Bool} {l : List α} {m k : Nat}
    (hmk : m ≤ k) (hI : sortedSuffixFrom lt l m) : sortedSuffixFrom lt l k := by
  rcases hI with ⟨hp, hc⟩
  have hdd : (l.drop m).drop (k - m) = l.drop k := by
    rw [List.drop_drop]
    congr 1
    omega
  have hdecomp : l.drop m = (l.drop m).take (k - m) ++ l.drop k := by
    conv_lhs => rw [← List.take_append_drop (k - m) (l.drop m)]
    rw [hdd]
  have htake : l.take k = l.take m ++ (l.drop m).take (k - m) := by
    have h2 := List.take_add l m (k - m)
    have h1 : m + (k - m) = k := by omega
    rw [h1] at h2
    exact h2
  rw [hdecomp] at hp
  rcases List.pairwise_append.mp hp with ⟨_, hk2, hcross⟩
  refine ⟨hk2, ?_⟩
  intro a haMem b hbMem
  rw [htake] at haMem
  rcases List.mem_append.mp haMem with ha1 | ha2
  · exact hc a ha1 b (by rw [hdecomp]; exact List.mem_append.mpr (Or.inr hbMem))
  · exact hcross a ha2 b hbMem

theorem bubblePassLS_le_n (lt : α → α → Bool) (l : List α) (n : Nat) :
    (bubblePassLS lt (l.take n)).2 ≤ n := by
  rcases bubblePassLS_bound lt (l.take n) with h1 | h1
  · rw [List.length_take] at h1; omega
  · omega

/-- One shrinking-range pass, seen on the whole list: the pass runs on the
first `n` positions, the rest is untouched.  It preserves the invariant down
to the last-swap position, the multiset and the class filters. -/
theorem bubblePassLS_step {lt : α → α → Bool} (h : IsSWO lt) {l : List α} {n : Nat}
    (hn1 : 1 ≤ n) (hne : l ≠ []) (hI : sortedSuffixFrom lt l n) :
    sortedSuffixFrom lt ((bubblePassLS lt (l.take n)).1 ++ l.drop n)
        (bubblePassLS lt (l.take n)).2 ∧
      List.Perm ((bubblePassLS lt (l.take n)).1 ++ l.drop n) l := by
  set A := l.take n with hAdef
  set p := (bubblePassLS lt A).1 with hpdef
  set m := (bubblePassLS lt A).2 with hmdef
  have hAne : A ≠ [] := by
    rw [hAdef]
    cases l with
    | nil => exact absurd rfl hne
    | cons x xs => cases n with
      | zero => omega
      | succ k => simp
  have hpermA : List.Perm p A := bubblePassLS_perm lt A
  have hplen : p.length = A.length := bubblePassLS_length lt A
  have hmn : m ≤ A.length := by
    rcases bubblePassLS_bound lt A with h1 | h1
    · omega
    · omega
  have hmp : m ≤ p.length := by omega
  rcases bubblePassLS_inv h A hAne with ⟨ha, hb, _⟩
  have hpermWhole : List.Perm (p ++ l.drop n) l := by
    refine List.Perm.trans (hpermA.append_right (l.drop n)) ?_
    rw [hAdef, List.take_append_drop]
  refine ⟨⟨?_, ?_⟩, hpermWhole⟩
  · -- Pairwise on the drop part
    have hdropEq : (p ++ l.drop n).drop m = p.drop m ++ l.drop n := by
      rw [List.drop_append_eq_append_drop]
      have : m - p.length = 0 := by omega
      rw [this, List.drop_zero]
    rw [hdropEq]
    rw [List.pairwise_append]
    refine ⟨ha, hI.1, ?_⟩
    intro a haMem b hbMem
    have haA : a ∈ A := hpermA.mem_iff.mp (List.drop_subset _ _ haMem)
    rw [hAdef] at haA
    exact hI.2 a haA b hbMem
  · -- everything before m bounded by everything from m on
    have hdropEq : (p ++ l.drop n).drop m = p.drop m ++ l.drop n := by
      rw [List.drop_append_eq_append_drop]
      have : m - p.length = 0 := by omega
      rw [this, List.drop_zero]
    have htakeEq : (p ++ l.drop n).take m = p.take m := by
      rw [List.take_append_eq_append_take]
      have : m - p.length = 0 := by omega
      rw [this, List.take_zero, List.append_nil]
    rw [hdropEq, htakeEq]
    intro a haMem b hbMem
    rcases List.mem_append.mp hbMem with hb1 | hb2
    · exact hb a haMem b hb1
    · have haA : a ∈ A := hpermA.mem_iff.mp (List.take_subset _ _ haMem)
      rw [hAdef] at haA
      exact hI.2 a haA b hb2

/-- `bubble_sort_nonadaptive` from sorts.cpp: the scanned range shrinks by one
after every pass, regardless of activity.  `n` is the current `last`. -/
def bubble_sort_nonadaptiveGo (lt : α → α → Bool) (l : List α) : Nat → List α
  | 0 => l
  | n + 1 =>
    bubble_sort_nonadaptiveGo lt ((bubblePass lt (l.take (n + 1))).1 ++ l.drop (n + 1)) n

def bubble_sort_nonadaptive (lt : α → α → Bool) (l : List α) : List α :=
  bubble_sort_nonadaptiveGo lt l l.length

/-- `bubble_sort_maxadaptive` from sorts.cpp: after each pass the range end
moves to just past the last swap of that pass. -/
def bubble_sort_maxadaptiveGo (lt : α → α → Bool) (l : List α) (n : Nat) : List α :=
  if hn : n = 0 then l
  else
    bubble_sort_maxadaptiveGo lt ((bubblePassLS lt (l.take n)).1 ++ l.drop n)
      (bubblePassLS lt (l.take n)).2
termination_by n
decreasing_by
  have := bubblePassLS_le_n lt l n
  rcases bubblePassLS_bound lt (l.take n) with h1 | h1
  · rw [List.length_take] at h1; omega
  · omega

def bubble_sort_maxadaptive (lt : α → α → Bool) (l : List α) : List α :=
  bubble_sort_maxadaptiveGo lt l l.length

theorem bubble_sort_spec {lt : α → α → Bool} (h : IsSWO lt) :
    ∀ l : List α, List.Perm (bubble_sort lt h l) l ∧
      List.Pairwise (leOf lt) (bubble_sort lt h l) := by
  intro l
  induction l using bubble_sort.induct lt h with
  | case1 l hr ih =>
    rw [bubble_sort, dif_pos hr]
    have hperm : List.Perm (bubblePass lt l).1 l := by
      rw [(bubblePass_eq_LS lt l).1]
      exact bubblePassLS_perm lt l
    exact ⟨ih.1.trans hperm, ih.2⟩
  | case2 l hr =>
    rw [bubble_sort, dif_neg hr]
    have hflag : (bubblePass lt l).2 = false := by
      cases hf : (bubblePass lt l).2 with
      | false => rfl
      | true => exact absurd hf hr
    have hm0 : (bubblePassLS lt l).2 = 0 := (bubblePass_eq_LS lt l).2.mp hflag
    have hperm : List.Perm (bubblePass lt l).1 l := by
      rw [(bubblePass_eq_LS lt l).1]
      exact bubblePassLS_perm lt l
    refine ⟨hperm, ?_⟩
    cases l with
    | nil =>
      have : (bubblePass lt ([] : List α)).1 = [] := by simp [bubblePass]
      rw [this]
      simp
    | cons x xs =>
      rcases bubblePassLS_inv h (x :: xs) (by simp) with ⟨ha, _, _⟩
      rw [hm0, List.drop_zero] at ha
      rw [(bubblePass_eq_LS lt (x :: xs)).1]
      exact ha

theorem bubble_sort_filter {lt : α → α → Bool} (h : IsSWO lt) {q : α → Bool}
    (hq : stablePred lt q) :
    ∀ l : List α, (bubble_sort lt h l).filter q = l.filter q := by
  intro l
  induction l using bubble_sort.induct lt h with
  | case1 l hr ih =>
    rw [bubble_sort, dif_pos hr, ih, (bubblePass_eq_LS lt l).1]
    exact bubblePassLS_filter hq l
  | case2 l hr =>
    rw [bubble_sort, dif_neg hr, (bubblePass_eq_LS lt l).1]
    exact bubblePassLS_filter hq l

theorem bubble_sort_nonadaptiveGo_spec {lt : α → α → Bool} (h : IsSWO lt) :
    ∀ (n : Nat) (l : List α), n ≤ l.length → sortedSuffixFrom lt l n →
      List.Perm (bubble_sort_nonadaptiveGo lt l n) l ∧
        List.Pairwise (leOf lt) (bubble_sort_nonadaptiveGo lt l n) := by
  intro n
  induction n with
  | zero =>
    intro l _ hI
    rw [bubble_sort_nonadaptiveGo]
    exact ⟨List.Perm.refl l, by simpa using hI.1⟩
  | succ n ih =>
    intro l hn hI
    have hne : l ≠ [] := by
      cases l with
      | nil => simp at hn
      | cons a as => simp
    rcases bubblePassLS_step h (by omega : 1 ≤ n + 1) hne hI with ⟨hI2, hperm⟩
    set l2 := (bubblePassLS lt (l.take (n + 1))).1 ++ l.drop (n + 1) with hl2def
    have hI3 : sortedSuffixFrom lt l2 n :=
      sortedSuffixFrom_mono (by
        have := bubblePassLS_le_n lt l (n + 1)
        have hb := bubblePassLS_bound lt (l.take (n + 1))
        rcases hb with h1 | h1
        · rw [List.length_take] at h1; omega
        · omega) hI2
    have hlen2 : l2.length = l.length := hperm.length_eq
    have hrec := ih l2 (by omega) hI3
    have hunf : bubble_sort_nonadaptiveGo lt l (n + 1) = bubble_sort_nonadaptiveGo lt l2 n := by
      rw [bubble_sort_nonadaptiveGo, hl2def, (bubblePass_eq_LS lt (l.take (n + 1))).1]
    rw [hunf]
    exact ⟨hrec.1.trans hperm, hrec.2⟩

theorem bubble_sort_nonadaptive_spec {lt : α → α → Bool} (h : IsSWO lt) (l : List α) :
    List.Perm (bubble_sort_nonadaptive lt l) l ∧
      List.Pairwise (leOf lt) (bubble_sort_nonadaptive lt l) := by
  refine bubble_sort_nonadaptiveGo_spec h l.length l (le_refl _) ?_
  constructor
  · simp
  · intro a _ b hb
    simp at hb

theorem bubble_sort_nonadaptiveGo_filter {lt : α → α → Bool} {q : α → Bool}
    (hq : stablePred lt q) :
    ∀ (n : Nat) (l : List α),
      (bubble_sort_nonadaptiveGo lt l n).filter q = l.filter q := by
  intro n
  induction n with
  | zero => intro l; rfl
  | succ n ih =>
    intro l
    rw [bubble_sort_nonadaptiveGo, ih, List.filter_append,
      (bubblePass_eq_LS lt (l.take (n + 1))).1, bubblePassLS_filter hq, ← List.filter_append,
      List.take_append_drop]

theorem bubble_sort_maxadaptiveGo_spec {lt : α → α → Bool} (h : IsSWO lt) :
    ∀ (l : List α) (n : Nat), n ≤ l.length → sortedSuffixFrom lt l n →
      List.Perm (bubble_sort_maxadaptiveGo lt l n) l ∧
        List.Pairwise (leOf lt) (bubble_sort_maxadaptiveGo lt l n) := by
  intro l n
  induction l, n using bubble_sort_maxadaptiveGo.induct lt with
  | case1 l =>
    intro _ hI
    have hunf : bubble_sort_maxadaptiveGo lt l 0 = l := by
      rw [bubble_sort_maxadaptiveGo]
      rfl
    rw [hunf]
    exact ⟨List.Perm.refl l, by simpa using hI.1⟩
  | case2 l n hn ih =>
    intro hlen hI
    have hne : l ≠ [] := by
      cases l with
      | nil => simp at hlen; omega
      | cons a as => simp
    rcases bubblePassLS_step h (by omega : 1 ≤ n) hne hI with ⟨hI2, hperm⟩
    have hlen2 : ((bubblePassLS lt (l.take n)).1 ++ l.drop n).length = l.length :=
      hperm.length_eq
    have hrec := ih (by
      have := bubblePassLS_le_n lt l n
      omega) hI2
    rw [bubble_sort_maxadaptiveGo, dif_neg hn]
    exact ⟨hrec.1.trans hperm, hrec.2⟩

theorem bubble_sort_maxadaptive_spec {lt : α → α → Bool} (h : IsSWO lt) (l : List α) :
    List.Perm (bubble_sort_maxadaptive lt l) l ∧
      List.Pairwise (leOf lt) (bubble_sort_maxadaptive lt l) := by
  refine bubble_sort_maxadaptiveGo_spec h l l.length (le_refl _) ?_
  constructor
  · simp
  · intro a _ b hb
    simp at hb

theorem bubble_sort_maxadaptiveGo_filter {lt : α → α → Bool} {q : α → Bool}
    (hq : stablePred lt q) :
    ∀ (l : List α) (n : Nat),
      (bubble_sort_maxadaptiveGo lt l n).filter q = l.filter q := by
  intro l n
  induction l, n using bubble_sort_maxadaptiveGo.induct lt with
  | case1 l =>
    rw [bubble_sort_maxadaptiveGo]
    rfl
  | case2 l n hn ih =>
    rw [bubble_sort_maxadaptiveGo, dif_neg hn, ih, List.filter_append,
      bubblePassLS_filter hq, ← List.filter_append, List.take_append_drop]

/-! ### `gnome_sort` -/

theorem invCount_append (lt : α → α → Bool) :
    ∀ A B : List α, invCount lt (A ++ B) =
      invCount lt A + invCount lt B +
        (A.map (fun a => B.countP (fun b => lt b a))).sum := by
  intro A
  induction A with
  | nil => intro B; simp [invCount]
  | cons a A2 ih =>
    intro B
    have hgoal : invCount lt ((a :: A2) ++ B) =
        (A2 ++ B).countP (fun y => lt y a) + invCount lt (A2 ++ B) := rfl
    rw [hgoal, ih, List.countP_append]
    have hinv : invCount lt (a :: A2) = A2.countP (fun y => lt y a) + invCount lt A2 := rfl
    rw [hinv]
    simp only [List.map_cons, List.sum_cons]
    omega

theorem invCount_swap_adj {lt : α → α → Bool} (h : IsSWO lt) {c p : α}
    (hcp : lt c p = true) : ∀ (A R : List α),
      invCount lt (A ++ c :: p :: R) < invCount lt (A ++ p :: c :: R) := by
  intro A R
  rw [invCount_append, invCount_append]
  have h1 : lt p c = false := h.asymm c p hcp
  have hmap : A.map (fun a => (c :: p :: R).countP (fun b => lt b a)) =
      A.map (fun a => (p :: c :: R).countP (fun b => lt b a)) := by
    apply List.map_congr_left
    intro a _
    simp only [List.countP_cons]
    omega
  rw [hmap]
  have hc : invCount lt (c :: p :: R) =
      (if lt p c = true then 1 else 0) + R.countP (fun y => lt y c) +
        (R.countP (fun y => lt y p) + invCount lt R) := by
    have e1 : invCount lt (c :: p :: R) =
        (p :: R).countP (fun y => lt y c) + invCount lt (p :: R) := rfl
    have e2 : invCount lt (p :: R) = R.countP (fun y => lt y p) + invCount lt R := rfl
    rw [e1, e2, List.countP_cons]
    omega
  have hp : invCount lt (p :: c :: R) =
      (if lt c p = true then 1 else 0) + R.countP (fun y => lt y p) +
        (R.countP (fun y => lt y c) + invCount lt R) := by
    have e1 : invCount lt (p :: c :: R) =
        (c :: R).countP (fun y => lt y p) + invCount lt (c :: R) := rfl
    have e2 : invCount lt (c :: R) = R.countP (fun y => lt y c) + invCount lt R := rfl
    rw [e1, e2, List.countP_cons]
    omega
  rw [hc, hp, hcp, h1]
  simp
  omega

/-- `gnome_sort` from sorts.cpp: one cursor walks the list, advancing when the
current element is not less than its predecessor and otherwise swapping back
and retreating.  In the zipper state `rpre` holds the elements before the
cursor, in reverse; `cur == first` is `rpre = []`.  Swap steps strictly
decrease the inversion count of the (unchanged-multiset) whole list, advance
steps shrink the suffix, so the combined measure below decreases; termination
needs the strict-weak-ordering witness, which is therefore a parameter. -/
def gnome_sortGo (lt : α → α → Bool) (h : IsSWO lt) : List α → List α → List α
  | rpre, [] => rpre.reverse
  | [], c :: rest => gnome_sortGo lt h [c] rest
  | p :: ps, c :: rest =>
    if lt c p then gnome_sortGo lt h ps (c :: p :: rest)
    else gnome_sortGo lt h (c :: p :: ps) rest
termination_by rpre suf =>
  invCount lt (rpre.reverse ++ suf) * (rpre.length + suf.length + 1) + suf.length
decreasing_by
  · -- advance from the front: same list, shorter suffix
    have hsame : ([c] : List α).reverse ++ rest = ([] : List α).reverse ++ (c :: rest) := by
      simp
    rw [hsame]
    have hmeq : ([c] : List α).length + rest.length + 1 =
        ([] : List α).length + (c :: rest).length + 1 := by simp; omega
    rw [hmeq]
    simp only [List.length_cons, List.length_nil]
    omega
  · -- swap step: the inversion count strictly decreases
    rename_i hcp
    have hbefore : (p :: ps).reverse ++ c :: rest = ps.reverse ++ p :: c :: rest := by
      simp
    rw [hbefore]
    have hdec := invCount_swap_adj h hcp ps.reverse rest
    have hkey : (invCount lt (ps.reverse ++ c :: p :: rest) + 1) *
          (ps.length + rest.length + 3) ≤
        invCount lt (ps.reverse ++ p :: c :: rest) * (ps.length + rest.length + 3) :=
      Nat.mul_le_mul_right _ (Nat.succ_le_of_lt hdec)
    simp only [List.length_cons]
    nlinarith [hkey]
  · -- advance step: same list, shorter suffix
    have hsame : (c :: p :: ps).reverse ++ rest = (p :: ps).reverse ++ c :: rest := by
      simp
    rw [hsame]
    simp only [List.length_cons]
    nlinarith [Nat.zero_le (invCount lt ((p :: ps).reverse ++ c :: rest))]

def gnome_sort (lt : α → α → Bool) (h : IsSWO lt) (l : List α) : List α :=
  gnome_sortGo lt h [] l

theorem gnome_sortGo_spec {lt : α → α → Bool} (h : IsSWO lt) :
    ∀ (rpre suf : List α), List.Pairwise (leOf lt) rpre.reverse →
      List.Perm (gnome_sortGo lt h rpre suf) (rpre.reverse ++ suf) ∧
        List.Pairwise (leOf lt) (gnome_sortGo lt h rpre suf) := by
  intro rpre suf
  induction rpre, suf using gnome_sortGo.induct lt h with
  | case1 rpre =>
    intro hsorted
    rw [gnome_sortGo]
    exact ⟨by simp, hsorted⟩
  | case2 c rest ih =>
    intro _
    have hpre : List.Pairwise (leOf lt) ([c] : List α).reverse := by simp
    rcases ih hpre with ⟨hperm, hsorted⟩
    rw [gnome_sortGo]
    refine ⟨hperm.trans ?_, hsorted⟩
    simp
  | case3 p ps c rest hlt ih =>
    intro hsorted
    have hps : List.Pairwise (leOf lt) ps.reverse := by
      have := List.pairwise_append.mp (by simpa using hsorted)
      exact this.1
    rcases ih hps with ⟨hperm, hsorted2⟩
    have hunf : gnome_sortGo lt h (p :: ps) (c :: rest) =
        gnome_sortGo lt h ps (c :: p :: rest) := by
      rw [gnome_sortGo, if_pos hlt]
    rw [hunf]
    refine ⟨hperm.trans ?_, hsorted2⟩
    have h1 : (p :: ps).reverse ++ c :: rest = ps.reverse ++ p :: c :: rest := by simp
    rw [h1]
    exact List.Perm.append_left ps.reverse (List.Perm.swap p c rest)
  | case4 p ps c rest hlt ih =>
    intro hsorted
    have hsorted1 : List.Pairwise (leOf lt) (p :: ps).reverse := hsorted
    have hpc : leOf lt p c := by
      cases hcp : lt c p with
      | false => exact hcp
      | true => exact absurd hcp hlt
    have hpre2 : List.Pairwise (leOf lt) (c :: p :: ps).reverse := by
      have hshape : (c :: p :: ps).reverse = (p :: ps).reverse ++ [c] := by simp
      rw [hshape, List.pairwise_append]
      refine ⟨hsorted1, by simp, ?_⟩
      intro a haMem b hbMem
      rcases List.mem_singleton.mp hbMem with rfl
      rcases (by simpa using haMem : a ∈ ps.reverse ++ [p]) with haMem2
      rcases List.mem_append.mp haMem2 with ha1 | ha2
      · -- a before p : a ≤ p ≤ c
        have hap : leOf lt a p := by
          have := List.pairwise_append.mp (by simpa using hsorted1)
          exact this.2.2 a ha1 p (by simp)
        exact h.le_trans hap hpc
      · rcases List.mem_singleton.mp ha2 with rfl
        exact hpc
    rcases ih hpre2 with ⟨hperm, hsorted2⟩
    have hunf : gnome_sortGo lt h (p :: ps) (c :: rest) =
        gnome_sortGo lt h (c :: p :: ps) rest := by
      rw [gnome_sortGo, if_neg hlt]
    rw [hunf]
    refine ⟨hperm.trans ?_, hsorted2⟩
    have h1 : (c :: p :: ps).reverse ++ rest = (p :: ps).reverse ++ c :: rest := by simp
    rw [h1]

theorem gnome_sort_spec {lt : α → α → Bool} (h : IsSWO lt) (l : List α) :
    List.Perm (gnome_sort lt h l) l ∧
      List.Pairwise (leOf lt) (gnome_sort lt h l) := by
  have := gnome_sortGo_spec h [] l (by simp)
  simpa [gnome_sort] using this

theorem gnome_sortGo_filter {lt : α → α → Bool} (h : IsSWO lt) {q : α → Bool}
    (hq : stablePred lt q) :
    ∀ (rpre suf : List α),
      (gnome_sortGo lt h rpre suf).filter q = (rpre.reverse ++ suf).filter q := by
  intro rpre suf
  induction rpre, suf using gnome_sortGo.induct lt h with
  | case1 rpre => rw [gnome_sortGo]; simp
  | case2 c rest ih =>
    rw [gnome_sortGo, ih]
    simp
  | case3 p ps c rest hlt ih =>
    have hunf : gnome_sortGo lt h (p :: ps) (c :: rest) =
        gnome_sortGo lt h ps (c :: p :: rest) := by
      rw [gnome_sortGo, if_pos hlt]
    rw [hunf, ih]
    have h1 : (p :: ps).reverse ++ c :: rest = ps.reverse ++ p :: c :: rest := by simp
    rw [h1, List.filter_append, List.filter_append]
    congr 1
    rcases hq c p hlt with hqc | hqp
    · simp [List.filter_cons, hqc]
    · simp [List.filter_cons, hqp]
  | case4 p ps c rest hlt ih =>
    have hunf : gnome_sortGo lt h (p :: ps) (c :: rest) =
        gnome_sortGo lt h (c :: p :: ps) rest := by
      rw [gnome_sortGo, if_neg hlt]
    rw [hunf, ih]
    have h1 : (c :: p :: ps).reverse ++ rest = (p :: ps).reverse ++ c :: rest := by simp
    rw [h1]

theorem gnome_sort_filter {lt : α → α → Bool} (h : IsSWO lt) {q : α → Bool}
    (hq : stablePred lt q) (l : List α) :
    (gnome_sort lt h l).filter q = l.filter q := by
  have := gnome_sortGo_filter h hq [] l
  simpa [gnome_sort] using this

/-! ### Mergesorts

`detail::merge` moves elements into the auxiliary buffer, repeatedly taking the
lesser front element — the right one only when strictly less, so ties favor
the left — then bulk-moves the leftover side and copies the buffer back.  Its
net effect on the merged span is the functional merge below. -/

def merge (lt : α → α → Bool) : List α → List α → List α
  | [], ys => ys
  | x :: xs, [] => x :: xs
  | x :: xs, y :: ys =>
    if lt y x then y :: merge lt (x :: xs) ys
    else x :: merge lt xs (y :: ys)

theorem merge_perm (lt : α → α → Bool) :
    ∀ A B : List α, List.Perm (merge lt A B) (A ++ B) := by
  intro A B
  induction A, B using merge.induct lt with
  | case1 ys => simp [merge]
  | case2 x xs => simp [merge]
  | case3 x xs y ys hlt ih =>
    rw [merge, if_pos hlt]
    refine (ih.cons y).trans ?_
    exact List.perm_middle.symm
  | case4 x xs y ys hlt ih =>
    rw [merge, if_neg hlt]
    exact ih.cons x

theorem merge_length (lt : α → α → Bool) (A B : List α) :
    (merge lt A B).length = A.length + B.length := by
  have := (merge_perm lt A B).length_eq
  simpa using this

theorem merge_pairwise {lt : α → α → Bool} (h : IsSWO lt) :
    ∀ A B : List α, List.Pairwise (leOf lt) A → List.Pairwise (leOf lt) B →
      List.Pairwise (leOf lt) (merge lt A B) := by
  intro A B
  induction A, B using merge.induct lt with
  | case1 ys => intro _ hB; simpa [merge] using hB
  | case2 x xs => intro hA _; simpa [merge] using hA
  | case3 x xs y ys hlt ih =>
    intro hA hB
    rw [merge, if_pos hlt]
    rw [List.pairwise_cons] at hB ⊢
    refine ⟨?_, ih hA hB.2⟩
    intro z hz
    have hz2 := (merge_perm lt (x :: xs) ys).mem_iff.mp hz
    rcases List.mem_append.mp hz2 with hzl | hzr
    · rcases List.mem_cons.mp hzl with rfl | hzx
      · exact h.le_of_lt hlt
      · exact h.le_trans (h.le_of_lt hlt) ((List.pairwise_cons.mp hA).1 z hzx)
    · exact hB.1 z hzr
  | case4 x xs y ys hlt ih =>
    intro hA hB
    rw [merge, if_neg hlt]
    rw [List.pairwise_cons] at hA ⊢
    refine ⟨?_, ih hA.2 hB⟩
    intro z hz
    have hz2 := (merge_perm lt xs (y :: ys)).mem_iff.mp hz
    have hxy : leOf lt x y := by
      cases hyx : lt y x with
      | false => exact hyx
      | true => exact absurd hyx hlt
    rcases List.mem_append.mp hz2 with hzl | hzr
    · exact hA.1 z hzl
    · rcases List.mem_cons.mp hzr with rfl | hzy
      · exact hxy
      · exact h.le_trans hxy ((List.pairwise_cons.mp hB).1 z hzy)

/-- Stability of the merge: ties favor the left range, so a class filter of
the merge is the concatenation of the class filters (the left side sorted). -/
theorem merge_filter {lt : α → α → Bool} (h : IsSWO lt) {q : α → Bool}
    (hq : stablePred lt q) :
    ∀ A B : List α, List.Pairwise (leOf lt) A →
      (merge lt A B).filter q = A.filter q ++ B.filter q := by
  intro A B
  induction A, B using merge.induct lt with
  | case1 ys => intro _; simp [merge]
  | case2 x xs => intro _; simp [merge]
  | case3 x xs y ys hlt ih =>
    intro hA
    have hfc : (y :: ys).filter q = if q y then y :: ys.filter q else ys.filter q :=
      List.filter_cons
    rw [merge, if_pos hlt, List.filter_cons]
    cases hqy : q y with
    | false =>
      simp only [Bool.false_eq_true, if_false]
      rw [ih hA]
      conv_rhs => rw [hfc]
      rw [hqy]
      simp
    | true =>
      -- everything in x :: xs is strictly above y, so its filter is empty
      have hempty : (x :: xs).filter q = [] := by
        rw [List.filter_eq_nil_iff]
        intro z hz
        have hyz : lt y z = true := by
          rcases List.mem_cons.mp hz with rfl | hzx
          · exact hlt
          · exact h.lt_of_lt_of_le hlt ((List.pairwise_cons.mp hA).1 z hzx)
        rcases hq y z hyz with h1 | h2
        · rw [hqy] at h1; exact absurd h1 (by simp)
        · simp [h2]
      simp only [if_pos rfl]
      rw [ih hA, hempty]
      conv_rhs => rw [hfc]
      rw [hqy]
      simp
  | case4 x xs y ys hlt ih =>
    intro hA
    have hfc : (x :: xs).filter q = if q x then x :: xs.filter q else xs.filter q :=
      List.filter_cons
    rw [merge, if_neg hlt, List.filter_cons]
    have hA2 := (List.pairwise_cons.mp hA).2
    cases hqx : q x with
    | false =>
      simp only [Bool.false_eq_true, if_false]
      rw [ih hA2]
      conv_rhs => rw [hfc]
      rw [hqx]
      simp
    | true =>
      simp only [if_pos rfl]
      rw [ih hA2]
      conv_rhs => rw [hfc]
      rw [hqx]
      simp

/-- `mergesort_topdown` from sorts.cpp: split at the midpoint (`delta` is half
the distance; a range of length at most 1 has `delta = 0` and is left alone),
sort both halves, merge. -/
def mergesort_topdown (lt : α → α → Bool) (l : List α) : List α :=
  if l.length / 2 = 0 then l
  else
    merge lt (mergesort_topdown lt (l.take (l.length / 2)))
      (mergesort_topdown lt (l.drop (l.length / 2)))
termination_by l.length
decreasing_by
  · rename_i hne
    rw [List.length_take]
    have : 0 < l.length / 2 := by omega
    have h2 : l.length / 2 < l.length := Nat.div_lt_self (by omega) (by omega)
    omega
  · rename_i hne
    rw [List.length_drop]
    have : 0 < l.length / 2 := by omega
    omega

theorem mergesort_topdown_perm (lt : α → α → Bool) :
    ∀ l : List α, List.Perm (mergesort_topdown lt l) l := by
  intro l
  induction l using mergesort_topdown.induct lt with
  | case1 l h0 => rw [mergesort_topdown, if_pos h0]
  | case2 l h0 ih1 ih2 =>
    rw [mergesort_topdown, if_neg h0]
    refine (merge_perm lt _ _).trans ?_
    refine ((ih1.append ih2)).trans ?_
    rw [List.take_append_drop]

theorem mergesort_topdown_pairwise {lt : α → α → Bool} (h : IsSWO lt) :
    ∀ l : List α, List.Pairwise (leOf lt) (mergesort_topdown lt l) := by
  intro l
  induction l using mergesort_topdown.induct lt with
  | case1 l h0 =>
    rw [mergesort_topdown, if_pos h0]
    have : l.length ≤ 1 := by omega
    cases l with
    | nil => simp
    | cons x xs =>
      cases xs with
      | nil => simp
      | cons y ys => simp at this
  | case2 l h0 ih1 ih2 =>
    rw [mergesort_topdown, if_neg h0]
    exact merge_pairwise h _ _ ih1 ih2

theorem mergesort_topdown_filter {lt : α → α → Bool} (h : IsSWO lt) {q : α → Bool}
    (hq : stablePred lt q) :
    ∀ l : List α, (mergesort_topdown lt l).filter q = l.filter q := by
  intro l
  induction l using mergesort_topdown.induct lt with
  | case1 l h0 => rw [mergesort_topdown, if_pos h0]
  | case2 l h0 ih1 ih2 =>
    rw [mergesort_topdown, if_neg h0]
    rw [merge_filter h hq _ _ (mergesort_topdown_pairwise h _), ih1, ih2,
      ← List.filter_append, List.take_append_drop]

/-! ### Uniqueness of a stable sort

Two sorted lists with the same class filters (filter by equivalence under
`lt`) are equal.  This identifies the outputs of the different stable
mergesorts without chasing their different merge trees. -/

/-- The `lt`-equivalence class of `a`, as a filter predicate. -/
def eqvOf (lt : α → α → Bool) (a x : α) : Bool := !lt x a && !lt a x

theorem stablePred_eqvOf {lt : α → α → Bool} (h : IsSWO lt) (a : α) :
    stablePred lt (eqvOf lt a) := by
  intro x y hxy
  by_cases hx : eqvOf lt a x = true
  · right
    simp only [eqvOf, Bool.and_eq_true, Bool.not_eq_true'] at hx
    rcases h.spread x a y hxy with h1 | h2
    · rw [hx.1] at h1; exact absurd h1 (by simp)
    · simp [eqvOf, h2]
  · left
    simpa using hx

theorem eqvOf_self {lt : α → α → Bool} (h : IsSWO lt) (a : α) :
    eqvOf lt a a = true := by
  simp [eqvOf, h.irrefl a]

theorem stable_sorted_unique {lt : α → α → Bool} (h : IsSWO lt) :
    ∀ l1 l2 : List α, List.Pairwise (leOf lt) l1 → List.Pairwise (leOf lt) l2 →
      (∀ a : α, l1.filter (eqvOf lt a) = l2.filter (eqvOf lt a)) → l1 = l2 := by
  intro l1
  induction l1 with
  | nil =>
    intro l2 _ _ hf
    cases l2 with
    | nil => rfl
    | cons y t2 =>
      have := hf y
      rw [List.filter_cons, eqvOf_self h y] at this
      simp at this
  | cons x t1 ih =>
    intro l2 h1 h2 hf
    cases l2 with
    | nil =>
      have := hf x
      rw [List.filter_cons, eqvOf_self h x] at this
      simp at this
    | cons y t2 =>
      have hxy : x = y := by
        by_cases heq : eqvOf lt x y = true
        · -- y is in x's class: compare heads of the x-class filters
          have hfx := hf x
          rw [List.filter_cons, eqvOf_self h x] at hfx
          rw [List.filter_cons (x := y)] at hfx
          have heq2 : eqvOf lt x y = true := heq
          rw [heq2] at hfx
          simp at hfx
          exact hfx.1
        · -- x and y are strictly ordered; either order contradicts sortedness
          exfalso
          have hxy2 : lt x y = true ∨ lt y x = true := by
            simp only [eqvOf, Bool.and_eq_true, Bool.not_eq_true',
              Bool.not_eq_true] at heq
            by_cases ha : lt y x = true
            · exact Or.inr ha
            · by_cases hb : lt x y = true
              · exact Or.inl hb
              · exact absurd ⟨by simpa using ha, by simpa using hb⟩ heq
          -- x occurs in l2 (its class filter is nonempty and shared)
          have hx_in_l2 : x ∈ y :: t2 := by
            have hfx := hf x
            have : x ∈ (y :: t2).filter (eqvOf lt x) := by
              rw [← hfx, List.filter_cons, eqvOf_self h x]
              simp
            exact List.mem_of_mem_filter this
          have hy_in_l1 : y ∈ x :: t1 := by
            have hfy := hf y
            have : y ∈ (x :: t1).filter (eqvOf lt y) := by
              rw [hfy, List.filter_cons, eqvOf_self h y]
              simp
            exact List.mem_of_mem_filter this
          have hxny : x ≠ y := by
            intro hcontra
            subst hcontra
            rcases hxy2 with h1 | h1 <;> (rw [h.irrefl x] at h1; exact absurd h1 (by simp))
          have hx_t2 : x ∈ t2 := by
            rcases List.mem_cons.mp hx_in_l2 with hcc | hcc
            · exact absurd hcc hxny
            · exact hcc
          have hy_t1 : y ∈ t1 := by
            rcases List.mem_cons.mp hy_in_l1 with hcc | hcc
            · exact absurd hcc (Ne.symm hxny)
            · exact hcc
          rcases hxy2 with hlt1 | hlt1
          · -- lt x y but y comes after x in l1 means y ≥ x : contradiction with
            -- x after y in l2 sorted
            have : leOf lt y x := (List.pairwise_cons.mp h2).1 x hx_t2
            rw [leOf, hlt1] at this
            exact absurd this (by simp)
          · have : leOf lt x y := (List.pairwise_cons.mp h1).1 y hy_t1
            rw [leOf, hlt1] at this
            exact absurd this (by simp)
      subst hxy
      have htails : t1 = t2 := by
        refine ih t2 (List.pairwise_cons.mp h1).2 (List.pairwise_cons.mp h2).2 ?_
        intro a
        have hfa := hf a
        rw [List.filter_cons, List.filter_cons] at hfa
        cases hqa : eqvOf lt a x with
        | false => rw [hqa] at hfa; simpa using hfa
        | true => rw [hqa] at hfa; simpa using hfa
      rw [htails]

/-! ### `mergesort_bottomup_iterative` -/

/-- Net effect of `detail::merge(aux, first1, first2, last2)` on the whole
array: the span `[f, l)` is replaced by the merge of its halves split at `m`;
the rest is untouched. -/
def mergeSpan (lt : α → α → Bool) (s : List α) (f m l : Nat) : List α :=
  s.take f ++ merge lt ((s.drop f).take (m - f)) ((s.drop m).take (l - m)) ++ s.drop l

theorem mergeSpan_length (lt : α → α → Bool) (s : List α) {f m l : Nat}
    (hfm : f ≤ m) (hml : m ≤ l) (hl : l ≤ s.length) :
    (mergeSpan lt s f m l).length = s.length := by
  simp only [mergeSpan, List.length_append, List.length_take, List.length_drop, merge_length]
  omega

/-- Inner loop of `mergesort_bottomup_iterative`: merge adjacent pairs of
blocks of width `w` while a right partner (of width `delta2`, possibly
truncated) exists.  The C++ keeps both the iterator `first1` and the count
`sublen`; they advance in lockstep, and that loop invariant is threaded as a
proof argument so the termination measure can use `sublen` against the
(unchanged) list length. -/
def mergesort_bottomup_passGo (lt : α → α → Bool) (w : Nat) (hw : 0 < w)
    (s : List α) (first1 sublen : Nat) (hfs : first1 = sublen) : List α :=
  if hguard : sublen + w < s.length then
    mergesort_bottomup_passGo lt w hw
      (mergeSpan lt s first1 (first1 + w) (first1 + w + min w (s.length - (sublen + w))))
      (first1 + w + min w (s.length - (sublen + w)))
      (sublen + w + min w (s.length - (sublen + w))) (by omega)
  else s
termination_by s.length - sublen
decreasing_by
  have hlen := mergeSpan_length lt s
    (f := first1) (m := first1 + w) (l := first1 + w + min w (s.length - (sublen + w)))
    (by omega) (by omega) (by omega)
  rw [hlen]
  omega

def mergesort_bottomup_pass (lt : α → α → Bool) (w : Nat) (hw : 0 < w)
    (s : List α) : List α :=
  mergesort_bottomup_passGo lt w hw s 0 0 rfl

/-- Outer loop: widths 1, 2, 4, ... while `w < len` (`len` is the length of
the input; the passes do not change it). -/
def mergesort_bottomup_iterativeGo (lt : α → α → Bool) (len : Nat) (s : List α)
    (w : Nat) (hw : 0 < w) : List α :=
  if hl : w < len then
    mergesort_bottomup_iterativeGo lt len (mergesort_bottomup_pass lt w hw s) (w * 2)
      (by omega)
  else s
termination_by len - w
decreasing_by omega

def mergesort_bottomup_iterative (lt : α → α → Bool) (s : List α) : List α :=
  mergesort_bottomup_iterativeGo lt s.length s 1 (by omega)

/-- List-level description of one bottom-up pass. -/
def mergePairs (lt : α → α → Bool) (w : Nat) (hw : 0 < w) (t : List α) : List α :=
  if h : w < t.length then
    merge lt (t.take w) ((t.drop w).take w) ++ mergePairs lt w hw ((t.drop w).drop w)
  else t
termination_by t.length
decreasing_by simp only [List.length_drop]; omega

theorem mergesort_bottomup_passGo_eq (lt : α → α → Bool) (w : Nat) (hw : 0 < w) :
    ∀ (s : List α) (first1 sublen : Nat) (hfs : first1 = sublen),
      mergesort_bottomup_passGo lt w hw s first1 sublen hfs =
        s.take sublen ++ mergePairs lt w hw (s.drop sublen) := by
  intro s first1 sublen hfs
  induction s, first1, sublen, hfs using mergesort_bottomup_passGo.induct lt w hw with
  | case2 s sublen hguard =>
    rw [mergesort_bottomup_passGo, dif_neg hguard]
    have hmp : mergePairs lt w hw (s.drop sublen) = s.drop sublen := by
      rw [mergePairs, dif_neg (by rw [List.length_drop]; omega)]
    rw [hmp, List.take_append_drop]
  | case1 s sublen hguard ih =>
    rw [mergesort_bottomup_passGo, dif_pos hguard, ih]
    set d2 := min w (s.length - (sublen + w)) with hd2
    set t := s.drop sublen with ht
    have htlen : t.length = s.length - sublen := by rw [ht, List.length_drop]
    have hwt : w < t.length := by omega
    -- identify the merged block
    have hslice1 : (s.drop sublen).take (sublen + w - sublen) = t.take w := by
      rw [← ht]
      congr 1
      omega
    have hslice2 : (s.drop (sublen + w)).take (sublen + w + d2 - (sublen + w)) =
        (t.drop w).take w := by
      have hdd : s.drop (sublen + w) = t.drop w := by
        rw [ht, List.drop_drop]
      rw [hdd]
      have harith : sublen + w + d2 - (sublen + w) = d2 := by omega
      rw [harith]
      have hdl : (t.drop w).length = t.length - w := by rw [List.length_drop]
      have hX : s.length - (sublen + w) = t.length - w := by omega
      by_cases hc : w ≤ t.length - w
      · have hde : d2 = w := by rw [hd2, hX, Nat.min_eq_left hc]
        rw [hde]
      · have hde : d2 = t.length - w := by rw [hd2, hX, Nat.min_eq_right (by omega)]
        rw [hde, List.take_of_length_le (by omega), List.take_of_length_le (by omega)]
    set M := merge lt (t.take w) ((t.drop w).take w) with hM
    have hMlen : M.length = w + d2 := by
      have e2 : (t.drop w).length = t.length - w := by rw [List.length_drop]
      rw [hM, merge_length, List.length_take, List.length_take]
      omega
    have hspan : mergeSpan lt s sublen (sublen + w) (sublen + w + d2) =
        s.take sublen ++ M ++ s.drop (sublen + w + d2) := by
      rw [mergeSpan, hslice1, hslice2]
    rw [hspan]
    have htake_s : (s.take sublen).length = sublen := by
      rw [List.length_take]; omega
    -- take and drop of the rebuilt list at the new boundary
    have htake_new : (s.take sublen ++ M ++ s.drop (sublen + w + d2)).take (sublen + w + d2) =
        s.take sublen ++ M := by
      rw [List.append_assoc, List.take_append_eq_append_take, htake_s,
        List.take_of_length_le (by omega : (s.take sublen).length ≤ sublen + w + d2)]
      congr 1
      have harith : sublen + w + d2 - sublen = w + d2 := by omega
      rw [harith, List.take_append_eq_append_take, hMlen,
        List.take_of_length_le (le_of_eq hMlen)]
      simp
    have hdrop_new : (s.take sublen ++ M ++ s.drop (sublen + w + d2)).drop (sublen + w + d2) =
        s.drop (sublen + w + d2) := by
      rw [List.append_assoc, List.drop_append_eq_append_drop, htake_s,
        List.drop_of_length_le (by omega : (s.take sublen).length ≤ sublen + w + d2)]
      have harith : sublen + w + d2 - sublen = w + d2 := by omega
      rw [harith, List.drop_append_eq_append_drop, hMlen,
        List.drop_of_length_le (le_of_eq hMlen)]
      simp
    rw [htake_new, hdrop_new]
    -- unfold the mergePairs step on the right-hand side
    have hmp : mergePairs lt w hw t =
        M ++ mergePairs lt w hw ((t.drop w).drop w) := by
      rw [mergePairs, dif_pos hwt]
    have hrest : (t.drop w).drop w = s.drop (sublen + w + d2) := by
      rw [ht, List.drop_drop, List.drop_drop]
      by_cases hcase : w ≤ s.length - (sublen + w)
      · have : d2 = w := by omega
        rw [this]
        congr 1
        omega
      · -- both drops reach past the end of the list
        have h1 : s.length ≤ sublen + w + w := by omega
        have h2 : s.length ≤ sublen + w + d2 := by omega
        rw [List.drop_eq_nil_iff.mpr (by omega), List.drop_eq_nil_iff.mpr (by omega)]
    rw [hmp, hrest, List.append_assoc]

/-- All maximal width-`w` blocks are sorted (the loop invariant of the
bottom-up mergesort). -/
def blocksSorted (lt : α → α → Bool) (w : Nat) (hw : 0 < w) (t : List α) : Prop :=
  if w < t.length then
    List.Pairwise (leOf lt) (t.take w) ∧ blocksSorted lt w hw (t.drop w)
  else List.Pairwise (leOf lt) t
termination_by t.length
decreasing_by rw [List.length_drop]; omega

theorem blocksSorted_one {lt : α → α → Bool} (hw : 0 < 1) :
    ∀ t : List α, blocksSorted lt 1 hw t := by
  have H : ∀ (n : Nat) (t : List α), t.length ≤ n → blocksSorted lt 1 hw t := by
    intro n
    induction n with
    | zero =>
      intro t ht
      have : t = [] := List.length_eq_zero.mp (by omega)
      subst this
      rw [blocksSorted, if_neg (by simp)]
      simp
    | succ n ihn =>
      intro t ht
      rw [blocksSorted]
      by_cases h1 : 1 < t.length
      · rw [if_pos h1]
        refine ⟨?_, ihn _ (by rw [List.length_drop]; omega)⟩
        cases t with
        | nil => simp
        | cons x xs => simp
      · rw [if_neg h1]
        cases t with
        | nil => simp
        | cons x xs =>
          cases xs with
          | nil => simp
          | cons y ys => simp at h1
  exact fun t => H t.length t (le_refl _)

theorem mergePairs_spec {lt : α → α → Bool} (h : IsSWO lt) (w : Nat) (hw : 0 < w) :
    ∀ t : List α, blocksSorted lt w hw t →
      List.Perm (mergePairs lt w hw t) t ∧
        blocksSorted lt (w * 2) (by omega) (mergePairs lt w hw t) := by
  intro t
  induction t using mergePairs.induct lt w hw with
  | case2 t hguard =>
    intro hbs
    rw [blocksSorted, if_neg hguard] at hbs
    rw [mergePairs, dif_neg hguard]
    refine ⟨List.Perm.refl t, ?_⟩
    rw [blocksSorted, if_neg (by push_neg at hguard ⊢; omega)]
    exact hbs
  | case1 t hguard ih =>
    intro hbs
    rw [blocksSorted, if_pos hguard] at hbs
    obtain ⟨hB1, hbs2⟩ := hbs
    rw [mergePairs, dif_pos hguard]
    have hB1len : (t.take w).length = w := by rw [List.length_take]; omega
    by_cases h2 : w < (t.drop w).length
    · -- a full right partner exists
      rw [blocksSorted, if_pos h2] at hbs2
      obtain ⟨hB2, hbsRest⟩ := hbs2
      rcases ih hbsRest with ⟨ihPerm, ihBS⟩
      have hB2len : ((t.drop w).take w).length = w := by
        rw [List.length_take, List.length_drop]
        rw [List.length_drop] at h2
        omega
      have hMlen : (merge lt (t.take w) ((t.drop w).take w)).length = w + w := by
        rw [merge_length, hB1len, hB2len]
      have hperm : List.Perm
          (merge lt (t.take w) ((t.drop w).take w) ++ mergePairs lt w hw ((t.drop w).drop w))
          t := by
        refine List.Perm.trans (List.Perm.append (merge_perm lt _ _) ihPerm) ?_
        rw [List.append_assoc, List.take_append_drop, List.take_append_drop]
      refine ⟨hperm, ?_⟩
      have hreslen : (merge lt (t.take w) ((t.drop w).take w) ++
          mergePairs lt w hw ((t.drop w).drop w)).length = t.length := hperm.length_eq
      by_cases h3 : w * 2 < t.length
      · rw [blocksSorted, if_pos (by omega)]
        constructor
        · have htk : w * 2 = (merge lt (t.take w) ((t.drop w).take w)).length := by
            rw [hMlen]; omega
          rw [htk, List.take_left]
          exact merge_pairwise h _ _ hB1 hB2
        · have hdropeq : (merge lt (t.take w) ((t.drop w).take w) ++
              mergePairs lt w hw ((t.drop w).drop w)).drop (w * 2) =
              mergePairs lt w hw ((t.drop w).drop w) := by
            have hdl := List.drop_left (merge lt (t.take w) ((t.drop w).take w))
              (mergePairs lt w hw ((t.drop w).drop w))
            rw [hMlen] at hdl
            have h22 : w * 2 = w + w := by omega
            rw [h22]
            exact hdl
          rw [hdropeq]
          exact ihBS
      · -- everything fits in a single (short) double block
        rw [blocksSorted, if_neg (by omega)]
        have hrest0 : (t.drop w).drop w = [] := by
          have h2b := h2
          rw [List.length_drop] at h2b
          rw [List.drop_eq_nil_iff, List.length_drop]
          omega
        rw [hrest0]
        have hmp0 : mergePairs lt w hw ([] : List α) = [] := by
          rw [mergePairs, dif_neg (by simp)]
        rw [hmp0, List.append_nil]
        exact merge_pairwise h _ _ hB1 hB2
    · -- the right partner is short (or the rest is empty)
      rw [blocksSorted, if_neg h2] at hbs2
      have hB2eq : (t.drop w).take w = t.drop w := List.take_of_length_le (by omega)
      have hrest0 : (t.drop w).drop w = [] := List.drop_eq_nil_iff.mpr (by omega)
      have hmp0 : mergePairs lt w hw ([] : List α) = [] := by
        rw [mergePairs, dif_neg (by simp)]
      rw [hB2eq, hrest0, hmp0, List.append_nil]
      have hperm : List.Perm (merge lt (t.take w) (t.drop w)) t := by
        refine (merge_perm lt _ _).trans ?_
        rw [List.take_append_drop]
      refine ⟨hperm, ?_⟩
      rw [blocksSorted, if_neg (by
        have := hperm.length_eq
        rw [List.length_drop] at h2
        omega)]
      exact merge_pairwise h _ _ hB1 hbs2

theorem mergePairs_filter {lt : α → α → Bool} (h : IsSWO lt) {q : α → Bool}
    (hq : stablePred lt q) (w : Nat) (hw : 0 < w) :
    ∀ t : List α, blocksSorted lt w hw t →
      (mergePairs lt w hw t).filter q = t.filter q := by
  intro t
  induction t using mergePairs.induct lt w hw with
  | case2 t hguard =>
    intro _
    rw [mergePairs, dif_neg hguard]
  | case1 t hguard ih =>
    intro hbs
    rw [blocksSorted, if_pos hguard] at hbs
    obtain ⟨hB1, hbs2⟩ := hbs
    rw [mergePairs, dif_pos hguard]
    have hrestBS : blocksSorted lt w hw ((t.drop w).drop w) := by
      by_cases h2 : w < (t.drop w).length
      · rw [blocksSorted, if_pos h2] at hbs2
        exact hbs2.2
      · have hrest0 : (t.drop w).drop w = [] := List.drop_eq_nil_iff.mpr (by omega)
        rw [hrest0, blocksSorted, if_neg (by simp)]
        simp
    rw [List.filter_append, merge_filter h hq _ _ hB1, ih hrestBS]
    rw [List.append_assoc, ← List.filter_append, ← List.filter_append,
      List.take_append_drop, List.take_append_drop]

theorem mergesort_bottomup_iterativeGo_spec {lt : α → α → Bool} (h : IsSWO lt) :
    ∀ (len : Nat) (s : List α) (w : Nat) (hw : 0 < w), s.length = len →
      blocksSorted lt w hw s →
      List.Perm (mergesort_bottomup_iterativeGo lt len s w hw) s ∧
        List.Pairwise (leOf lt) (mergesort_bottomup_iterativeGo lt len s w hw) := by
  intro len s w hw
  induction s, w, hw using mergesort_bottomup_iterativeGo.induct lt len with
  | case1 s w hw hl ih =>
    intro hlen hbs
    rw [mergesort_bottomup_iterativeGo, dif_pos hl]
    have hpass : mergesort_bottomup_pass lt w hw s = mergePairs lt w hw s := by
      rw [mergesort_bottomup_pass, mergesort_bottomup_passGo_eq]
      simp
    rcases mergePairs_spec h w hw s hbs with ⟨hperm, hbs2⟩
    rw [hpass] at ih ⊢
    have hlen2 : (mergePairs lt w hw s).length = len := by
      rw [hperm.length_eq, hlen]
    rcases ih hlen2 hbs2 with ⟨ihPerm, ihPW⟩
    exact ⟨ihPerm.trans hperm, ihPW⟩
  | case2 s w hw hl =>
    intro hlen hbs
    rw [mergesort_bottomup_iterativeGo, dif_neg hl]
    refine ⟨List.Perm.refl s, ?_⟩
    rw [blocksSorted, if_neg (by omega)] at hbs
    exact hbs

theorem mergesort_bottomup_iterative_perm {lt : α → α → Bool} (h : IsSWO lt)
    (l : List α) : List.Perm (mergesort_bottomup_iterative lt l) l :=
  (mergesort_bottomup_iterativeGo_spec h l.length l 1 (by omega) rfl
    (blocksSorted_one _ l)).1

theorem mergesort_bottomup_iterative_pairwise {lt : α → α → Bool} (h : IsSWO lt)
    (l : List α) : List.Pairwise (leOf lt) (mergesort_bottomup_iterative lt l) :=
  (mergesort_bottomup_iterativeGo_spec h l.length l 1 (by omega) rfl
    (blocksSorted_one _ l)).2

theorem mergesort_bottomup_iterativeGo_filter {lt : α → α → Bool} (h : IsSWO lt)
    {q : α → Bool} (hq : stablePred lt q) :
    ∀ (len : Nat) (s : List α) (w : Nat) (hw : 0 < w), blocksSorted lt w hw s →
      (mergesort_bottomup_iterativeGo lt len s w hw).filter q = s.filter q := by
  intro len s w hw
  induction s, w, hw using mergesort_bottomup_iterativeGo.induct lt len with
  | case1 s w hw hl ih =>
    intro hbs
    rw [mergesort_bottomup_iterativeGo, dif_pos hl]
    have hpass : mergesort_bottomup_pass lt w hw s = mergePairs lt w hw s := by
      rw [mergesort_bottomup_pass, mergesort_bottomup_passGo_eq]
      simp
    rcases mergePairs_spec h w hw s hbs with ⟨_, hbs2⟩
    rw [hpass] at ih ⊢
    rw [ih hbs2, mergePairs_filter h hq w hw s hbs]
  | case2 s w hw hl =>
    intro _
    rw [mergesort_bottomup_iterativeGo, dif_neg hl]

theorem mergesort_bottomup_iterative_filter {lt : α → α → Bool} (h : IsSWO lt)
    {q : α → Bool} (hq : stablePred lt q) (l : List α) :
    (mergesort_bottomup_iterative lt l).filter q = l.filter q :=
  mergesort_bottomup_iterativeGo_filter h hq l.length l 1 (by omega)
    (blocksSorted_one _ l)

/-- The bottom-up mergesort computes exactly the same list as the top-down
one: both are sorted stable permutations of the input, and a stable sorted
permutation is unique. -/
theorem mergesort_bottomup_eq_topdown {lt : α → α → Bool} (h : IsSWO lt)
    (l : List α) : mergesort_bottomup_iterative lt l = mergesort_topdown lt l := by
  refine stable_sorted_unique h _ _ (mergesort_bottomup_iterative_pairwise h l)
    (mergesort_topdown_pairwise h l) ?_
  intro a
  rw [mergesort_bottomup_iterative_filter h (stablePred_eqvOf h a) l,
    mergesort_topdown_filter h (stablePred_eqvOf h a) l]

/-! ### `mergesort_topdown_iterative`

The explicit-stack machine.  One `while`-iteration is one `tdiStep`: run the
inner `for` loop (`pushSpine`, which pushes `(first, last)` and halves `last`
until `first == last`), then examine the stack top and either descend into its
right half or merge it and pop.  The C++ `while` loop is embedded as the
`tdiStep` iteration `tdiRun` with sufficient fuel; the simulation theorem
shows `3·n` steps always reach the final state, which is a fixpoint. -/

/-- `detail::midpoint` on indices: advance by half the distance. -/
def midpt (f l : Nat) : Nat := f + (l - f) / 2

structure TDIState (α : Type) where
  s : List α
  first : Nat
  last : Nat
  stack : List (Nat × Nat)
  postf : Nat
  postl : Nat

/-- The inner `for` loop: push `(first, last)` and move `last` to the midpoint
until the interval is empty; returns the final `last` and the grown stack. -/
def pushSpine (first last : Nat) (stack : List (Nat × Nat)) :
    Nat × List (Nat × Nat) :=
  if first = last then (last, stack)
  else pushSpine first (midpt first last) ((first, last) :: stack)
termination_by if first < last then last - first else if first = last then 0 else 1
decreasing_by
  rename_i hne
  simp only [midpt]
  split_ifs <;> omega

/-- One iteration of the `while` loop.  `none` means the loop condition
`first != last || !empty(intervals)` failed.  The inner `[]` branch cannot
occur (the stack is non-empty whenever the top is examined); it is mapped to
`none` as well. -/
def tdiStep (lt : α → α → Bool) (st : TDIState α) : Option (TDIState α) :=
  if st.first = st.last ∧ st.stack = [] then none
  else
    let ps := pushSpine st.first st.last st.stack
    match ps.2 with
    | [] => none
    | (f1, l2) :: rest =>
      let f2 := midpt f1 l2
      if (¬(f2 = l2) ∧ ¬(f2 + 1 = l2)) ∧ ¬(f2 = st.postf ∧ l2 = st.postl) then
        some ⟨st.s, f2, l2, (f1, l2) :: rest, st.postf, st.postl⟩
      else
        some ⟨mergeSpan lt st.s f1 f2 l2, st.first, ps.1, rest, f1, l2⟩

def tdiRun (lt : α → α → Bool) : Nat → TDIState α → TDIState α
  | 0, st => st
  | n + 1, st =>
    match tdiStep lt st with
    | none => st
    | some st2 => tdiRun lt n st2

/-- `mergesort_topdown_iterative` from sorts.cpp.  The initial state carries
the whole range, an empty stack and the null `post` interval `(last, last)`;
`3·n + 1` steps are enough (proved below) and the final state is a fixpoint,
so the fuel bound does not influence the result. -/
def mergesort_topdown_iterative (lt : α → α → Bool) (s : List α) : List α :=
  (tdiRun lt (3 * s.length + 1) ⟨s, 0, s.length, [], s.length, s.length⟩).s

theorem tdiRun_succ {lt : α → α → Bool} {st st2 : TDIState α}
    (hstep : tdiStep lt st = some st2) (n : Nat) :
    tdiRun lt (n + 1) st = tdiRun lt n st2 := by
  rw [tdiRun, hstep]

theorem tdiRun_none {lt : α → α → Bool} {st : TDIState α}
    (hstep : tdiStep lt st = none) : ∀ n, tdiRun lt n st = st := by
  intro n
  cases n with
  | zero => rfl
  | succ n => rw [tdiRun, hstep]

theorem pushSpine_ne (first last : Nat) (stack : List (Nat × Nat))
    (h : first ≠ last) :
    pushSpine first last stack =
      pushSpine first (midpt first last) ((first, last) :: stack) := by
  rw [pushSpine, if_neg h]

theorem pushSpine_eq (first last : Nat) (stack : List (Nat × Nat))
    (h : first = last) :
    pushSpine first last stack = (last, stack) := by
  rw [pushSpine, if_pos h]

/-- From an interval of two or more elements, the first step is the same as
the first step from its left half with the interval pushed: the inner `for`
loop performs exactly that unrolling. -/
theorem tdiStep_agree (lt : α → α → Bool) (s : List α) {f l : Nat}
    (hfl : f + 2 ≤ l) (S : List (Nat × Nat)) (pf pl : Nat) :
    tdiStep lt ⟨s, f, l, S, pf, pl⟩ =
      tdiStep lt ⟨s, f, midpt f l, (f, l) :: S, pf, pl⟩ := by
  have hm : f < midpt f l := by
    simp only [midpt]
    omega
  rw [tdiStep, tdiStep]
  rw [if_neg (by simp only; omega), if_neg (by simp only; omega)]
  have hps : pushSpine f l S = pushSpine f (midpt f l) ((f, l) :: S) :=
    pushSpine_ne f l S (by omega)
  simp only [hps]

theorem midpt_add (f n : Nat) : midpt f (f + n) = f + n / 2 := by
  simp [midpt]

theorem mergesort_topdown_length (lt : α → α → Bool) (l : List α) :
    (mergesort_topdown lt l).length = l.length :=
  (mergesort_topdown_perm lt l).length_eq

theorem mergesort_topdown_singleton (lt : α → α → Bool) (b : α) :
    mergesort_topdown lt [b] = [b] := by
  rw [mergesort_topdown, if_pos (by simp)]

theorem mergesort_topdown_split (lt : α → α → Bool) {B : List α} (h : 2 ≤ B.length) :
    mergesort_topdown lt B =
      merge lt (mergesort_topdown lt (B.take (B.length / 2)))
        (mergesort_topdown lt (B.drop (B.length / 2))) := by
  rw [mergesort_topdown, if_neg (by omega)]

/-- `detail::merge` on an explicitly decomposed array: merging the middle two
segments leaves the outer segments alone. -/
theorem mergeSpan_append (lt : α → α → Bool) (A B C D : List α) (f m l : Nat)
    (hf : f = A.length) (hm : m = f + B.length) (hl : l = m + C.length) :
    mergeSpan lt (A ++ B ++ C ++ D) f m l = A ++ merge lt B C ++ D := by
  have e1 : A ++ B ++ C ++ D = A ++ (B ++ (C ++ D)) := by
    simp [List.append_assoc]
  have e2 : A ++ B ++ C ++ D = (A ++ B) ++ (C ++ D) := by
    simp [List.append_assoc]
  have h1 : (A ++ B ++ C ++ D).take f = A := by
    rw [e1]; exact List.take_left' hf.symm
  have h2 : (A ++ B ++ C ++ D).drop f = B ++ (C ++ D) := by
    rw [e1]; exact List.drop_left' hf.symm
  have h3 : ((A ++ B ++ C ++ D).drop f).take (m - f) = B := by
    rw [h2]
    have : m - f = B.length := by omega
    rw [this]
    exact List.take_left' rfl
  have h4 : (A ++ B ++ C ++ D).drop m = C ++ D := by
    rw [e2]
    refine List.drop_left' ?_
    simp only [List.length_append]
    omega
  have h5 : ((A ++ B ++ C ++ D).drop m).take (l - m) = C := by
    rw [h4]
    have : l - m = C.length := by omega
    rw [this]
    exact List.take_left' rfl
  have h6 : (A ++ B ++ C ++ D).drop l = D := by
    refine List.drop_left' ?_
    simp only [List.length_append]
    omega
  rw [mergeSpan, h1, h3, h5, h6]

/-- The stack returned by the inner `for` loop extends the incoming stack. -/
theorem pushSpine_stack_suffix (first last : Nat) (stack : List (Nat × Nat)) :
    ∃ E, (pushSpine first last stack).2 = E ++ stack := by
  induction last, stack using pushSpine.induct first with
  | case1 S =>
    rw [pushSpine_eq first first S rfl]
    exact ⟨[], rfl⟩
  | case2 l S h ih =>
    rw [pushSpine_ne first l S h]
    obtain ⟨E, hE⟩ := ih
    exact ⟨E ++ [(first, l)], by simpa using hE⟩

/-- While the current interval is non-empty, the machine takes a step. -/
theorem tdiStep_some (lt : α → α → Bool) (s : List α) {f l : Nat} (h : f ≠ l)
    (S : List (Nat × Nat)) (pf pl : Nat) :
    ∃ st2, tdiStep lt (⟨s, f, l, S, pf, pl⟩ : TDIState α) = some st2 := by
  have hcons : ∃ p rest, (pushSpine f l S).2 = p :: rest := by
    rw [pushSpine_ne f l S h]
    obtain ⟨E, hE⟩ := pushSpine_stack_suffix f (midpt f l) ((f, l) :: S)
    cases E with
    | nil => exact ⟨(f, l), S, by simpa using hE⟩
    | cons p E => exact ⟨p, E ++ (f, l) :: S, by simpa using hE⟩
  obtain ⟨⟨f1, l2⟩, rest, hcons⟩ := hcons
  rw [tdiStep, if_neg (by simp only [not_and]; intro hfl; exact absurd hfl h)]
  simp only [hcons]
  split_ifs <;> exact ⟨_, rfl⟩

/-- Stepping from a singleton interval `[f, f+1)` merges it at once: the spine
leaf is never `possibly_unsorted`, so the just-visited check is not needed. -/
theorem tdiStep_leaf (lt : α → α → Bool) (s : List α) (f : Nat)
    (S : List (Nat × Nat)) (pf pl : Nat) :
    tdiStep lt (⟨s, f, f + 1, S, pf, pl⟩ : TDIState α) =
      some ⟨mergeSpan lt s f f (f + 1), f, f, S, f, f + 1⟩ := by
  have hmid : midpt f (f + 1) = f := by simp [midpt]
  have hps : pushSpine f (f + 1) S = (f, (f, f + 1) :: S) := by
    rw [pushSpine_ne f (f + 1) S (by omega), hmid,
      pushSpine_eq f f ((f, f + 1) :: S) rfl]
  rw [tdiStep, if_neg (by simp only [not_and]; intro hfl; omega)]
  simp only [hps, hmid]
  rw [if_neg (by intro hc; exact hc.1.2 (by simp))]

/-- Stepping with an empty current interval and interval `(f1, l2)` on top of
the stack: if the right half is `possibly_unsorted` and was not just visited,
descend into it. -/
theorem tdiStep_descend (lt : α → α → Bool) (s : List α) (x f1 l2 : Nat)
    (S : List (Nat × Nat)) (pf pl : Nat)
    (hc : (¬(midpt f1 l2 = l2) ∧ ¬(midpt f1 l2 + 1 = l2)) ∧
      ¬(midpt f1 l2 = pf ∧ l2 = pl)) :
    tdiStep lt (⟨s, x, x, (f1, l2) :: S, pf, pl⟩ : TDIState α) =
      some ⟨s, midpt f1 l2, l2, (f1, l2) :: S, pf, pl⟩ := by
  rw [tdiStep, if_neg (by simp)]
  simp only [pushSpine_eq x x ((f1, l2) :: S) rfl]
  rw [if_pos hc]

/-- Stepping with an empty current interval and interval `(f1, l2)` on top of
the stack: if the right half is small or was just visited, merge and pop. -/
theorem tdiStep_pop (lt : α → α → Bool) (s : List α) (x f1 l2 : Nat)
    (S : List (Nat × Nat)) (pf pl : Nat)
    (hc : ¬((¬(midpt f1 l2 = l2) ∧ ¬(midpt f1 l2 + 1 = l2)) ∧
      ¬(midpt f1 l2 = pf ∧ l2 = pl))) :
    tdiStep lt (⟨s, x, x, (f1, l2) :: S, pf, pl⟩ : TDIState α) =
      some ⟨mergeSpan lt s f1 (midpt f1 l2) l2, x, x, S, f1, l2⟩ := by
  rw [tdiStep, if_neg (by simp)]
  simp only [pushSpine_eq x x ((f1, l2) :: S) rfl]
  rw [if_neg hc]

/-- Simulation: started on the middle segment `B` of the array with any stack
and any `post` interval, the machine sorts `B` in place within `3·|B| − 2`
steps, arriving at an empty current interval, the original stack, and `post`
covering `B`. -/
theorem tdiSim (lt : α → α → Bool) :
    ∀ (n : Nat) (A B D : List α), 1 ≤ n → B.length = n →
    ∀ (S : List (Nat × Nat)) (pf pl : Nat),
    ∃ k x, 1 ≤ k ∧ k ≤ 3 * n - 2 ∧ ∀ fuel : Nat,
      tdiRun lt (k + fuel) ⟨A ++ B ++ D, A.length, A.length + n, S, pf, pl⟩
        = tdiRun lt fuel
            ⟨A ++ mergesort_topdown lt B ++ D, x, x, S, A.length, A.length + n⟩ := by
  intro n
  induction n using Nat.strong_induction_on with
  | _ n IH =>
  intro A B D hn hB S pf pl
  by_cases hone : n = 1
  · subst hone
    obtain ⟨b, rfl⟩ := List.length_eq_one.mp hB
    refine ⟨1, A.length, le_refl 1, by omega, ?_⟩
    intro fuel
    have hstep := tdiStep_leaf lt (A ++ [b] ++ D) A.length S pf pl
    have h0 : A ++ [b] ++ D = A ++ [] ++ [b] ++ D := by simp
    have hms : mergeSpan lt (A ++ [b] ++ D) A.length A.length (A.length + 1)
        = A ++ [b] ++ D := by
      have h1 := mergeSpan_append lt A ([] : List α) [b] D
        A.length A.length (A.length + 1) rfl (by simp) (by simp)
      rw [← h0] at h1
      rw [h1]
      simp [merge]
    rw [hms] at hstep
    rw [mergesort_topdown_singleton]
    rw [Nat.add_comm 1 fuel, tdiRun_succ hstep fuel]
  -- n ≥ 2: unroll the spine one level and recurse on the two halves
  have h2n : 2 ≤ n := by omega
  have hB1len : (B.take (n / 2)).length = n / 2 := by
    rw [List.length_take]; omega
  have hB2len : (B.drop (n / 2)).length = n - n / 2 := by
    rw [List.length_drop, hB]
  have hBsplit : B = B.take (n / 2) ++ B.drop (n / 2) :=
    (List.take_append_drop _ B).symm
  have hmid : midpt A.length (A.length + n) = A.length + n / 2 := midpt_add A.length n
  have hagree := tdiStep_agree lt (A ++ B ++ D)
    (show A.length + 2 ≤ A.length + n by omega) S pf pl
  rw [hmid] at hagree
  obtain ⟨st1, hst1⟩ := tdiStep_some lt (A ++ B ++ D)
    (show A.length ≠ A.length + n / 2 by omega) ((A.length, A.length + n) :: S) pf pl
  have hagreeRun : ∀ j, tdiRun lt (j + 1)
      (⟨A ++ B ++ D, A.length, A.length + n, S, pf, pl⟩ : TDIState α)
      = tdiRun lt (j + 1)
        ⟨A ++ B ++ D, A.length, A.length + n / 2, (A.length, A.length + n) :: S, pf, pl⟩ := by
    intro j
    rw [tdiRun_succ (hagree.trans hst1) j, tdiRun_succ hst1 j]
  obtain ⟨k1, x1, hk1pos, hk1le, hrun1⟩ :=
    IH (n / 2) (by omega) A (B.take (n / 2)) (B.drop (n / 2) ++ D) (by omega) hB1len
      ((A.length, A.length + n) :: S) pf pl
  have hassoc1 : A ++ B.take (n / 2) ++ (B.drop (n / 2) ++ D) = A ++ B ++ D := by
    conv_rhs => rw [hBsplit]
    simp only [List.append_assoc]
  rw [hassoc1] at hrun1
  have hsplit := mergesort_topdown_split lt (show 2 ≤ B.length by omega)
  rw [hB] at hsplit
  by_cases htwo : n = 2
  · subst htwo
    -- the right half is a single element: the machine merges at once
    have hassocP : A ++ mergesort_topdown lt (B.take (2 / 2) : List α) ++
        (B.drop (2 / 2) ++ D)
        = A ++ mergesort_topdown lt (B.take (2 / 2)) ++ B.drop (2 / 2) ++ D := by
      simp [List.append_assoc]
    rw [hassocP] at hrun1
    obtain ⟨c, hc2⟩ := List.length_eq_one.mp
      (show (B.drop (2 / 2) : List α).length = 1 by omega)
    rw [hc2] at hrun1 hsplit
    rw [mergesort_topdown_singleton] at hsplit
    have hpop := tdiStep_pop lt
      (A ++ mergesort_topdown lt (B.take (2 / 2)) ++ [c] ++ D) x1
      A.length (A.length + 2) S A.length (A.length + 2 / 2)
      (by rw [midpt_add]; omega)
    rw [midpt_add] at hpop
    have hms := mergeSpan_append lt A (mergesort_topdown lt (B.take (2 / 2))) [c] D
      A.length (A.length + 2 / 2) (A.length + 2)
      rfl (by simp only [mergesort_topdown_length, hB1len])
      (by simp only [List.length_cons, List.length_nil])
    rw [hms] at hpop
    refine ⟨k1 + 1, x1, by omega, by omega, ?_⟩
    intro fuel
    rw [(by omega : k1 + 1 + fuel = k1 + fuel + 1)]
    rw [hagreeRun (k1 + fuel)]
    rw [(by omega : k1 + fuel + 1 = k1 + (fuel + 1)), hrun1 (fuel + 1)]
    rw [tdiRun_succ hpop fuel]
    rw [hsplit]
  -- n ≥ 3: descend into the right half, recurse, then merge and pop
  have h3n : 3 ≤ n := by omega
  have hdesc := tdiStep_descend lt
    (A ++ mergesort_topdown lt (B.take (n / 2)) ++ (B.drop (n / 2) ++ D)) x1
    A.length (A.length + n) S A.length (A.length + n / 2)
    (by rw [midpt_add]; omega)
  rw [hmid] at hdesc
  obtain ⟨k2, x2, hk2pos, hk2le, hrun2⟩ :=
    IH (n - n / 2) (by omega) (A ++ mergesort_topdown lt (B.take (n / 2)))
      (B.drop (n / 2)) D (by omega) hB2len
      ((A.length, A.length + n) :: S) A.length (A.length + n / 2)
  have hA2len : (A ++ mergesort_topdown lt (B.take (n / 2))).length
      = A.length + n / 2 := by
    simp [List.length_append, mergesort_topdown_length, hB1len]
  rw [hA2len] at hrun2
  rw [(by omega : A.length + n / 2 + (n - n / 2) = A.length + n)] at hrun2
  have hassoc2 : (A ++ mergesort_topdown lt (B.take (n / 2))) ++ B.drop (n / 2) ++ D
      = A ++ mergesort_topdown lt (B.take (n / 2)) ++ (B.drop (n / 2) ++ D) := by
    simp [List.append_assoc]
  rw [hassoc2] at hrun2
  have hpop := tdiStep_pop lt
    ((A ++ mergesort_topdown lt (B.take (n / 2))) ++
      mergesort_topdown lt (B.drop (n / 2)) ++ D) x2
    A.length (A.length + n) S (A.length + n / 2) (A.length + n)
    (by rw [midpt_add]; omega)
  rw [hmid] at hpop
  have hms := mergeSpan_append lt A (mergesort_topdown lt (B.take (n / 2)))
    (mergesort_topdown lt (B.drop (n / 2))) D
    A.length (A.length + n / 2) (A.length + n)
    rfl (by simp only [mergesort_topdown_length, hB1len])
    (by simp only [mergesort_topdown_length, hB2len]; omega)
  rw [hms] at hpop
  refine ⟨k1 + k2 + 2, x2, by omega, by omega, ?_⟩
  intro fuel
  rw [(by omega : k1 + k2 + 2 + fuel = k1 + (k2 + fuel + 1) + 1)]
  rw [hagreeRun (k1 + (k2 + fuel + 1))]
  rw [(by omega : k1 + (k2 + fuel + 1) + 1 = k1 + (k2 + fuel + 2)), hrun1 (k2 + fuel + 2)]
  rw [(by omega : k2 + fuel + 2 = k2 + fuel + 1 + 1)]
  rw [tdiRun_succ hdesc (k2 + fuel + 1)]
  rw [(by omega : k2 + fuel + 1 = k2 + (fuel + 1)), hrun2 (fuel + 1)]
  rw [tdiRun_succ hpop fuel]
  rw [hsplit]

/-- The iterative top-down mergesort computes exactly the recursive one. -/
theorem mergesort_topdown_iterative_eq (lt : α → α → Bool) (s : List α) :
    mergesort_topdown_iterative lt s = mergesort_topdown lt s := by
  by_cases hnil : s = []
  · subst hnil
    rw [mergesort_topdown_iterative]
    simp only [List.length_nil]
    have hfix : tdiStep lt (⟨[], 0, 0, [], 0, 0⟩ : TDIState α) = none := by
      rw [tdiStep, if_pos ⟨rfl, rfl⟩]
    rw [tdiRun_none hfix, mergesort_topdown, if_pos (by simp)]
  · obtain ⟨k, x, hk1, hkle, hrun⟩ :=
      tdiSim lt s.length [] s []
        (by have := List.length_pos.mpr hnil; omega) rfl [] s.length s.length
    simp only [List.nil_append, List.append_nil, List.length_nil, Nat.zero_add] at hrun
    have hfix : tdiStep lt
        (⟨mergesort_topdown lt s, x, x, [], 0, s.length⟩ : TDIState α) = none := by
      rw [tdiStep, if_pos ⟨rfl, rfl⟩]
    rw [mergesort_topdown_iterative]
    rw [(by omega : 3 * s.length + 1 = k + (3 * s.length + 1 - k))]
    rw [hrun (3 * s.length + 1 - k), tdiRun_none hfix]

/-! ### Heapsort

`detail::pick_child`, the two `sift_down` lambdas, the heap-building `for`
loop and the popping `while` loop from `heapsort` and `heapsort_byswap`.
Indices into the array are `Nat`; `detail::no_child` (the sentinel `-1`)
becomes `none`.  Out-of-bounds reads cannot occur when `len ≤ s.length`; the
corresponding unreachable match arms return an arbitrary fixed value. -/

/-- `detail::pick_child`.  `left >= len` means no child; with one child
(`right == len`) or a left child that is not less than the right one the left
child is picked, otherwise the right one. -/
def pick_child (lt : α → α → Bool) (s : List α) (len parent : Nat) : Option Nat :=
  let left := parent * 2 + 1
  if len ≤ left then none
  else if left + 1 = len then some left
  else
    match s[left]?, s[left + 1]? with
    | some xl, some xr => some (if lt xl xr then left + 1 else left)
    | _, _ => some left  -- unreachable when len ≤ s.length

theorem pick_child_some {lt : α → α → Bool} {s : List α} {len parent c : Nat}
    (h : pick_child lt s len parent = some c) :
    parent < c ∧ c < len ∧ (c = parent * 2 + 1 ∨ c = parent * 2 + 2) := by
  rw [pick_child] at h
  split_ifs at h with h1 h2
  · rw [Option.some_inj] at h
    omega
  · revert h
    match s[parent * 2 + 1]?, s[parent * 2 + 1 + 1]? with
    | some xl, some xr =>
      intro h
      rw [Option.some_inj] at h
      split_ifs at h <;> omega
    | some xl, none => intro h; rw [Option.some_inj] at h; omega
    | none, some xr => intro h; rw [Option.some_inj] at h; omega
    | none, none => intro h; rw [Option.some_inj] at h; omega

/-- The loop of `heapsort`'s `sift_down` lambda: `elem` has been moved out of
the hole; children overwrite the hole until `elem` is not less than the
picked child (or there is none), then `elem` lands in the hole. -/
def siftDownGo (lt : α → α → Bool) (elem : α) (s : List α) (len parent : Nat) :
    List α :=
  match hpc : pick_child lt s len parent with
  | none => s.set parent elem
  | some child =>
    match s[child]? with
    | none => s.set parent elem  -- unreachable when len ≤ s.length
    | some xc =>
      if lt elem xc then siftDownGo lt elem (s.set parent xc) len child
      else s.set parent elem
termination_by len - parent
decreasing_by
  have := pick_child_some hpc
  omega

/-- `heapsort`'s `sift_down` lambda. -/
def siftDown (lt : α → α → Bool) (s : List α) (len parent : Nat) : List α :=
  match s[parent]? with
  | none => s  -- unreachable when parent < len ≤ s.length
  | some elem => siftDownGo lt elem s len parent

/-- `heapsort_byswap`'s `sift_down` lambda: swap parent and picked child while
the parent is less than the child. -/
def siftDownSwap (lt : α → α → Bool) (s : List α) (len parent : Nat) : List α :=
  match hpc : pick_child lt s len parent with
  | none => s
  | some child =>
    match s[parent]?, s[child]? with
    | some xp, some xc =>
      if lt xp xc then siftDownSwap lt (listSwap s parent child) len child
      else s
    | _, _ => s  -- unreachable when len ≤ s.length
termination_by len - parent
decreasing_by
  have := pick_child_some hpc
  omega

/-- The heap-building `for` loop, parametrized by the `sift_down` in use:
process `parent`, then `parent - 1`, down to `0`. -/
def heapLoop (sift : List α → Nat → List α) (s : List α) (parent : Nat) :
    List α :=
  let s2 := sift s parent
  if parent = 0 then s2 else heapLoop sift s2 (parent - 1)
termination_by parent
decreasing_by omega

/-- The popping `while (--len != 0)` loop, parametrized by the `sift_down` in
use: decrement `len`, stop at zero, otherwise swap the maximum to position
`len` and restore the heap on the shortened prefix. -/
def popLoop (sift : List α → Nat → Nat → List α) (s : List α) (len : Nat) :
    List α :=
  if len - 1 = 0 then s
  else popLoop sift (sift (listSwap s 0 (len - 1)) (len - 1) 0) (len - 1)
termination_by len
decreasing_by omega

/-- `heapsort` from sorts.cpp. -/
def heapsort (lt : α → α → Bool) (s : List α) : List α :=
  if s.length < 2 then s
  else popLoop (siftDown lt) (heapLoop (fun t p => siftDown lt t s.length p) s
    (s.length / 2)) s.length

/-- `heapsort_byswap` from sorts.cpp. -/
def heapsort_byswap (lt : α → α → Bool) (s : List α) : List α :=
  if s.length < 2 then s
  else popLoop (siftDownSwap lt) (heapLoop (fun t p => siftDownSwap lt t s.length p) s
    (s.length / 2)) s.length

theorem siftDownSwap_none {lt : α → α → Bool} {s : List α} {len parent : Nat}
    (hpc : pick_child lt s len parent = none) : siftDownSwap lt s len parent = s := by
  rw [siftDownSwap]
  split
  · rfl
  · rename_i child hpc2
    rw [hpc] at hpc2
    cases hpc2

theorem siftDownSwap_swap {lt : α → α → Bool} {s : List α} {len parent child : Nat}
    {a b : α} (hpc : pick_child lt s len parent = some child) (ha : s[parent]? = some a)
    (hb : s[child]? = some b) (hab : lt a b = true) :
    siftDownSwap lt s len parent = siftDownSwap lt (listSwap s parent child) len child := by
  rw [siftDownSwap]
  split
  · rename_i hpc2
    rw [hpc] at hpc2
    cases hpc2
  · rename_i child2 hpc2
    rw [hpc] at hpc2
    injection hpc2 with hc
    subst hc
    split
    · rename_i xp xc hxp hxc
      rw [ha] at hxp
      rw [hb] at hxc
      injection hxp with e1
      injection hxc with e2
      subst e1
      subst e2
      rw [if_pos hab]
    · rename_i hjunk
      exact (hjunk a b ha hb).elim

theorem siftDownSwap_stop {lt : α → α → Bool} {s : List α} {len parent child : Nat}
    {a b : α} (hpc : pick_child lt s len parent = some child) (ha : s[parent]? = some a)
    (hb : s[child]? = some b) (hab : lt a b = false) :
    siftDownSwap lt s len parent = s := by
  rw [siftDownSwap]
  split
  · rfl
  · rename_i child2 hpc2
    rw [hpc] at hpc2
    injection hpc2 with hc
    subst hc
    split
    · rename_i xp xc hxp hxc
      rw [ha] at hxp
      rw [hb] at hxc
      injection hxp with e1
      injection hxc with e2
      subst e1
      subst e2
      rw [if_neg (by rw [hab]; exact Bool.false_ne_true)]
    · rfl

theorem siftDownGo_none {lt : α → α → Bool} {elem : α} {s : List α} {len parent : Nat}
    (hpc : pick_child lt s len parent = none) :
    siftDownGo lt elem s len parent = s.set parent elem := by
  rw [siftDownGo]
  split
  · rfl
  · rename_i child hpc2
    rw [hpc] at hpc2
    cases hpc2

theorem siftDownGo_down {lt : α → α → Bool} {elem : α} {s : List α}
    {len parent child : Nat} {xc : α}
    (hpc : pick_child lt s len parent = some child) (hb : s[child]? = some xc)
    (hab : lt elem xc = true) :
    siftDownGo lt elem s len parent = siftDownGo lt elem (s.set parent xc) len child := by
  rw [siftDownGo]
  split
  · rename_i hpc2
    rw [hpc] at hpc2
    cases hpc2
  · rename_i child2 hpc2
    rw [hpc] at hpc2
    injection hpc2 with hc
    subst hc
    split
    · rename_i hxc
      rw [hb] at hxc
      cases hxc
    · rename_i xc2 hxc
      rw [hb] at hxc
      injection hxc with e1
      subst e1
      rw [if_pos hab]

theorem siftDownGo_stop {lt : α → α → Bool} {elem : α} {s : List α}
    {len parent child : Nat} {xc : α}
    (hpc : pick_child lt s len parent = some child) (hb : s[child]? = some xc)
    (hab : lt elem xc = false) :
    siftDownGo lt elem s len parent = s.set parent elem := by
  rw [siftDownGo]
  split
  · rfl
  · rename_i child2 hpc2
    rw [hpc] at hpc2
    injection hpc2 with hc
    subst hc
    split
    · rfl
    · rename_i xc2 hxc
      rw [hb] at hxc
      injection hxc with e1
      subst e1
      rw [if_neg (by rw [hab]; exact Bool.false_ne_true)]

theorem heapLoop_eq (sift : List α → Nat → List α) (s : List α) (parent : Nat) :
    heapLoop sift s parent =
      if parent = 0 then sift s parent
      else heapLoop sift (sift s parent) (parent - 1) := by
  rw [heapLoop]

theorem popLoop_eq (sift : List α → Nat → Nat → List α) (s : List α) (len : Nat) :
    popLoop sift s len =
      if len - 1 = 0 then s
      else popLoop sift (sift (listSwap s 0 (len - 1)) (len - 1) 0) (len - 1) := by
  rw [popLoop]

theorem siftDownSwap_length (lt : α → α → Bool) :
    ∀ (s : List α) (len parent : Nat),
      (siftDownSwap lt s len parent).length = s.length := by
  intro s len parent
  induction s, len, parent using siftDownSwap.induct lt with
  | case1 s len parent hpc => rw [siftDownSwap_none hpc]
  | case2 s len parent child hpc a b hb ha hab ih =>
    rw [siftDownSwap_swap hpc ha hb hab, ih, listSwap_length]
  | case3 s len parent child hpc a b hb ha hab =>
    rw [siftDownSwap_stop hpc ha hb (by revert hab; cases lt a b <;> simp)]
  | case4 s len parent child hpc hjunk =>
    rw [siftDownSwap]
    split
    · rfl
    · rename_i child2 hpc2
      rw [hpc] at hpc2
      injection hpc2 with hc
      subst hc
      split
      · rename_i xp xc hxp hxc
        exact (hjunk xp xc hxp hxc).elim
      · rfl

theorem siftDownSwap_perm (lt : α → α → Bool) :
    ∀ (s : List α) (len parent : Nat),
      List.Perm (siftDownSwap lt s len parent) s := by
  intro s len parent
  induction s, len, parent using siftDownSwap.induct lt with
  | case1 s len parent hpc => rw [siftDownSwap_none hpc]
  | case2 s len parent child hpc a b hb ha hab ih =>
    rw [siftDownSwap_swap hpc ha hb hab]
    exact ih.trans (listSwap_perm s parent child)
  | case3 s len parent child hpc a b hb ha hab =>
    rw [siftDownSwap_stop hpc ha hb (by revert hab; cases lt a b <;> simp)]
  | case4 s len parent child hpc hjunk =>
    rw [siftDownSwap]
    split
    · exact List.Perm.refl s
    · rename_i child2 hpc2
      rw [hpc] at hpc2
      injection hpc2 with hc
      subst hc
      split
      · rename_i xp xc hxp hxc
        exact (hjunk xp xc hxp hxc).elim
      · exact List.Perm.refl s

theorem siftDownSwap_getElem_ge (lt : α → α → Bool) :
    ∀ (s : List α) (len parent : Nat) (j : Nat), len ≤ j →
      (siftDownSwap lt s len parent)[j]? = s[j]? := by
  intro s len parent
  induction s, len, parent using siftDownSwap.induct lt with
  | case1 s len parent hpc =>
    intro j hj
    rw [siftDownSwap_none hpc]
  | case2 s len parent child hpc a b hb ha hab ih =>
    intro j hj
    rw [siftDownSwap_swap hpc ha hb hab, ih j hj]
    have hcb := pick_child_some hpc
    have hpb : parent < s.length := by
      rcases List.getElem?_eq_some_iff.mp ha with ⟨hlt2, _⟩
      exact hlt2
    have hcb2 : child < s.length := by
      rcases List.getElem?_eq_some_iff.mp hb with ⟨hlt2, _⟩
      exact hlt2
    rw [getElem?_listSwap s parent child hpb hcb2 j,
      if_neg (by omega), if_neg (by omega)]
  | case3 s len parent child hpc a b hb ha hab =>
    intro j hj
    rw [siftDownSwap_stop hpc ha hb (by revert hab; cases lt a b <;> simp)]
  | case4 s len parent child hpc hjunk =>
    intro j hj
    rw [siftDownSwap]
    split
    · rfl
    · rename_i child2 hpc2
      rw [hpc] at hpc2
      injection hpc2 with hc
      subst hc
      split
      · rename_i xp xc hxp hxc
        exact (hjunk xp xc hxp hxc).elim
      · rfl

theorem siftDownSwap_drop (lt : α → α → Bool) (s : List α) (len parent n : Nat)
    (hn : len ≤ n) : (siftDownSwap lt s len parent).drop n = s.drop n := by
  refine List.ext_getElem? ?_
  intro i
  rw [List.getElem?_drop _ n i, List.getElem?_drop _ n i]
  exact siftDownSwap_getElem_ge lt s len parent (n + i) (by omega)

theorem siftDownSwap_take_perm (lt : α → α → Bool) (s : List α) (len parent : Nat) :
    List.Perm ((siftDownSwap lt s len parent).take len) (s.take len) := by
  have hperm := siftDownSwap_perm lt s len parent
  have hdrop := siftDownSwap_drop lt s len parent len (le_refl len)
  have h1 : (siftDownSwap lt s len parent).take len ++ s.drop len
      = siftDownSwap lt s len parent := by
    conv_rhs => rw [← List.take_append_drop len (siftDownSwap lt s len parent)]
    rw [hdrop]
  have h2 := hperm
  rw [← h1] at h2
  conv_rhs at h2 => rw [← List.take_append_drop len s]
  exact (List.perm_append_right_iff (s.drop len)).mp h2

/-- `s[i] ≥ s[j]` whenever both positions are in bounds. -/
def heapRel (lt : α → α → Bool) (s : List α) (i j : Nat) : Prop :=
  ∀ xi xj, s[i]? = some xi → s[j]? = some xj → lt xi xj = false

theorem heapRel_trans {lt : α → α → Bool} (h : IsSWO lt) {s : List α} {i j k : Nat}
    (hj : j < s.length) (hij : heapRel lt s i j) (hjk : heapRel lt s j k) :
    heapRel lt s i k := by
  intro xi xk hxi hxk
  have hxj := List.getElem?_eq_getElem hj
  exact h.le_trans (hjk (s.get ⟨j, hj⟩) xk hxj hxk) (hij xi (s.get ⟨j, hj⟩) hxi hxj)

/-- The binary-maxheap property on the prefix `[0, len)`, restricted to pairs
whose parent index is at least `p`: each such child is not greater than its
parent `(c - 1) / 2`. -/
def PartHeap (lt : α → α → Bool) (s : List α) (len p : Nat) : Prop :=
  ∀ c, 0 < c → c < len → p ≤ (c - 1) / 2 → heapRel lt s ((c - 1) / 2) c

theorem pick_child_none_iff {lt : α → α → Bool} {s : List α} {len parent : Nat} :
    pick_child lt s len parent = none ↔ len ≤ parent * 2 + 1 := by
  rw [pick_child]
  split_ifs with h1 h2
  · simp [h1]
  · simp
    omega
  · constructor
    · intro h
      revert h
      match s[parent * 2 + 1]?, s[parent * 2 + 1 + 1]? with
      | some xl, some xr => intro h; cases h
      | some xl, none => intro h; cases h
      | none, some xr => intro h; cases h
      | none, none => intro h; cases h
    · intro h
      omega

/-- The picked child is maximal among the children of `parent`. -/
theorem pick_child_max {lt : α → α → Bool} (h : IsSWO lt) {s : List α}
    {len parent child : Nat} (hlen : len ≤ s.length)
    (hpc : pick_child lt s len parent = some child) :
    ∀ c2, 0 < c2 → c2 < len → (c2 - 1) / 2 = parent → heapRel lt s child c2 := by
  intro c2 h0 hc2 hpar
  have hc2form : c2 = parent * 2 + 1 ∨ c2 = parent * 2 + 2 := by omega
  rw [pick_child] at hpc
  split_ifs at hpc with h1 h2
  · injection hpc with hc
    subst hc
    rcases hc2form with rfl | rfl
    · intro xi xj hxi hxj
      rw [hxi] at hxj
      injection hxj with e
      subst e
      exact h.irrefl xi
    · omega
  · have hl : parent * 2 + 1 < s.length := by omega
    have hr : parent * 2 + 1 + 1 < s.length := by omega
    rw [List.getElem?_eq_getElem hl, List.getElem?_eq_getElem hr] at hpc
    injection hpc with hc
    subst hc
    intro xi xj hxi hxj
    split_ifs at hxi ⊢ with hlr
    · -- the right child was picked
      rcases hc2form with rfl | rfl
      · rw [List.getElem?_eq_getElem hl] at hxj
        rw [List.getElem?_eq_getElem hr] at hxi
        injection hxi with e1
        injection hxj with e2
        subst e1
        subst e2
        exact h.asymm _ _ hlr
      · rw [hxi] at hxj
        injection hxj with e
        subst e
        exact h.irrefl xi
    · -- the left child was picked
      rcases hc2form with rfl | rfl
      · rw [hxi] at hxj
        injection hxj with e
        subst e
        exact h.irrefl xi
      · rw [List.getElem?_eq_getElem hl] at hxi
        rw [List.getElem?_eq_getElem hr] at hxj
        injection hxi with e1
        injection hxj with e2
        subst e1
        subst e2
        exact Bool.of_not_eq_true hlr

/-- Sifting down restores the heap property: if every parent–child pair with
parent at or above index `p` holds except possibly the pairs under `parent`,
and (unless the sift is just starting) `parent`'s own parent dominates
`parent`'s children, then after the sift every such pair holds. -/
theorem siftDownSwap_heap {lt : α → α → Bool} (h : IsSWO lt) :
    ∀ (s : List α) (len parent : Nat) (p : Nat),
      len ≤ s.length → parent < len → p ≤ parent →
      (∀ c, 0 < c → c < len → p ≤ (c - 1) / 2 → (c - 1) / 2 ≠ parent →
        heapRel lt s ((c - 1) / 2) c) →
      (p < parent → ∀ c, 0 < c → c < len → (c - 1) / 2 = parent →
        heapRel lt s ((parent - 1) / 2) c) →
      PartHeap lt (siftDownSwap lt s len parent) len p := by
  intro s len parent
  induction s, len, parent using siftDownSwap.induct lt with
  | case1 s len parent hpc =>
    intro p hlen hpl hppar hI1 hI2
    rw [siftDownSwap_none hpc]
    intro c h0 hc hp
    by_cases hqp : (c - 1) / 2 = parent
    · have := pick_child_none_iff.mp hpc
      omega
    · exact hI1 c h0 hc hp hqp
  | case2 s len parent child hpc a b hb ha hab ih =>
    intro p hlen hpl hppar hI1 hI2
    rw [siftDownSwap_swap hpc ha hb hab]
    have hpb : parent < s.length := (List.getElem?_eq_some_iff.mp ha).1
    have hcb : child < s.length := (List.getElem?_eq_some_iff.mp hb).1
    have hcs := pick_child_some hpc
    have hmax := pick_child_max h hlen hpc
    have hgs : ∀ k, (listSwap s parent child)[k]? =
        if k = parent then s[child]? else if k = child then s[parent]? else s[k]? :=
      getElem?_listSwap s parent child hpb hcb
    apply ih p
    · rw [listSwap_length]; exact hlen
    · omega
    · omega
    · intro c h0 hc hp hne
      by_cases hqp : (c - 1) / 2 = parent
      · by_cases hcc : c = child
        · rw [hqp, hcc]
          intro xi xj hxi hxj
          rw [hgs parent, if_pos rfl, hb] at hxi
          rw [hgs child, if_neg (by omega), if_pos rfl, ha] at hxj
          injection hxi with e1
          injection hxj with e2
          subst e1
          subst e2
          exact h.asymm a b hab
        · rw [hqp]
          intro xi xj hxi hxj
          rw [hgs parent, if_pos rfl, hb] at hxi
          rw [hgs c, if_neg (by omega), if_neg hcc] at hxj
          injection hxi with e1
          subst e1
          exact hmax c h0 hc hqp b xj hb hxj
      · by_cases hcpar : c = parent
        · subst hcpar
          intro xi xj hxi hxj
          rw [hgs ((c - 1) / 2), if_neg (by omega), if_neg (by omega)] at hxi
          rw [hgs c, if_pos rfl, hb] at hxj
          injection hxj with e2
          subst e2
          exact hI2 (by omega) child (by omega) (by omega) (by omega) xi b hxi hb
        · by_cases hcchild : c = child
          · omega
          · intro xi xj hxi hxj
            rw [hgs ((c - 1) / 2), if_neg hqp, if_neg hne] at hxi
            rw [hgs c, if_neg hcpar, if_neg hcchild] at hxj
            exact hI1 c h0 hc hp hqp xi xj hxi hxj
    · intro hpc2 c h0 hc hcp
      have hcparform : (child - 1) / 2 = parent := by omega
      rw [hcparform]
      intro xi xj hxi hxj
      rw [hgs parent, if_pos rfl, hb] at hxi
      rw [hgs c, if_neg (by omega), if_neg (by omega)] at hxj
      injection hxi with e1
      subst e1
      rw [← hcp] at hb
      exact hI1 c h0 hc (by omega) (by omega) b xj hb hxj
  | case3 s len parent child hpc a b hb ha hab =>
    intro p hlen hpl hppar hI1 hI2
    have hab2 : lt a b = false := Bool.of_not_eq_true hab
    rw [siftDownSwap_stop hpc ha hb hab2]
    have hcs := pick_child_some hpc
    have hmax := pick_child_max h hlen hpc
    have hcb : child < s.length := (List.getElem?_eq_some_iff.mp hb).1
    intro c h0 hc hp
    by_cases hqp : (c - 1) / 2 = parent
    · by_cases hcc : c = child
      · subst hcc
        rw [hqp]
        intro xi xj hxi hxj
        rw [ha] at hxi
        rw [hb] at hxj
        injection hxi with e1
        injection hxj with e2
        subst e1
        subst e2
        exact hab2
      · rw [hqp]
        refine heapRel_trans h hcb ?_ (hmax c h0 hc hqp)
        intro xi xj hxi hxj
        rw [ha] at hxi
        rw [hb] at hxj
        injection hxi with e1
        injection hxj with e2
        subst e1
        subst e2
        exact hab2
    · exact hI1 c h0 hc hp hqp
  | case4 s len parent child hpc hjunk =>
    intro p hlen hpl hppar hI1 hI2
    have hcs := pick_child_some hpc
    have hpb : parent < s.length := by omega
    have hcb2 : child < s.length := by omega
    exact (hjunk (s.get ⟨parent, hpb⟩) (s.get ⟨child, hcb2⟩)
      (List.getElem?_eq_getElem hpb) (List.getElem?_eq_getElem hcb2)).elim

theorem heapLoop_length (lt : α → α → Bool) (len : Nat) :
    ∀ (s : List α) (parent : Nat),
      (heapLoop (fun t p2 => siftDownSwap lt t len p2) s parent).length = s.length := by
  intro s parent
  induction s, parent using heapLoop.induct (fun t p2 => siftDownSwap lt t len p2) with
  | case1 s =>
    rw [heapLoop_eq, if_pos rfl]
    exact siftDownSwap_length lt s len 0
  | case2 s parent s2 hne ih =>
    rw [heapLoop_eq, if_neg hne]
    rw [ih, siftDownSwap_length]

theorem heapLoop_perm (lt : α → α → Bool) (len : Nat) :
    ∀ (s : List α) (parent : Nat),
      List.Perm (heapLoop (fun t p2 => siftDownSwap lt t len p2) s parent) s := by
  intro s parent
  induction s, parent using heapLoop.induct (fun t p2 => siftDownSwap lt t len p2) with
  | case1 s =>
    rw [heapLoop_eq, if_pos rfl]
    exact siftDownSwap_perm lt s len 0
  | case2 s parent s2 hne ih =>
    rw [heapLoop_eq, if_neg hne]
    exact ih.trans (siftDownSwap_perm lt s len parent)

/-- The heap-building loop over parents `parent, parent-1, …, 0` turns a heap
partial above `parent` into a full heap. -/
theorem heapLoop_heap {lt : α → α → Bool} (h : IsSWO lt) (len : Nat) :
    ∀ (parent : Nat) (s : List α), len ≤ s.length → parent < len →
      PartHeap lt s len (parent + 1) →
      PartHeap lt (heapLoop (fun t p2 => siftDownSwap lt t len p2) s parent) len 0 := by
  intro parent
  induction parent with
  | zero =>
    intro s hlen hpl hPH
    rw [heapLoop_eq, if_pos rfl]
    refine siftDownSwap_heap h s len 0 0 hlen hpl (le_refl 0) ?_ (by omega)
    intro c h0 hc hp hne
    exact hPH c h0 hc (by omega)
  | succ p ih =>
    intro s hlen hpl hPH
    rw [heapLoop_eq, if_neg (by omega), Nat.add_sub_cancel]
    refine ih (siftDownSwap lt s len (p + 1)) ?_ (by omega) ?_
    · rw [siftDownSwap_length]; exact hlen
    · refine siftDownSwap_heap h s len (p + 1) (p + 1) hlen hpl (le_refl _) ?_ (by omega)
      intro c h0 hc hp hne
      exact hPH c h0 hc (by omega)

/-- In a maxheap the root dominates every element of the heap region. -/
theorem heap_root_max {lt : α → α → Bool} (h : IsSWO lt) {s : List α} {len : Nat}
    (hlen : len ≤ s.length) (hheap : PartHeap lt s len 0) :
    ∀ i, i < len → heapRel lt s 0 i := by
  intro i
  induction i using Nat.strong_induction_on with
  | _ i IH =>
    intro hi
    by_cases h0 : i = 0
    · subst h0
      intro xi xj hxi hxj
      rw [hxi] at hxj
      injection hxj with e
      subst e
      exact h.irrefl xi
    · have hpair := hheap i (by omega) hi (by omega)
      have hIH := IH ((i - 1) / 2) (by omega) (by omega)
      exact heapRel_trans h (by omega) hIH hpair

theorem mem_take_iff {s : List α} {n : Nat} {x : α} :
    x ∈ s.take n ↔ ∃ k, k < n ∧ s[k]? = some x := by
  constructor
  · intro hx
    obtain ⟨k, hk⟩ := List.mem_iff_getElem?.mp hx
    have hkn : k < n := by
      have := (List.getElem?_eq_some_iff.mp hk).1
      rw [List.length_take] at this
      omega
    rw [List.getElem?_take, if_pos hkn] at hk
    exact ⟨k, hkn, hk⟩
  · intro ⟨k, hkn, hk⟩
    exact List.mem_iff_getElem?.mpr ⟨k, by rw [List.getElem?_take, if_pos hkn]; exact hk⟩

/-- Swapping the root to position `j` makes the root value the head of the
dropped suffix. -/
theorem listSwap_drop_last {s : List α} {j : Nat} (hj : j < s.length)
    (h0 : 0 < s.length) :
    (listSwap s 0 j).drop j = s.get ⟨0, h0⟩ :: s.drop (j + 1) := by
  refine List.ext_getElem? ?_
  intro i
  rw [List.getElem?_drop _ j i]
  have hgs := getElem?_listSwap s 0 j h0 hj
  cases i with
  | zero =>
    rw [Nat.add_zero, hgs j]
    by_cases hj0 : j = 0
    · subst hj0
      rw [if_pos rfl]
      simp [List.getElem?_eq_getElem h0]
    · rw [if_neg hj0, if_pos rfl]
      simp [List.getElem?_eq_getElem h0]
  | succ i =>
    rw [hgs (j + (i + 1)), if_neg (by omega), if_neg (by omega)]
    rw [List.getElem?_cons_succ, List.getElem?_drop _ (j + 1) i,
      (by omega : j + (i + 1) = j + 1 + i)]

theorem popLoop_perm (lt : α → α → Bool) :
    ∀ (s : List α) (len : Nat),
      List.Perm (popLoop (siftDownSwap lt) s len) s := by
  intro s len
  induction s, len using popLoop.induct (siftDownSwap lt) with
  | case1 s len h1 => rw [popLoop_eq, if_pos h1]
  | case2 s len h1 ih =>
    rw [popLoop_eq, if_neg h1]
    exact ih.trans ((siftDownSwap_perm lt _ _ _).trans (listSwap_perm s 0 (len - 1)))

/-- The popping loop of heapsort: starting from a maxheap on the prefix
`[0, len)`, a sorted suffix dominated by nothing in the prefix, the loop
leaves the whole array sorted. -/
theorem popLoop_sorted {lt : α → α → Bool} (h : IsSWO lt) :
    ∀ (s : List α) (len : Nat), 1 ≤ len → len ≤ s.length →
      PartHeap lt s len 0 →
      List.Pairwise (leOf lt) (s.drop len) →
      (∀ x y, x ∈ s.take len → y ∈ s.drop len → lt y x = false) →
      List.Pairwise (leOf lt) (popLoop (siftDownSwap lt) s len) := by
  intro s len
  induction s, len using popLoop.induct (siftDownSwap lt) with
  | case1 s len h1 =>
    intro hpos hlen hheap hsorted hcross
    rw [popLoop_eq, if_pos h1]
    have hlen1 : len = 1 := by omega
    subst hlen1
    rw [← List.take_append_drop 1 s]
    rw [List.pairwise_append]
    refine ⟨?_, hsorted, ?_⟩
    · rw [List.pairwise_iff_getElem]
      intro i j hi hj hij
      rw [List.length_take] at hi hj
      omega
    · intro a ha b hb
      exact hcross a b ha hb
  | case2 s len h1 ih =>
    intro hpos hlen hheap hsorted hcross
    rw [popLoop_eq, if_neg h1]
    have h0s : 0 < s.length := by omega
    have hjs : len - 1 < s.length := by omega
    have hroot := heap_root_max h hlen hheap
    have hgs1 := getElem?_listSwap s 0 (len - 1) h0s hjs
    have hdropswap := listSwap_drop_last hjs h0s
    have hdrop2 : (siftDownSwap lt (listSwap s 0 (len - 1)) (len - 1) 0).drop (len - 1)
        = s.get ⟨0, h0s⟩ :: s.drop len := by
      rw [siftDownSwap_drop lt _ (len - 1) 0 (len - 1) (le_refl _), hdropswap,
        (by omega : len - 1 + 1 = len)]
    have hlen2 : (siftDownSwap lt (listSwap s 0 (len - 1)) (len - 1) 0).length
        = s.length := by
      rw [siftDownSwap_length, listSwap_length]
    have hmemtake : ∀ x, x ∈ (siftDownSwap lt (listSwap s 0 (len - 1)) (len - 1) 0).take
        (len - 1) → x ∈ s.take len := by
      intro x hx
      have hx2 : x ∈ (listSwap s 0 (len - 1)).take (len - 1) :=
        (siftDownSwap_take_perm lt _ (len - 1) 0).mem_iff.mp hx
      obtain ⟨k, hk, hks⟩ := mem_take_iff.mp hx2
      rw [hgs1 k] at hks
      by_cases hk0 : k = 0
      · rw [if_pos hk0] at hks
        exact mem_take_iff.mpr ⟨len - 1, by omega, hks⟩
      · rw [if_neg hk0, if_neg (by omega)] at hks
        exact mem_take_iff.mpr ⟨k, by omega, hks⟩
    have hrootmem : s.get ⟨0, h0s⟩ ∈ s.take len :=
      mem_take_iff.mpr ⟨0, by omega, List.getElem?_eq_getElem h0s⟩
    apply ih
    · omega
    · omega
    · -- heap property restored on the shortened prefix
      refine siftDownSwap_heap h (listSwap s 0 (len - 1)) (len - 1) 0 0
        (by rw [listSwap_length]; omega) (by omega) (le_refl 0) ?_ (by omega)
      intro c hc0 hc hp hne
      intro xi xj hxi hxj
      rw [hgs1 ((c - 1) / 2), if_neg hne, if_neg (by omega)] at hxi
      rw [hgs1 c, if_neg (by omega), if_neg (by omega)] at hxj
      exact hheap c hc0 (by omega) (by omega) xi xj hxi hxj
    · -- suffix sorted
      rw [hdrop2]
      rw [List.pairwise_cons]
      refine ⟨?_, hsorted⟩
      intro y hy
      exact hcross (s.get ⟨0, h0s⟩) y hrootmem hy
    · -- prefix dominated by the new suffix
      intro x y hx hy
      have hxs := hmemtake x hx
      rw [hdrop2] at hy
      rcases List.mem_cons.mp hy with rfl | hy2
      · obtain ⟨i, hi, his⟩ := mem_take_iff.mp hxs
        exact hroot i hi (s.get ⟨0, h0s⟩) x (List.getElem?_eq_getElem h0s) his
      · exact hcross x y hxs hy2

theorem heapsort_byswap_perm (lt : α → α → Bool) (s : List α) :
    List.Perm (heapsort_byswap lt s) s := by
  rw [heapsort_byswap]
  split_ifs with hlt
  · exact List.Perm.refl s
  · exact (popLoop_perm lt _ s.length).trans (heapLoop_perm lt s.length s (s.length / 2))

theorem heapsort_byswap_pairwise {lt : α → α → Bool} (h : IsSWO lt) (s : List α) :
    List.Pairwise (leOf lt) (heapsort_byswap lt s) := by
  rw [heapsort_byswap]
  split_ifs with hlt
  · rw [List.pairwise_iff_getElem]
    intro i j hi hj hij
    omega
  · have hblen : (heapLoop (fun t p => siftDownSwap lt t s.length p) s
        (s.length / 2)).length = s.length := heapLoop_length lt s.length s (s.length / 2)
    refine popLoop_sorted h _ s.length (by omega) (by omega) ?_ ?_ ?_
    · refine heapLoop_heap h s.length (s.length / 2) s (le_refl _) (by omega) ?_
      intro c h0 hc hp
      omega
    · rw [List.drop_eq_nil_of_le (by omega)]
      exact List.Pairwise.nil
    · intro x y hx hy
      rw [List.drop_eq_nil_of_le (by omega)] at hy
      cases hy

theorem pick_child_set (lt : α → α → Bool) (s : List α) (i len parent : Nat) (a : α)
    (hi : i ≤ parent) :
    pick_child lt (s.set i a) len parent = pick_child lt s len parent := by
  simp only [pick_child]
  rw [List.getElem?_set_ne (by omega : i ≠ parent * 2 + 1),
    List.getElem?_set_ne (by omega : i ≠ parent * 2 + 1 + 1)]

/-- The hole-moving `sift_down` of `heapsort` computes the same array as the
swapping one of `heapsort_byswap`: the swaps just keep writing the sifted
element into the hole. -/
theorem siftDownGo_eq_swap (lt : α → α → Bool) (elem : α) :
    ∀ (s : List α) (len parent : Nat), parent < len → len ≤ s.length →
      siftDownSwap lt (s.set parent elem) len parent = siftDownGo lt elem s len parent := by
  intro s len parent
  induction s, len, parent using siftDownGo.induct lt elem with
  | case1 s len parent hpc =>
    intro hp hlen
    rw [siftDownGo_none hpc]
    exact siftDownSwap_none (by rw [pick_child_set lt s parent len parent elem (le_refl _)]; exact hpc)
  | case2 s len parent child hpc hnone =>
    intro hp hlen
    have := pick_child_some hpc
    rw [List.getElem?_eq_getElem (show child < s.length by omega)] at hnone
    cases hnone
  | case3 s len parent child hpc xc hxc hlt ih =>
    intro hp hlen
    have hcs := pick_child_some hpc
    have hps : parent < s.length := by omega
    have hA1 : (s.set parent elem)[parent]? = some elem :=
      List.getElem?_set_self (by simpa using hps)
    have hA2 : (s.set parent elem)[child]? = some xc := by
      rw [List.getElem?_set_ne (by omega : parent ≠ child)]
      exact hxc
    rw [siftDownGo_down hpc hxc hlt]
    rw [siftDownSwap_swap
      (by rw [pick_child_set lt s parent len parent elem (le_refl _)]; exact hpc)
      hA1 hA2 hlt]
    have hswapeq : listSwap (s.set parent elem) parent child
        = (s.set parent xc).set child elem := by
      unfold listSwap
      rw [hA1, hA2]
      show ((s.set parent elem).set parent xc).set child elem
        = (s.set parent xc).set child elem
      rw [List.set_set]
    rw [hswapeq]
    exact ih (by omega) (by rw [List.length_set]; exact hlen)
  | case4 s len parent child hpc xc hxc hlt =>
    intro hp hlen
    have hcs := pick_child_some hpc
    have hps : parent < s.length := by omega
    have hA1 : (s.set parent elem)[parent]? = some elem :=
      List.getElem?_set_self (by simpa using hps)
    have hA2 : (s.set parent elem)[child]? = some xc := by
      rw [List.getElem?_set_ne (by omega : parent ≠ child)]
      exact hxc
    rw [siftDownGo_stop hpc hxc (Bool.of_not_eq_true hlt)]
    exact siftDownSwap_stop
      (by rw [pick_child_set lt s parent len parent elem (le_refl _)]; exact hpc)
      hA1 hA2 (Bool.of_not_eq_true hlt)

theorem siftDown_eq_swap (lt : α → α → Bool) (s : List α) (len parent : Nat)
    (hp : parent < len) (hlen : len ≤ s.length) :
    siftDown lt s len parent = siftDownSwap lt s len parent := by
  have hps : parent < s.length := by omega
  have he : s[parent]? = some (s.get ⟨parent, hps⟩) := List.getElem?_eq_getElem hps
  rw [siftDown, he]
  show siftDownGo lt (s.get ⟨parent, hps⟩) s len parent = siftDownSwap lt s len parent
  rw [← siftDownGo_eq_swap lt (s.get ⟨parent, hps⟩) s len parent hp hlen]
  rw [show s.set parent (s.get ⟨parent, hps⟩) = s from set_getElem_id s parent hps]

theorem heapLoop_congr {L P : Nat} (sift1 sift2 : List α → Nat → List α)
    (hlen2 : ∀ t p2, (sift2 t p2).length = t.length)
    (hagree : ∀ t p2, t.length = L → p2 ≤ P → sift1 t p2 = sift2 t p2) :
    ∀ (parent : Nat) (s : List α), s.length = L → parent ≤ P →
      heapLoop sift1 s parent = heapLoop sift2 s parent := by
  intro parent
  induction parent using Nat.strong_induction_on with
  | _ parent IH =>
    intro s hsl hpP
    rw [heapLoop_eq sift1, heapLoop_eq sift2]
    by_cases h0 : parent = 0
    · rw [if_pos h0, if_pos h0]
      exact hagree s parent hsl hpP
    · rw [if_neg h0, if_neg h0, hagree s parent hsl hpP]
      exact IH (parent - 1) (by omega) _ (by rw [hlen2]; exact hsl) (by omega)

theorem popLoop_congr {L : Nat} (sift1 sift2 : List α → Nat → Nat → List α)
    (hlen2 : ∀ t l2 p2, (sift2 t l2 p2).length = t.length)
    (hagree : ∀ t l2, t.length = L → 1 ≤ l2 → l2 ≤ L → sift1 t l2 0 = sift2 t l2 0) :
    ∀ (len : Nat) (s : List α), s.length = L → len ≤ L →
      popLoop sift1 s len = popLoop sift2 s len := by
  intro len
  induction len using Nat.strong_induction_on with
  | _ len IH =>
    intro s hsl hlenL
    rw [popLoop_eq sift1, popLoop_eq sift2]
    by_cases h0 : len - 1 = 0
    · rw [if_pos h0, if_pos h0]
    · rw [if_neg h0, if_neg h0, hagree (listSwap s 0 (len - 1)) (len - 1)
        (by rw [listSwap_length]; exact hsl) (by omega) (by omega)]
      exact IH (len - 1) (by omega) _ (by rw [hlen2, listSwap_length]; exact hsl)
        (by omega)

/-- `heapsort` and `heapsort_byswap` compute the same array. -/
theorem heapsort_eq_byswap (lt : α → α → Bool) (s : List α) :
    heapsort lt s = heapsort_byswap lt s := by
  rw [heapsort, heapsort_byswap]
  split_ifs with hlt
  · rfl
  · have hbuild : heapLoop (fun t p => siftDown lt t s.length p) s (s.length / 2)
        = heapLoop (fun t p => siftDownSwap lt t s.length p) s (s.length / 2) := by
      refine heapLoop_congr _ _
        (fun t p2 => siftDownSwap_length lt t s.length p2) ?_ (s.length / 2) s rfl
        (le_refl _)
      intro t p2 htl hp2
      exact siftDown_eq_swap lt t s.length p2 (by omega) (by omega)
    rw [hbuild]
    refine popLoop_congr (siftDown lt) (siftDownSwap lt)
      (fun t l2 p2 => siftDownSwap_length lt t l2 p2) ?_ s.length _
      (heapLoop_length lt s.length s (s.length / 2)) (le_refl _)
    intro t l2 htl h1 h2
    exact siftDown_eq_swap lt t l2 0 (by omega) (by omega)

theorem heapsort_perm (lt : α → α → Bool) (s : List α) :
    List.Perm (heapsort lt s) s := by
  rw [heapsort_eq_byswap]
  exact heapsort_byswap_perm lt s

theorem heapsort_pairwise {lt : α → α → Bool} (h : IsSWO lt) (s : List α) :
    List.Pairwise (leOf lt) (heapsort lt s) := by
  rw [heapsort_eq_byswap]
  exact heapsort_byswap_pairwise h s

/-! ### Quicksort: partitions and pivot selection

`detail::partitions::lomuto` and `detail::partitions::hoare`, with
`detail::bring_mid_to_front`, `detail::iter_min`, `detail::median_of_three`
and `detail::sorted_after_pivot_selection`.  A partition works on the
subrange it is given as a standalone list; a quicksort reassembles the
recursively sorted pieces, which matches the in-place recursion because the
pieces do not overlap.  `hoare` returns `none` when a scanner runs off the
range (undefined behavior in the C++); with the documented precondition this
cannot happen, which is proved below. -/

/-- The loop of `detail::partitions::lomuto`: `cur` scans from 1; elements
less than the pivot are swapped just after the growing prefix at `mid`. -/
def lomutoGo (lt : α → α → Bool) (pivot : α) (s : List α) (mid cur : Nat) :
    List α × Nat :=
  if s.length ≤ cur then (s, mid)
  else
    match s[cur]? with
    | none => (s, mid)  -- unreachable: cur < s.length
    | some xc =>
      if lt xc pivot then lomutoGo lt pivot (listSwap s (mid + 1) cur) (mid + 1) (cur + 1)
      else lomutoGo lt pivot s mid (cur + 1)
termination_by s.length - cur
decreasing_by
  · rw [listSwap_length]; omega
  · omega

/-- `detail::partitions::lomuto`: the pivot is the first element; afterwards
it is swapped to the final boundary position, which is returned. -/
def lomuto (lt : α → α → Bool) (s : List α) : List α × Nat :=
  match s[0]? with
  | none => (s, 0)  -- unreachable: the range is assumed nonempty
  | some pivot =>
    let p := lomutoGo lt pivot s 0 1
    (listSwap p.1 0 p.2, p.2)

theorem lomutoGo_length (lt : α → α → Bool) (pivot : α) :
    ∀ (s : List α) (mid cur : Nat),
      (lomutoGo lt pivot s mid cur).1.length = s.length := by
  intro s mid cur
  induction s, mid, cur using lomutoGo.induct lt pivot with
  | case1 s mid cur hstop => rw [lomutoGo, if_pos hstop]
  | case2 s mid cur hstop hnone =>
    rw [lomutoGo, if_neg hstop]
    split
    · rfl
    · rename_i xc hxc
      rw [hnone] at hxc
      cases hxc
  | case3 s mid cur hstop xc hxc hlt ih =>
    rw [lomutoGo, if_neg hstop]
    split
    · rfl
    · rename_i xc2 hxc2
      rw [hxc] at hxc2
      injection hxc2 with e
      subst e
      rw [if_pos hlt, ih, listSwap_length]
  | case4 s mid cur hstop xc hxc hlt ih =>
    rw [lomutoGo, if_neg hstop]
    split
    · rfl
    · rename_i xc2 hxc2
      rw [hxc] at hxc2
      injection hxc2 with e
      subst e
      rw [if_neg hlt, ih]

theorem lomutoGo_perm (lt : α → α → Bool) (pivot : α) :
    ∀ (s : List α) (mid cur : Nat),
      List.Perm (lomutoGo lt pivot s mid cur).1 s := by
  intro s mid cur
  induction s, mid, cur using lomutoGo.induct lt pivot with
  | case1 s mid cur hstop =>
    rw [lomutoGo, if_pos hstop]
  | case2 s mid cur hstop hnone =>
    rw [lomutoGo, if_neg hstop]
    split
    · exact List.Perm.refl s
    · rename_i xc hxc
      rw [hnone] at hxc
      cases hxc
  | case3 s mid cur hstop xc hxc hlt ih =>
    rw [lomutoGo, if_neg hstop]
    split
    · exact List.Perm.refl s
    · rename_i xc2 hxc2
      rw [hxc] at hxc2
      injection hxc2 with e
      subst e
      rw [if_pos hlt]
      exact ih.trans (listSwap_perm s (mid + 1) cur)
  | case4 s mid cur hstop xc hxc hlt ih =>
    rw [lomutoGo, if_neg hstop]
    split
    · exact List.Perm.refl s
    · rename_i xc2 hxc2
      rw [hxc] at hxc2
      injection hxc2 with e
      subst e
      rw [if_neg hlt]
      exact ih

theorem lomutoGo_snd_bound (lt : α → α → Bool) (pivot : α) :
    ∀ (s : List α) (mid cur : Nat), mid < cur →
      mid ≤ (lomutoGo lt pivot s mid cur).2 ∧
      (lomutoGo lt pivot s mid cur).2 ≤ mid + (s.length - cur) := by
  intro s mid cur
  induction s, mid, cur using lomutoGo.induct lt pivot with
  | case1 s mid cur hstop =>
    intro hmc
    rw [lomutoGo, if_pos hstop]
    omega
  | case2 s mid cur hstop hnone =>
    intro hmc
    rw [lomutoGo, if_neg hstop]
    split
    · omega
    · rename_i xc hxc
      rw [hnone] at hxc
      cases hxc
  | case3 s mid cur hstop xc hxc hlt ih =>
    intro hmc
    rw [lomutoGo, if_neg hstop]
    split
    · omega
    · rename_i xc2 hxc2
      rw [hxc] at hxc2
      injection hxc2 with e
      subst e
      rw [if_pos hlt]
      have := ih (by omega)
      rw [listSwap_length] at this
      omega
  | case4 s mid cur hstop xc hxc hlt ih =>
    intro hmc
    rw [lomutoGo, if_neg hstop]
    split
    · omega
    · rename_i xc2 hxc2
      rw [hxc] at hxc2
      injection hxc2 with e
      subst e
      rw [if_neg hlt]
      have := ih (by omega)
      omega

theorem lomuto_length (lt : α → α → Bool) (s : List α) :
    (lomuto lt s).1.length = s.length := by
  rw [lomuto]
  split
  · rfl
  · rename_i pivot hp
    simp only
    rw [listSwap_length, lomutoGo_length]

theorem lomuto_perm (lt : α → α → Bool) (s : List α) :
    List.Perm (lomuto lt s).1 s := by
  rw [lomuto]
  split
  · exact List.Perm.refl s
  · rename_i pivot hp
    simp only
    exact (listSwap_perm _ 0 _).trans (lomutoGo_perm lt pivot s 0 1)

theorem lomuto_snd_lt (lt : α → α → Bool) (s : List α) (hs : 0 < s.length) :
    (lomuto lt s).2 < s.length := by
  rw [lomuto]
  split
  · exact hs
  · rename_i pivot hp
    simp only
    have := lomutoGo_snd_bound lt pivot s 0 1 (by omega)
    omega

theorem lomutoGo_spec {lt : α → α → Bool} {pivot : α} :
    ∀ (s : List α) (mid cur : Nat),
      s[0]? = some pivot → 1 ≤ cur → mid < cur →
      (∀ i x, 1 ≤ i → i ≤ mid → s[i]? = some x → lt x pivot = true) →
      (∀ j x, mid < j → j < cur → s[j]? = some x → lt x pivot = false) →
      (lomutoGo lt pivot s mid cur).1[0]? = some pivot ∧
      (∀ i x, 1 ≤ i → i ≤ (lomutoGo lt pivot s mid cur).2 →
        (lomutoGo lt pivot s mid cur).1[i]? = some x → lt x pivot = true) ∧
      (∀ j x, (lomutoGo lt pivot s mid cur).2 < j →
        (lomutoGo lt pivot s mid cur).1[j]? = some x → lt x pivot = false) := by
  intro s mid cur
  induction s, mid, cur using lomutoGo.induct lt pivot with
  | case1 s mid cur hstop =>
    intro hs0 hcur hmc hsmall hbig
    rw [lomutoGo, if_pos hstop]
    refine ⟨hs0, hsmall, ?_⟩
    intro j x hj hx
    have : j < s.length := (List.getElem?_eq_some_iff.mp hx).1
    exact hbig j x hj (by omega) hx
  | case2 s mid cur hstop hnone =>
    intro hs0 hcur hmc hsmall hbig
    have : cur < s.length := by omega
    rw [List.getElem?_eq_getElem this] at hnone
    cases hnone
  | case3 s mid cur hstop xc hxc hlt ih =>
    intro hs0 hcur hmc hsmall hbig
    rw [lomutoGo, if_neg hstop]
    have hcs : cur < s.length := by omega
    have hms : mid + 1 < s.length := by omega
    have hgs : ∀ k, (listSwap s (mid + 1) cur)[k]? =
        if k = mid + 1 then s[cur]? else if k = cur then s[mid + 1]? else s[k]? :=
      getElem?_listSwap s (mid + 1) cur hms hcs
    split
    · rename_i hxc2
      rw [hxc] at hxc2
      cases hxc2
    · rename_i xc2 hxc2
      rw [hxc] at hxc2
      injection hxc2 with e
      subst e
      rw [if_pos hlt]
      refine ih ?_ (by omega) (by omega) ?_ ?_
      · rw [hgs 0, if_neg (by omega), if_neg (by omega)]
        exact hs0
      · intro i x h1 hi hx
        rw [hgs i] at hx
        by_cases hi1 : i = mid + 1
        · rw [if_pos hi1, hxc] at hx
          injection hx with e
          subst e
          exact hlt
        · rw [if_neg hi1, if_neg (by omega)] at hx
          exact hsmall i x h1 (by omega) hx
      · intro j x hj1 hj2 hx
        rw [hgs j] at hx
        by_cases hjc : j = cur
        · rw [if_neg (by omega), if_pos hjc] at hx
          exact hbig (mid + 1) x (by omega) (by omega) hx
        · rw [if_neg (by omega), if_neg hjc] at hx
          exact hbig j x (by omega) (by omega) hx
  | case4 s mid cur hstop xc hxc hlt ih =>
    intro hs0 hcur hmc hsmall hbig
    rw [lomutoGo, if_neg hstop]
    split
    · rename_i hxc2
      rw [hxc] at hxc2
      cases hxc2
    · rename_i xc2 hxc2
      rw [hxc] at hxc2
      injection hxc2 with e
      subst e
      rw [if_neg hlt]
      refine ih hs0 (by omega) (by omega) hsmall ?_
      intro j x hj1 hj2 hx
      by_cases hjc : j = cur
      · subst hjc
        rw [hxc] at hx
        injection hx with e
        subst e
        exact Bool.of_not_eq_true hlt
      · exact hbig j x hj1 (by omega) hx

/-- `detail::partitions::lomuto` full postcondition on a nonempty range: the
array is permuted, the original first element (the pivot) lands at the
returned position, everything before it is strictly less than the pivot, and
everything after it is not less than the pivot. -/
theorem lomuto_spec {lt : α → α → Bool} {s : List α} {pivot : α}
    (hs0 : s[0]? = some pivot) :
    (lomuto lt s).1[(lomuto lt s).2]? = some pivot ∧
    (∀ i x, i < (lomuto lt s).2 → (lomuto lt s).1[i]? = some x → lt x pivot = true) ∧
    (∀ j x, (lomuto lt s).2 < j → (lomuto lt s).1[j]? = some x → lt x pivot = false) := by
  have hlen0 : 0 < s.length := (List.getElem?_eq_some_iff.mp hs0).1
  rw [lomuto]
  split
  · rename_i hp
    rw [hs0] at hp
    cases hp
  · rename_i pivot2 hp
    rw [hs0] at hp
    injection hp with e
    subst e
    simp only
    obtain ⟨hg0, hsm, hbg⟩ := lomutoGo_spec s 0 1 hs0 (le_refl 1) (by omega)
      (by intro i x h1 hi hx; omega)
      (by intro j x hj1 hj2 hx; omega)
    have hbnd := lomutoGo_snd_bound lt pivot s 0 1 (by omega)
    have htlen := lomutoGo_length lt pivot s 0 1
    have hm : (lomutoGo lt pivot s 0 1).2 < (lomutoGo lt pivot s 0 1).1.length := by
      omega
    have h0t : 0 < (lomutoGo lt pivot s 0 1).1.length := by omega
    have hgs : ∀ k, (listSwap (lomutoGo lt pivot s 0 1).1 0 (lomutoGo lt pivot s 0 1).2)[k]? =
        if k = 0 then (lomutoGo lt pivot s 0 1).1[(lomutoGo lt pivot s 0 1).2]?
        else if k = (lomutoGo lt pivot s 0 1).2 then (lomutoGo lt pivot s 0 1).1[0]?
        else (lomutoGo lt pivot s 0 1).1[k]? :=
      getElem?_listSwap _ 0 _ h0t hm
    refine ⟨?_, ?_, ?_⟩
    · rw [hgs (lomutoGo lt pivot s 0 1).2]
      by_cases hm0 : (lomutoGo lt pivot s 0 1).2 = 0
      · rw [if_pos hm0, hm0]
        exact hg0
      · rw [if_neg hm0, if_pos rfl]
        exact hg0
    · intro i x hi hx
      rw [hgs i] at hx
      by_cases hi0 : i = 0
      · rw [if_pos hi0] at hx
        exact hsm (lomutoGo lt pivot s 0 1).2 x (by omega) (le_refl _) hx
      · rw [if_neg hi0, if_neg (by omega)] at hx
        exact hsm i x (by omega) (by omega) hx
    · intro j x hj hx
      rw [hgs j] at hx
      rw [if_neg (by omega), if_neg (by omega)] at hx
      exact hbg j x hj hx

/-- `detail::iter_min` on positions into the array. -/
def iter_min (lt : α → α → Bool) (s : List α) (p q : Nat) : Nat :=
  match s[p]?, s[q]? with
  | some xp, some xq => if lt xq xp then q else p
  | _, _ => p  -- unreachable for in-bounds positions

/-- `detail::median_of_three` on positions into the array. -/
def median_of_three (lt : α → α → Bool) (s : List α) (p q r : Nat) : Nat :=
  match s[p]?, s[q]?, s[r]? with
  | some xp, some xq, some xr =>
    if lt xp xq then (if lt xp xr then iter_min lt s q r else p)
    else (if lt xq xr then iter_min lt s p r else q)
  | _, _, _ => p  -- unreachable for in-bounds positions

/-- `detail::bring_mid_to_front`. -/
def bring_mid_to_front (s : List α) : List α := listSwap s 0 (s.length / 2)

/-- `detail::bring_median_of_three_to_front`. -/
def bring_median_of_three_to_front (lt : α → α → Bool) (s : List α) : List α :=
  listSwap s 0 (median_of_three lt s 0 (s.length / 2) (s.length - 1))

/-- `detail::sorted_after_pivot_selection`: sorts ranges of fewer than three
elements directly (returning `true`), otherwise moves the median-of-three
element to the front (returning `false`). -/
def sorted_after_pivot_selection (lt : α → α → Bool) (s : List α) : List α × Bool :=
  if s.length < 3 then
    (if s.length = 2 then
      match s[0]?, s[1]? with
      | some x0, some x1 => if lt x1 x0 then listSwap s 0 1 else s
      | _, _ => s
    else s, true)
  else (bring_median_of_three_to_front lt s, false)

theorem sorted_after_pivot_selection_length (lt : α → α → Bool) (s : List α) :
    (sorted_after_pivot_selection lt s).1.length = s.length := by
  rw [sorted_after_pivot_selection]
  split_ifs with h1 h2
  · simp only
    split
    · split_ifs
      · rw [listSwap_length]
      · rfl
    · rfl
  · rfl
  · simp only [bring_median_of_three_to_front, listSwap_length]

theorem sorted_after_pivot_selection_perm (lt : α → α → Bool) (s : List α) :
    List.Perm (sorted_after_pivot_selection lt s).1 s := by
  rw [sorted_after_pivot_selection]
  split_ifs with h1 h2
  · simp only
    split
    · split_ifs
      · exact listSwap_perm s 0 1
      · exact List.Perm.refl s
    · exact List.Perm.refl s
  · exact List.Perm.refl s
  · exact listSwap_perm s 0 _

theorem sorted_after_pivot_selection_snd (lt : α → α → Bool) (s : List α) :
    (sorted_after_pivot_selection lt s).2 = true ↔ s.length < 3 := by
  rw [sorted_after_pivot_selection]
  split_ifs with h1 <;> simp [h1]

/-- On fewer than three elements `sorted_after_pivot_selection` leaves the
range sorted. -/
theorem sorted_after_pivot_selection_small {lt : α → α → Bool} (h : IsSWO lt)
    {s : List α} (hs : s.length < 3) :
    List.Pairwise (leOf lt) (sorted_after_pivot_selection lt s).1 := by
  rw [sorted_after_pivot_selection, if_pos hs]
  simp only
  match s, hs with
  | [], _ => simp
  | [a], _ => simp
  | [a, b], _ =>
    rw [if_pos (show ([a, b] : List α).length = 2 from rfl)]
    have h01 : ([a, b] : List α)[0]? = some a := rfl
    have h11 : ([a, b] : List α)[1]? = some b := rfl
    rw [h01, h11]
    simp only
    split_ifs with hba
    · have hsw : listSwap ([a, b] : List α) 0 1 = [b, a] := by
        unfold listSwap
        rw [h01, h11]
        rfl
      rw [hsw]
      simp [leOf, h.asymm b a hba]
    · simp only [Bool.not_eq_true] at hba
      simp [leOf, hba]

theorem take_mid_drop (t : List α) (m : Nat) :
    t.take m ++ (t.drop m).take 1 ++ t.drop (m + 1) = t := by
  have h1 : t.drop (m + 1) = (t.drop m).drop 1 := by
    rw [List.drop_drop 1 m t, Nat.add_comm m 1]
  rw [h1, List.append_assoc, List.take_append_drop, List.take_append_drop]

theorem drop_take_one {t : List α} {m : Nat} {x : α} (h : t[m]? = some x) :
    (t.drop m).take 1 = [x] := by
  have hm : m < t.length := (List.getElem?_eq_some_iff.mp h).1
  rw [List.drop_eq_getElem_cons hm]
  have : t[m] = x := by
    have := List.getElem?_eq_getElem hm
    rw [h] at this
    injection this with e
    exact e.symm
  rw [this]
  rfl

theorem pairwise_append_le {lt : α → α → Bool} (h : IsSWO lt) {A B : List α}
    (pivot : α) (hA : List.Pairwise (leOf lt) A) (hB : List.Pairwise (leOf lt) B)
    (hAp : ∀ x ∈ A, leOf lt x pivot) (hpB : ∀ y ∈ B, leOf lt pivot y) :
    List.Pairwise (leOf lt) (A ++ B) :=
  List.pairwise_append.mpr ⟨hA, hB, fun x hx y hy => h.le_trans (hAp x hx) (hpB y hy)⟩

/-- `quicksort_lomuto_simple` from sorts.cpp (the K&R 2 algorithm): pivot is
the middle element, moved to the front, then Lomuto partition and recursion
on the two sides of the pivot. -/
def quicksort_lomuto_simple (lt : α → α → Bool) (s : List α) : List α :=
  if 2 ≤ s.length then
    let p := lomuto lt (bring_mid_to_front s)
    quicksort_lomuto_simple lt (p.1.take p.2) ++ (p.1.drop p.2).take 1
      ++ quicksort_lomuto_simple lt (p.1.drop (p.2 + 1))
  else s
termination_by s.length
decreasing_by
  all_goals
    have h1 := lomuto_length lt (bring_mid_to_front s)
    have h2 := lomuto_snd_lt lt (bring_mid_to_front s)
      (by rw [bring_mid_to_front, listSwap_length]; omega)
    have h3 : (bring_mid_to_front s).length = s.length := by
      rw [bring_mid_to_front, listSwap_length]
    rw [h3] at h1 h2
  · simp only [List.length_take, h1]
    omega
  · simp only [List.length_drop, h1]
    omega

/-- `quicksort_lomuto` from sorts.cpp: median-of-three pivot selection with
direct handling of ranges shorter than three, then Lomuto partition. -/
def quicksort_lomuto (lt : α → α → Bool) (s : List α) : List α :=
  let ps := sorted_after_pivot_selection lt s
  if ps.2 then ps.1
  else
    let p := lomuto lt ps.1
    quicksort_lomuto lt (p.1.take p.2) ++ (p.1.drop p.2).take 1
      ++ quicksort_lomuto lt (p.1.drop (p.2 + 1))
termination_by s.length
decreasing_by
  all_goals
    rename_i hfalse
    have h3 : ¬s.length < 3 := by
      intro hc
      exact hfalse ((sorted_after_pivot_selection_snd lt s).mpr hc)
    have h1 := lomuto_length lt (sorted_after_pivot_selection lt s).1
    have h2 := lomuto_snd_lt lt (sorted_after_pivot_selection lt s).1
      (by rw [sorted_after_pivot_selection_length]; omega)
    rw [sorted_after_pivot_selection_length] at h1 h2
  · simp only [List.length_take, h1]
    omega
  · simp only [List.length_drop, h1]
    omega

theorem quicksort_lomuto_simple_step (lt : α → α → Bool) (s : List α)
    (h2 : 2 ≤ s.length) :
    quicksort_lomuto_simple lt s =
      quicksort_lomuto_simple lt
        ((lomuto lt (bring_mid_to_front s)).1.take (lomuto lt (bring_mid_to_front s)).2)
      ++ ((lomuto lt (bring_mid_to_front s)).1.drop
        (lomuto lt (bring_mid_to_front s)).2).take 1
      ++ quicksort_lomuto_simple lt
        ((lomuto lt (bring_mid_to_front s)).1.drop
          ((lomuto lt (bring_mid_to_front s)).2 + 1)) := by
  rw [quicksort_lomuto_simple, if_pos h2]

theorem quicksort_lomuto_simple_stop (lt : α → α → Bool) (s : List α)
    (h2 : ¬2 ≤ s.length) : quicksort_lomuto_simple lt s = s := by
  rw [quicksort_lomuto_simple, if_neg h2]

theorem quicksort_lomuto_done (lt : α → α → Bool) (s : List α)
    (hd : (sorted_after_pivot_selection lt s).2 = true) :
    quicksort_lomuto lt s = (sorted_after_pivot_selection lt s).1 := by
  rw [quicksort_lomuto]
  simp only [hd, if_true]

theorem quicksort_lomuto_step (lt : α → α → Bool) (s : List α)
    (hd : ¬(sorted_after_pivot_selection lt s).2 = true) :
    quicksort_lomuto lt s =
      quicksort_lomuto lt
        ((lomuto lt (sorted_after_pivot_selection lt s).1).1.take
          (lomuto lt (sorted_after_pivot_selection lt s).1).2)
      ++ ((lomuto lt (sorted_after_pivot_selection lt s).1).1.drop
        (lomuto lt (sorted_after_pivot_selection lt s).1).2).take 1
      ++ quicksort_lomuto lt
        ((lomuto lt (sorted_after_pivot_selection lt s).1).1.drop
          ((lomuto lt (sorted_after_pivot_selection lt s).1).2 + 1)) := by
  rw [quicksort_lomuto]
  simp only [Bool.not_eq_true] at hd
  simp only [hd, Bool.false_eq_true, if_false]

theorem quicksort_lomuto_simple_perm (lt : α → α → Bool) :
    ∀ s : List α, List.Perm (quicksort_lomuto_simple lt s) s := by
  intro s
  induction s using quicksort_lomuto_simple.induct lt with
  | case1 s h2 p ih1 ih2 =>
    rw [quicksort_lomuto_simple_step lt s h2]
    have hstep := (ih1.append (List.Perm.refl
      (((lomuto lt (bring_mid_to_front s)).1.drop
        (lomuto lt (bring_mid_to_front s)).2).take 1))).append ih2
    refine hstep.trans ?_
    rw [take_mid_drop]
    exact (lomuto_perm lt _).trans (listSwap_perm s 0 _)
  | case2 s h2 =>
    rw [quicksort_lomuto_simple_stop lt s h2]

theorem quicksort_lomuto_perm (lt : α → α → Bool) :
    ∀ s : List α, List.Perm (quicksort_lomuto lt s) s := by
  intro s
  induction s using quicksort_lomuto.induct lt with
  | case1 s ps hd =>
    rw [quicksort_lomuto_done lt s hd]
    exact sorted_after_pivot_selection_perm lt s
  | case2 s ps hd p ih1 ih2 =>
    rw [quicksort_lomuto_step lt s hd]
    have hstep := (ih1.append (List.Perm.refl
      (((lomuto lt (sorted_after_pivot_selection lt s).1).1.drop
        (lomuto lt (sorted_after_pivot_selection lt s).1).2).take 1))).append ih2
    refine hstep.trans ?_
    rw [take_mid_drop]
    exact (lomuto_perm lt _).trans (sorted_after_pivot_selection_perm lt s)

theorem quicksort_lomuto_simple_pairwise {lt : α → α → Bool} (h : IsSWO lt) :
    ∀ s : List α, List.Pairwise (leOf lt) (quicksort_lomuto_simple lt s) := by
  intro s
  induction s using quicksort_lomuto_simple.induct lt with
  | case1 s h2 p ih1 ih2 =>
    rw [quicksort_lomuto_simple_step lt s h2]
    have hb0 : 0 < (bring_mid_to_front s).length := by
      rw [bring_mid_to_front, listSwap_length]
      omega
    have hpiv : (bring_mid_to_front s)[0]? =
        some ((bring_mid_to_front s).get ⟨0, hb0⟩) := List.getElem?_eq_getElem hb0
    obtain ⟨hpos, hsmall, hbig⟩ := lomuto_spec hpiv
    have hmid := drop_take_one hpos
    rw [hmid]
    have hAmem : ∀ x ∈ quicksort_lomuto_simple lt
        ((lomuto lt (bring_mid_to_front s)).1.take (lomuto lt (bring_mid_to_front s)).2),
        leOf lt x ((bring_mid_to_front s).get ⟨0, hb0⟩) := by
      intro x hx
      have hx2 := (quicksort_lomuto_simple_perm lt _).mem_iff.mp hx
      obtain ⟨i, hi, his⟩ := mem_take_iff.mp hx2
      exact h.le_of_lt (hsmall i x hi his)
    have hBmem : ∀ y ∈ quicksort_lomuto_simple lt
        ((lomuto lt (bring_mid_to_front s)).1.drop ((lomuto lt (bring_mid_to_front s)).2 + 1)),
        leOf lt ((bring_mid_to_front s).get ⟨0, hb0⟩) y := by
      intro y hy
      have hy2 := (quicksort_lomuto_simple_perm lt _).mem_iff.mp hy
      obtain ⟨k, hk⟩ := List.mem_iff_getElem?.mp hy2
      rw [List.getElem?_drop _ _ k] at hk
      exact hbig _ y (by omega) hk
    refine pairwise_append_le h ((bring_mid_to_front s).get ⟨0, hb0⟩) ?_ ih2 ?_ hBmem
    · refine List.pairwise_append.mpr ⟨ih1, List.pairwise_singleton _ _, ?_⟩
      intro x hx y hy
      rw [List.mem_singleton] at hy
      subst hy
      exact hAmem x hx
    · intro x hx
      rcases List.mem_append.mp hx with hx1 | hx2
      · exact hAmem x hx1
      · rw [List.mem_singleton] at hx2
        subst hx2
        exact h.le_refl _
  | case2 s h2 =>
    rw [quicksort_lomuto_simple_stop lt s h2]
    rw [List.pairwise_iff_getElem]
    intro i j hi hj hij
    omega

theorem quicksort_lomuto_pairwise {lt : α → α → Bool} (h : IsSWO lt) :
    ∀ s : List α, List.Pairwise (leOf lt) (quicksort_lomuto lt s) := by
  intro s
  induction s using quicksort_lomuto.induct lt with
  | case1 s ps hd =>
    rw [quicksort_lomuto_done lt s hd]
    exact sorted_after_pivot_selection_small h
      ((sorted_after_pivot_selection_snd lt s).mp hd)
  | case2 s ps hd p ih1 ih2 =>
    rw [quicksort_lomuto_step lt s hd]
    have h3 : ¬s.length < 3 := by
      intro hc
      exact hd ((sorted_after_pivot_selection_snd lt s).mpr hc)
    have hb0 : 0 < (sorted_after_pivot_selection lt s).1.length := by
      rw [sorted_after_pivot_selection_length]
      omega
    have hpiv : (sorted_after_pivot_selection lt s).1[0]? =
        some ((sorted_after_pivot_selection lt s).1.get ⟨0, hb0⟩) :=
      List.getElem?_eq_getElem hb0
    obtain ⟨hpos, hsmall, hbig⟩ := lomuto_spec hpiv
    have hmid := drop_take_one hpos
    rw [hmid]
    have hAmem : ∀ x ∈ quicksort_lomuto lt
        ((lomuto lt (sorted_after_pivot_selection lt s).1).1.take
          (lomuto lt (sorted_after_pivot_selection lt s).1).2),
        leOf lt x ((sorted_after_pivot_selection lt s).1.get ⟨0, hb0⟩) := by
      intro x hx
      have hx2 := (quicksort_lomuto_perm lt _).mem_iff.mp hx
      obtain ⟨i, hi, his⟩ := mem_take_iff.mp hx2
      exact h.le_of_lt (hsmall i x hi his)
    have hBmem : ∀ y ∈ quicksort_lomuto lt
        ((lomuto lt (sorted_after_pivot_selection lt s).1).1.drop
          ((lomuto lt (sorted_after_pivot_selection lt s).1).2 + 1)),
        leOf lt ((sorted_after_pivot_selection lt s).1.get ⟨0, hb0⟩) y := by
      intro y hy
      have hy2 := (quicksort_lomuto_perm lt _).mem_iff.mp hy
      obtain ⟨k, hk⟩ := List.mem_iff_getElem?.mp hy2
      rw [List.getElem?_drop _ _ k] at hk
      exact hbig _ y (by omega) hk
    refine pairwise_append_le h ((sorted_after_pivot_selection lt s).1.get ⟨0, hb0⟩)
      ?_ ih2 ?_ hBmem
    · refine List.pairwise_append.mpr ⟨ih1, List.pairwise_singleton _ _, ?_⟩
      intro x hx y hy
      rw [List.mem_singleton] at hy
      subst hy
      exact hAmem x hx
    · intro x hx
      rcases List.mem_append.mp hx with hx1 | hx2
      · exact hAmem x hx1
      · rw [List.mem_singleton] at hx2
        subst hx2
        exact h.le_refl _

/-- The `while (*++first < pivot)` scanner of `detail::partitions::hoare`:
advance, then test.  `none` models a read past the end of the array
(undefined behavior in the C++). -/
def hoareScanUp (lt : α → α → Bool) (pivot : α) (s : List α) (i : Nat) :
    Option Nat :=
  match hx : s[i + 1]? with
  | none => none
  | some x => if lt x pivot then hoareScanUp lt pivot s (i + 1) else some (i + 1)
termination_by s.length - i
decreasing_by
  have := (List.getElem?_eq_some_iff.mp hx).1
  omega

/-- The `while (pivot < *--last)` scanner: retreat, then test.  `none` models
a read before the beginning (undefined behavior in the C++). -/
def hoareScanDown (lt : α → α → Bool) (pivot : α) (s : List α) (j : Nat) :
    Option Nat :=
  if j = 0 then none
  else
    match s[j - 1]? with
    | none => none
    | some x =>
      if lt pivot x then hoareScanDown lt pivot s (j - 1) else some (j - 1)
termination_by j

theorem hoareScanUp_none {lt : α → α → Bool} {pivot : α} {s : List α} {i : Nat}
    (hx : s[i + 1]? = none) : hoareScanUp lt pivot s i = none := by
  rw [hoareScanUp]
  split
  · rfl
  · rename_i x hx2
    rw [hx] at hx2
    cases hx2

theorem hoareScanUp_go {lt : α → α → Bool} {pivot : α} {s : List α} {i : Nat}
    {x : α} (hx : s[i + 1]? = some x) (hlt : lt x pivot = true) :
    hoareScanUp lt pivot s i = hoareScanUp lt pivot s (i + 1) := by
  rw [hoareScanUp]
  split
  · rename_i hx2
    rw [hx] at hx2
    cases hx2
  · rename_i x2 hx2
    rw [hx] at hx2
    injection hx2 with e
    subst e
    rw [if_pos hlt]

theorem hoareScanUp_stop {lt : α → α → Bool} {pivot : α} {s : List α} {i : Nat}
    {x : α} (hx : s[i + 1]? = some x) (hlt : lt x pivot = false) :
    hoareScanUp lt pivot s i = some (i + 1) := by
  rw [hoareScanUp]
  split
  · rename_i hx2
    rw [hx] at hx2
    cases hx2
  · rename_i x2 hx2
    rw [hx] at hx2
    injection hx2 with e
    subst e
    rw [if_neg (by rw [hlt]; exact Bool.false_ne_true)]

theorem hoareScanUp_gt {lt : α → α → Bool} {pivot : α} :
    ∀ {s : List α} {i i2 : Nat}, hoareScanUp lt pivot s i = some i2 →
      i < i2 ∧ i2 < s.length := by
  intro s i
  induction i using hoareScanUp.induct lt pivot s with
  | case1 i hx =>
    intro i2 hscan
    rw [hoareScanUp_none hx] at hscan
    cases hscan
  | case2 i x hx hlt ih =>
    intro i2 hscan
    rw [hoareScanUp_go hx hlt] at hscan
    have := ih hscan
    omega
  | case3 i x hx hlt =>
    intro i2 hscan
    rw [hoareScanUp_stop hx (Bool.of_not_eq_true hlt)] at hscan
    injection hscan with e
    subst e
    have := (List.getElem?_eq_some_iff.mp hx).1
    omega

theorem hoareScanDown_zero {lt : α → α → Bool} {pivot : α} {s : List α} :
    hoareScanDown lt pivot s 0 = none := by
  rw [hoareScanDown, if_pos rfl]

theorem hoareScanDown_none {lt : α → α → Bool} {pivot : α} {s : List α} {j : Nat}
    (hj : j ≠ 0) (hx : s[j - 1]? = none) : hoareScanDown lt pivot s j = none := by
  rw [hoareScanDown, if_neg hj]
  split
  · rfl
  · rename_i x hx2
    rw [hx] at hx2
    cases hx2

theorem hoareScanDown_go {lt : α → α → Bool} {pivot : α} {s : List α} {j : Nat}
    {x : α} (hj : j ≠ 0) (hx : s[j - 1]? = some x) (hlt : lt pivot x = true) :
    hoareScanDown lt pivot s j = hoareScanDown lt pivot s (j - 1) := by
  rw [hoareScanDown, if_neg hj]
  split
  · rename_i hx2
    rw [hx] at hx2
    cases hx2
  · rename_i x2 hx2
    rw [hx] at hx2
    injection hx2 with e
    subst e
    rw [if_pos hlt]

theorem hoareScanDown_stop {lt : α → α → Bool} {pivot : α} {s : List α} {j : Nat}
    {x : α} (hj : j ≠ 0) (hx : s[j - 1]? = some x) (hlt : lt pivot x = false) :
    hoareScanDown lt pivot s j = some (j - 1) := by
  rw [hoareScanDown, if_neg hj]
  split
  · rename_i hx2
    rw [hx] at hx2
    cases hx2
  · rename_i x2 hx2
    rw [hx] at hx2
    injection hx2 with e
    subst e
    rw [if_neg (by rw [hlt]; exact Bool.false_ne_true)]

theorem hoareScanDown_lt {lt : α → α → Bool} {pivot : α} :
    ∀ {s : List α} {j j2 : Nat}, hoareScanDown lt pivot s j = some j2 → j2 < j := by
  intro s j
  induction j using Nat.strong_induction_on with
  | _ j IH =>
    intro j2 hscan
    by_cases hj : j = 0
    · subst hj
      rw [hoareScanDown_zero] at hscan
      cases hscan
    · rcases hx : s[j - 1]? with _ | x
      · rw [hoareScanDown_none hj hx] at hscan
        cases hscan
      · cases hlt : lt pivot x with
        | true =>
          rw [hoareScanDown_go hj hx hlt] at hscan
          have := IH (j - 1) (by omega) hscan
          omega
        | false =>
          rw [hoareScanDown_stop hj hx hlt] at hscan
          injection hscan with e
          omega

/-- The swapping loop of `detail::partitions::hoare`. -/
def hoareLoop (lt : α → α → Bool) (pivot : α) (s : List α) (i j : Nat) :
    Option (List α × Nat) :=
  match hup : hoareScanUp lt pivot s i with
  | none => none
  | some i2 =>
    match hdn : hoareScanDown lt pivot s j with
    | none => none
    | some j2 =>
      if j2 ≤ i2 then some (s, i2)
      else hoareLoop lt pivot (listSwap s i2 j2) i2 j2
termination_by j - i
decreasing_by
  have h1 := hoareScanUp_gt hup
  have h2 := hoareScanDown_lt hdn
  rename_i hgt
  omega

/-- `detail::partitions::hoare`: pivot is the first element; scanners start
just outside the range. -/
def hoare (lt : α → α → Bool) (s : List α) : Option (List α × Nat) :=
  match s[0]? with
  | none => none  -- unreachable: the range is assumed nonempty
  | some pivot => hoareLoop lt pivot s 0 s.length

theorem hoareLoop_upNone {lt : α → α → Bool} {pivot : α} {s : List α} {i j : Nat}
    (hup : hoareScanUp lt pivot s i = none) : hoareLoop lt pivot s i j = none := by
  rw [hoareLoop]
  split
  · rfl
  · rename_i i2 hup2
    rw [hup] at hup2
    cases hup2

theorem hoareLoop_dnNone {lt : α → α → Bool} {pivot : α} {s : List α} {i j i2 : Nat}
    (hup : hoareScanUp lt pivot s i = some i2)
    (hdn : hoareScanDown lt pivot s j = none) : hoareLoop lt pivot s i j = none := by
  rw [hoareLoop]
  split
  · rfl
  · rename_i i3 hup2
    rw [hup] at hup2
    injection hup2 with e
    subst e
    split
    · rfl
    · rename_i j2 hdn2
      rw [hdn] at hdn2
      cases hdn2

theorem hoareLoop_stop {lt : α → α → Bool} {pivot : α} {s : List α} {i j i2 j2 : Nat}
    (hup : hoareScanUp lt pivot s i = some i2)
    (hdn : hoareScanDown lt pivot s j = some j2) (hle : j2 ≤ i2) :
    hoareLoop lt pivot s i j = some (s, i2) := by
  rw [hoareLoop]
  split
  · rename_i hup2
    rw [hup] at hup2
    cases hup2
  · rename_i i3 hup2
    rw [hup] at hup2
    injection hup2 with e
    subst e
    split
    · rename_i hdn2
      rw [hdn] at hdn2
      cases hdn2
    · rename_i j3 hdn2
      rw [hdn] at hdn2
      injection hdn2 with e
      subst e
      rw [if_pos hle]

theorem hoareLoop_swap {lt : α → α → Bool} {pivot : α} {s : List α} {i j i2 j2 : Nat}
    (hup : hoareScanUp lt pivot s i = some i2)
    (hdn : hoareScanDown lt pivot s j = some j2) (hgt : ¬j2 ≤ i2) :
    hoareLoop lt pivot s i j = hoareLoop lt pivot (listSwap s i2 j2) i2 j2 := by
  rw [hoareLoop]
  split
  · rename_i hup2
    rw [hup] at hup2
    cases hup2
  · rename_i i3 hup2
    rw [hup] at hup2
    injection hup2 with e
    subst e
    split
    · rename_i hdn2
      rw [hdn] at hdn2
      cases hdn2
    · rename_i j3 hdn2
      rw [hdn] at hdn2
      injection hdn2 with e
      subst e
      rw [if_neg hgt]

theorem hoareScanUp_spec {lt : α → α → Bool} {pivot : α} :
    ∀ {s : List α} {i i2 : Nat}, hoareScanUp lt pivot s i = some i2 →
      (∀ x, s[i2]? = some x → lt x pivot = false) ∧
      (∀ k x, i < k → k < i2 → s[k]? = some x → lt x pivot = true) := by
  intro s i
  induction i using hoareScanUp.induct lt pivot s with
  | case1 i hx =>
    intro i2 hscan
    rw [hoareScanUp_none hx] at hscan
    cases hscan
  | case2 i x hx hlt ih =>
    intro i2 hscan
    rw [hoareScanUp_go hx hlt] at hscan
    obtain ⟨h1, h2⟩ := ih hscan
    have hgt := hoareScanUp_gt hscan
    refine ⟨h1, ?_⟩
    intro k y hk1 hk2 hy
    by_cases hk : k = i + 1
    · subst hk
      rw [hx] at hy
      injection hy with e
      subst e
      exact hlt
    · exact h2 k y (by omega) hk2 hy
  | case3 i x hx hlt =>
    intro i2 hscan
    rw [hoareScanUp_stop hx (Bool.of_not_eq_true hlt)] at hscan
    injection hscan with e
    subst e
    refine ⟨?_, ?_⟩
    · intro y hy
      rw [hx] at hy
      injection hy with e
      subst e
      exact Bool.of_not_eq_true hlt
    · intro k y hk1 hk2 hy
      omega

theorem hoareScanUp_succeeds {lt : α → α → Bool} {pivot : α} :
    ∀ {s : List α} {i : Nat},
      (∃ a, i < a ∧ a < s.length ∧ ∀ x, s[a]? = some x → lt x pivot = false) →
      ∃ i2, hoareScanUp lt pivot s i = some i2 := by
  intro s i
  induction i using hoareScanUp.induct lt pivot s with
  | case1 i hx =>
    intro ⟨a, ha1, ha2, ha3⟩
    have : ¬(i + 1 < s.length) := by
      intro hc
      rw [List.getElem?_eq_getElem hc] at hx
      cases hx
    omega
  | case2 i x hx hlt ih =>
    intro ⟨a, ha1, ha2, ha3⟩
    rw [hoareScanUp_go hx hlt]
    refine ih ⟨a, ?_, ha2, ha3⟩
    by_cases hai : a = i + 1
    · subst hai
      rw [ha3 x hx] at hlt
      cases hlt
    · omega
  | case3 i x hx hlt =>
    intro _
    exact ⟨i + 1, hoareScanUp_stop hx (Bool.of_not_eq_true hlt)⟩

theorem hoareScanDown_spec {lt : α → α → Bool} {pivot : α} :
    ∀ {j : Nat} {s : List α} {j2 : Nat}, hoareScanDown lt pivot s j = some j2 →
      (∀ x, s[j2]? = some x → lt pivot x = false) ∧
      (∀ k x, j2 < k → k < j → s[k]? = some x → lt pivot x = true) := by
  intro j
  induction j using Nat.strong_induction_on with
  | _ j IH =>
    intro s j2 hscan
    by_cases hj : j = 0
    · subst hj
      rw [hoareScanDown_zero] at hscan
      cases hscan
    · rcases hx : s[j - 1]? with _ | x
      · rw [hoareScanDown_none hj hx] at hscan
        cases hscan
      · cases hlt : lt pivot x with
        | true =>
          rw [hoareScanDown_go hj hx hlt] at hscan
          obtain ⟨h1, h2⟩ := IH (j - 1) (by omega) hscan
          have hlt2 := hoareScanDown_lt hscan
          refine ⟨h1, ?_⟩
          intro k y hk1 hk2 hy
          by_cases hk : k = j - 1
          · subst hk
            rw [hx] at hy
            injection hy with e
            subst e
            exact hlt
          · exact h2 k y hk1 (by omega) hy
        | false =>
          rw [hoareScanDown_stop hj hx hlt] at hscan
          injection hscan with e
          subst e
          refine ⟨?_, ?_⟩
          · intro y hy
            rw [hx] at hy
            injection hy with e
            subst e
            exact hlt
          · intro k y hk1 hk2 hy
            omega

theorem hoareScanDown_succeeds {lt : α → α → Bool} {pivot : α} :
    ∀ {j : Nat} {s : List α}, j ≤ s.length →
      (∃ b, b < j ∧ ∀ x, s[b]? = some x → lt pivot x = false) →
      ∃ j2, hoareScanDown lt pivot s j = some j2 := by
  intro j
  induction j using Nat.strong_induction_on with
  | _ j IH =>
    intro s hjlen ⟨b, hb1, hb2⟩
    have hj : j ≠ 0 := by omega
    have hjs : j - 1 < s.length := by omega
    have hx : s[j - 1]? = some (s.get ⟨j - 1, hjs⟩) := List.getElem?_eq_getElem hjs
    cases hlt : lt pivot (s.get ⟨j - 1, hjs⟩) with
    | false => exact ⟨j - 1, hoareScanDown_stop hj hx hlt⟩
    | true =>
      rw [hoareScanDown_go hj hx hlt]
      refine IH (j - 1) (by omega) (by omega) ⟨b, ?_, hb2⟩
      by_cases hbj : b = j - 1
      · subst hbj
        rw [hb2 _ hx] at hlt
        cases hlt
      · omega

theorem hoareLoop_some_struct {lt : α → α → Bool} {pivot : α} :
    ∀ (s : List α) (i j : Nat) {t : List α} {m : Nat},
      hoareLoop lt pivot s i j = some (t, m) →
      i < m ∧ m < s.length ∧ t.length = s.length := by
  intro s i j
  induction s, i, j using hoareLoop.induct lt pivot with
  | case1 s i j hup =>
    intro t m hloop
    rw [hoareLoop_upNone hup] at hloop
    cases hloop
  | case2 s i j i2 hup hdn =>
    intro t m hloop
    rw [hoareLoop_dnNone hup hdn] at hloop
    cases hloop
  | case3 s i j i2 hup j2 hdn hle =>
    intro t m hloop
    rw [hoareLoop_stop hup hdn hle] at hloop
    injection hloop with e
    injection e with e1 e2
    subst e1
    subst e2
    have := hoareScanUp_gt hup
    omega
  | case4 s i j i2 hup j2 hdn hgt ih =>
    intro t m hloop
    rw [hoareLoop_swap hup hdn hgt] at hloop
    have := ih hloop
    rw [listSwap_length] at this
    have := hoareScanUp_gt hup
    omega

/-- The Hoare loop succeeds and partitions, given an up-scanner stopper above
`i`, a down-scanner stopper below `j`, and the already-partitioned outer
regions. -/
theorem hoareLoop_spec {lt : α → α → Bool} (h : IsSWO lt) {pivot : α} :
    ∀ (s : List α) (i j : Nat), j ≤ s.length →
      (∃ a, i < a ∧ a < s.length ∧ ∀ x, s[a]? = some x → lt x pivot = false) →
      (∃ b, b < j ∧ ∀ x, s[b]? = some x → lt pivot x = false) →
      (∀ k x, k ≤ i → s[k]? = some x → lt pivot x = false) →
      (∀ k x, j ≤ k → s[k]? = some x → lt x pivot = false) →
      ∃ t m, hoareLoop lt pivot s i j = some (t, m) ∧ List.Perm t s ∧
        (∀ k x, k < m → t[k]? = some x → lt pivot x = false) ∧
        (∀ k x, m ≤ k → t[k]? = some x → lt x pivot = false) := by
  intro s i j
  induction s, i, j using hoareLoop.induct lt pivot with
  | case1 s i j hup =>
    intro hjlen hstopU hstopD hleft hright
    obtain ⟨i2, hi2⟩ := hoareScanUp_succeeds hstopU
    rw [hup] at hi2
    cases hi2
  | case2 s i j i2 hup hdn =>
    intro hjlen hstopU hstopD hleft hright
    obtain ⟨j2, hj2⟩ := hoareScanDown_succeeds hjlen hstopD
    rw [hdn] at hj2
    cases hj2
  | case3 s i j i2 hup j2 hdn hle =>
    intro hjlen hstopU hstopD hleft hright
    obtain ⟨hupstop, huppass⟩ := hoareScanUp_spec hup
    obtain ⟨hdnstop, hdnpass⟩ := hoareScanDown_spec hdn
    have hgti := hoareScanUp_gt hup
    have hltj := hoareScanDown_lt hdn
    refine ⟨s, i2, hoareLoop_stop hup hdn hle, List.Perm.refl s, ?_, ?_⟩
    · intro k x hk hx
      by_cases hki : k ≤ i
      · exact hleft k x hki hx
      · exact h.asymm x pivot (huppass k x (by omega) hk hx)
    · intro k x hk hx
      by_cases hkj : j ≤ k
      · exact hright k x hkj hx
      · by_cases hki2 : k = i2
        · subst hki2
          exact hupstop x hx
        · exact h.asymm pivot x (hdnpass k x (by omega) (by omega) hx)
  | case4 s i j i2 hup j2 hdn hgt ih =>
    intro hjlen hstopU hstopD hleft hright
    obtain ⟨hupstop, huppass⟩ := hoareScanUp_spec hup
    obtain ⟨hdnstop, hdnpass⟩ := hoareScanDown_spec hdn
    have hgti := hoareScanUp_gt hup
    have hltj := hoareScanDown_lt hdn
    have hi2s : i2 < s.length := by omega
    have hj2s : j2 < s.length := by omega
    have hgs : ∀ k, (listSwap s i2 j2)[k]? =
        if k = i2 then s[j2]? else if k = j2 then s[i2]? else s[k]? :=
      getElem?_listSwap s i2 j2 hi2s hj2s
    rw [hoareLoop_swap hup hdn hgt]
    have hmain := ih (by rw [listSwap_length]; omega)
      ⟨j2, by omega, by
        rw [listSwap_length]
        exact hj2s, by
        intro x hx
        rw [hgs j2, if_neg (by omega), if_pos rfl] at hx
        exact hupstop x hx⟩
      ⟨i2, by omega, by
        intro x hx
        rw [hgs i2, if_pos rfl] at hx
        exact hdnstop x hx⟩
      (by
        intro k x hk hx
        rw [hgs k] at hx
        by_cases hki2 : k = i2
        · rw [if_pos hki2] at hx
          exact hdnstop x hx
        · rw [if_neg hki2, if_neg (by omega)] at hx
          by_cases hki : k ≤ i
          · exact hleft k x hki hx
          · exact h.asymm x pivot (huppass k x (by omega) (by omega) hx))
      (by
        intro k x hk hx
        rw [hgs k] at hx
        by_cases hkj2 : k = j2
        · rw [if_neg (by omega), if_pos hkj2] at hx
          exact hupstop x hx
        · rw [if_neg (by omega), if_neg hkj2] at hx
          by_cases hkj : j ≤ k
          · exact hright k x hkj hx
          · exact h.asymm pivot x (hdnpass k x (by omega) (by omega) hx))
    obtain ⟨t, m, hloop, hperm, hL, hR⟩ := hmain
    exact ⟨t, m, hloop, hperm.trans (listSwap_perm s i2 j2), hL, hR⟩

/-- `detail::partitions::hoare` on a nonempty range whose first element (the
pivot) is not strictly greater than all the others: the scanners stay inside
the range, the loop terminates, and the returned position `m` satisfies
`0 < m < length` with everything before `m` at most the pivot and everything
from `m` on at least the pivot. -/
theorem hoare_spec {lt : α → α → Bool} (h : IsSWO lt) {s : List α} {pivot : α}
    (hs0 : s[0]? = some pivot)
    (hup : ∃ a, 1 ≤ a ∧ a < s.length ∧ ∀ x, s[a]? = some x → lt x pivot = false) :
    ∃ t m, hoare lt s = some (t, m) ∧ t.length = s.length ∧ List.Perm t s ∧
      1 ≤ m ∧ m < s.length ∧
      (∀ k x, k < m → t[k]? = some x → lt pivot x = false) ∧
      (∀ k x, m ≤ k → t[k]? = some x → lt x pivot = false) := by
  have hlen0 : 0 < s.length := (List.getElem?_eq_some_iff.mp hs0).1
  obtain ⟨a, ha1, ha2, ha3⟩ := hup
  have hmain := hoareLoop_spec h s 0 s.length (le_refl _)
    ⟨a, by omega, ha2, ha3⟩
    ⟨0, by omega, by
      intro x hx
      rw [hs0] at hx
      injection hx with e
      subst e
      exact h.irrefl pivot⟩
    (by
      intro k x hk hx
      have hk0 : k = 0 := by omega
      subst hk0
      rw [hs0] at hx
      injection hx with e
      subst e
      exact h.irrefl pivot)
    (by
      intro k x hk hx
      have := (List.getElem?_eq_some_iff.mp hx).1
      omega)
  obtain ⟨t, m, hloop, hperm, hL, hR⟩ := hmain
  have hstruct := hoareLoop_some_struct s 0 s.length hloop
  refine ⟨t, m, ?_, by omega, hperm, by omega, by omega, hL, hR⟩
  rw [hoare]
  split
  · rename_i hnone
    rw [hs0] at hnone
    cases hnone
  · rename_i pivot2 hp
    rw [hs0] at hp
    injection hp with e
    subst e
    exact hloop

/-- The median of three distinct positions is dominated by one of the other
two: some other position's value is not less than the median value. -/
theorem median_of_three_witness {lt : α → α → Bool} (h : IsSWO lt) {s : List α}
    {p q r : Nat} {a b c : α} (ha : s[p]? = some a) (hb : s[q]? = some b)
    (hc : s[r]? = some c) (hpq : p ≠ q) (hpr : p ≠ r) (hqr : q ≠ r) :
    (median_of_three lt s p q r = p ∨ median_of_three lt s p q r = q ∨
      median_of_three lt s p q r = r) ∧
    ∃ u, (u = p ∨ u = q ∨ u = r) ∧ u ≠ median_of_three lt s p q r ∧
      ∀ xu xm, s[u]? = some xu → s[median_of_three lt s p q r]? = some xm →
        lt xu xm = false := by
  have hm : median_of_three lt s p q r =
      if lt a b then (if lt a c then iter_min lt s q r else p)
      else (if lt b c then iter_min lt s p r else q) := by
    rw [median_of_three, ha, hb, hc]
  have hi1 : iter_min lt s q r = if lt c b then r else q := by
    rw [iter_min, hb, hc]
  have hi2 : iter_min lt s p r = if lt c a then r else p := by
    rw [iter_min, ha, hc]
  rw [hm, hi1, hi2]
  cases hab : lt a b with
  | true =>
    cases hac : lt a c with
    | true =>
      cases hcb : lt c b with
      | true =>
        simp only [hab, hac, hcb, eq_self_iff_true, Bool.false_eq_true, if_true, if_false]
        refine ⟨by simp, q, by simp, hqr, ?_⟩
        intro xu xm hxu hxm
        rw [hb] at hxu
        rw [hc] at hxm
        injection hxu with e1
        injection hxm with e2
        subst e1
        subst e2
        exact h.asymm c b hcb
      | false =>
        simp only [hab, hac, hcb, eq_self_iff_true, Bool.false_eq_true, if_true, if_false]
        refine ⟨by simp, r, by simp, Ne.symm hqr, ?_⟩
        intro xu xm hxu hxm
        rw [hc] at hxu
        rw [hb] at hxm
        injection hxu with e1
        injection hxm with e2
        subst e1
        subst e2
        exact hcb
    | false =>
      simp only [hab, hac, eq_self_iff_true, Bool.false_eq_true, if_true, if_false]
      refine ⟨by simp, q, by simp, Ne.symm hpq, ?_⟩
      intro xu xm hxu hxm
      rw [hb] at hxu
      rw [ha] at hxm
      injection hxu with e1
      injection hxm with e2
      subst e1
      subst e2
      exact h.asymm a b hab
  | false =>
    cases hbc : lt b c with
    | true =>
      cases hca : lt c a with
      | true =>
        simp only [hab, hbc, hca, eq_self_iff_true, Bool.false_eq_true, if_true, if_false]
        refine ⟨by simp, p, by simp, hpr, ?_⟩
        intro xu xm hxu hxm
        rw [ha] at hxu
        rw [hc] at hxm
        injection hxu with e1
        injection hxm with e2
        subst e1
        subst e2
        exact h.asymm c a hca
      | false =>
        simp only [hab, hbc, hca, eq_self_iff_true, Bool.false_eq_true, if_true, if_false]
        refine ⟨by simp, r, by simp, Ne.symm hpr, ?_⟩
        intro xu xm hxu hxm
        rw [hc] at hxu
        rw [ha] at hxm
        injection hxu with e1
        injection hxm with e2
        subst e1
        subst e2
        exact hca
    | false =>
      simp only [hab, hbc, eq_self_iff_true, Bool.false_eq_true, if_true, if_false]
      refine ⟨by simp, p, by simp, hpq, ?_⟩
      intro xu xm hxu hxm
      rw [ha] at hxu
      rw [hb] at hxm
      injection hxu with e1
      injection hxm with e2
      subst e1
      subst e2
      exact hab

/-- After `bring_median_of_three_to_front` on a range of three or more
elements, the new first element (the pivot) is not strictly greater than all
the others: some later position dominates it.  This is exactly the
up-scanner stopper `detail::partitions::hoare` needs. -/
theorem median_stopper {lt : α → α → Bool} (h : IsSWO lt) {s : List α}
    (hlen : 3 ≤ s.length) :
    ∃ pivot, (bring_median_of_three_to_front lt s)[0]? = some pivot ∧
      ∃ a, 1 ≤ a ∧ a < (bring_median_of_three_to_front lt s).length ∧
        ∀ x, (bring_median_of_three_to_front lt s)[a]? = some x →
          lt x pivot = false := by
  have h0 : 0 < s.length := by omega
  have hq : s.length / 2 < s.length := by omega
  have hr : s.length - 1 < s.length := by omega
  have h0q : (0 : Nat) ≠ s.length / 2 := by omega
  have h0r : (0 : Nat) ≠ s.length - 1 := by omega
  have hqr : s.length / 2 ≠ s.length - 1 := by omega
  have ha := List.getElem?_eq_getElem h0
  have hb := List.getElem?_eq_getElem hq
  have hc := List.getElem?_eq_getElem hr
  obtain ⟨hmem, u, humem, hune, hudom⟩ :=
    median_of_three_witness h ha hb hc h0q h0r hqr
  have hmlt : median_of_three lt s 0 (s.length / 2) (s.length - 1) < s.length := by
    rcases hmem with hm | hm | hm <;> omega
  have hsm := List.getElem?_eq_getElem hmlt
  have hgs := getElem?_listSwap s 0 (median_of_three lt s 0 (s.length / 2) (s.length - 1))
    h0 hmlt
  have hlen2 : (bring_median_of_three_to_front lt s).length = s.length := by
    rw [bring_median_of_three_to_front, listSwap_length]
  have hpiv : (bring_median_of_three_to_front lt s)[0]? =
      some (s.get ⟨median_of_three lt s 0 (s.length / 2) (s.length - 1), hmlt⟩) := by
    rw [bring_median_of_three_to_front, hgs 0, if_pos rfl]
    exact hsm
  refine ⟨_, hpiv, ?_⟩
  by_cases hu0 : u = 0
  · -- the old first element moved to the median's slot
    subst hu0
    have hm0 : median_of_three lt s 0 (s.length / 2) (s.length - 1) ≠ 0 :=
      fun hc2 => hune hc2.symm
    refine ⟨median_of_three lt s 0 (s.length / 2) (s.length - 1), by omega,
      by omega, ?_⟩
    intro x hx
    rw [bring_median_of_three_to_front, hgs _, if_neg hm0, if_pos rfl] at hx
    exact hudom x _ hx hsm
  · -- the witness position is untouched by the swap
    have hu1 : 1 ≤ u := by
      rcases humem with hm | hm | hm <;> omega
    have hus : u < s.length := by
      rcases humem with hm | hm | hm <;> omega
    refine ⟨u, hu1, by omega, ?_⟩
    intro x hx
    rw [bring_median_of_three_to_front, hgs u, if_neg (by omega), if_neg hune] at hx
    exact hudom x _ hx hsm

theorem sorted_after_pivot_selection_false (lt : α → α → Bool) (s : List α)
    (h3 : ¬s.length < 3) :
    sorted_after_pivot_selection lt s = (bring_median_of_three_to_front lt s, false) := by
  rw [sorted_after_pivot_selection, if_neg h3]

theorem hoare_some_struct {lt : α → α → Bool} {s : List α} {t : List α} {m : Nat}
    (hh : hoare lt s = some (t, m)) :
    0 < m ∧ m < s.length ∧ t.length = s.length := by
  rw [hoare] at hh
  revert hh
  split
  · intro hh
    cases hh
  · rename_i pivot hp
    intro hh
    have := hoareLoop_some_struct s 0 s.length hh
    omega

theorem hoare_some_perm {lt : α → α → Bool} {pivot : α} :
    ∀ (s : List α) (i j : Nat) {t : List α} {m : Nat},
      hoareLoop lt pivot s i j = some (t, m) → List.Perm t s := by
  intro s i j
  induction s, i, j using hoareLoop.induct lt pivot with
  | case1 s i j hup =>
    intro t m hloop
    rw [hoareLoop_upNone hup] at hloop
    cases hloop
  | case2 s i j i2 hup hdn =>
    intro t m hloop
    rw [hoareLoop_dnNone hup hdn] at hloop
    cases hloop
  | case3 s i j i2 hup j2 hdn hle =>
    intro t m hloop
    rw [hoareLoop_stop hup hdn hle] at hloop
    injection hloop with e
    injection e with e1 e2
    subst e1
    exact List.Perm.refl _
  | case4 s i j i2 hup j2 hdn hgt ih =>
    intro t m hloop
    rw [hoareLoop_swap hup hdn hgt] at hloop
    exact (ih hloop).trans (listSwap_perm s i2 j2)

theorem hoare_perm {lt : α → α → Bool} {s t : List α} {m : Nat}
    (hh : hoare lt s = some (t, m)) : List.Perm t s := by
  rw [hoare] at hh
  revert hh
  split
  · intro hh
    cases hh
  · rename_i pivot hp
    intro hh
    exact hoare_some_perm s 0 s.length hh

/-- `quicksort_hoare` from sorts.cpp: median-of-three pivot selection, Hoare
partition, recursion on `[first, mid)` and `[mid, last)`.  The `none` branch
is undefined behavior in the C++ (a scanner overran); with the median-of-three
selection it is unreachable, which is proved below. -/
def quicksort_hoare (lt : α → α → Bool) (s : List α) : List α :=
  let ps := sorted_after_pivot_selection lt s
  if ps.2 then ps.1
  else
    match hh : hoare lt ps.1 with
    | none => ps.1
    | some (t, m) => quicksort_hoare lt (t.take m) ++ quicksort_hoare lt (t.drop m)
termination_by s.length
decreasing_by
  all_goals
    have hstruct := hoare_some_struct hh
    rw [sorted_after_pivot_selection_length] at hstruct
  · simp only [List.length_take]
    omega
  · simp only [List.length_drop]
    omega

theorem quicksort_hoare_done (lt : α → α → Bool) (s : List α)
    (hd : (sorted_after_pivot_selection lt s).2 = true) :
    quicksort_hoare lt s = (sorted_after_pivot_selection lt s).1 := by
  rw [quicksort_hoare]
  simp only [hd, if_true]

theorem quicksort_hoare_none (lt : α → α → Bool) (s : List α)
    (hd : ¬(sorted_after_pivot_selection lt s).2 = true)
    (hh : hoare lt (sorted_after_pivot_selection lt s).1 = none) :
    quicksort_hoare lt s = (sorted_after_pivot_selection lt s).1 := by
  rw [quicksort_hoare]
  simp only [Bool.not_eq_true] at hd
  simp only [hd, Bool.false_eq_true, if_false]
  split
  · rfl
  · rename_i t m hh2
    rw [hh] at hh2
    cases hh2

theorem quicksort_hoare_step (lt : α → α → Bool) (s : List α) {t : List α} {m : Nat}
    (hd : ¬(sorted_after_pivot_selection lt s).2 = true)
    (hh : hoare lt (sorted_after_pivot_selection lt s).1 = some (t, m)) :
    quicksort_hoare lt s = quicksort_hoare lt (t.take m) ++ quicksort_hoare lt (t.drop m) := by
  rw [quicksort_hoare]
  simp only [Bool.not_eq_true] at hd
  simp only [hd, Bool.false_eq_true, if_false]
  split
  · rename_i hh2
    rw [hh] at hh2
    cases hh2
  · rename_i t2 m2 hh2
    rw [hh] at hh2
    injection hh2 with e
    injection e with e1 e2
    subst e1
    subst e2
    rfl

theorem quicksort_hoare_perm (lt : α → α → Bool) :
    ∀ s : List α, List.Perm (quicksort_hoare lt s) s := by
  intro s
  induction s using quicksort_hoare.induct lt with
  | case1 s ps hd =>
    rw [quicksort_hoare_done lt s hd]
    exact sorted_after_pivot_selection_perm lt s
  | case2 s ps hd hh =>
    rw [quicksort_hoare_none lt s hd hh]
    exact sorted_after_pivot_selection_perm lt s
  | case3 s ps hd t m hh ih1 ih2 =>
    rw [quicksort_hoare_step lt s hd hh]
    refine (ih1.append ih2).trans ?_
    rw [List.take_append_drop]
    exact (hoare_perm hh).trans (sorted_after_pivot_selection_perm lt s)

theorem quicksort_hoare_pairwise {lt : α → α → Bool} (h : IsSWO lt) :
    ∀ s : List α, List.Pairwise (leOf lt) (quicksort_hoare lt s) := by
  intro s
  induction s using quicksort_hoare.induct lt with
  | case1 s ps hd =>
    rw [quicksort_hoare_done lt s hd]
    exact sorted_after_pivot_selection_small h
      ((sorted_after_pivot_selection_snd lt s).mp hd)
  | case2 s ps hd hh =>
    -- unreachable: after median-of-three selection the partition succeeds
    have h3 : ¬s.length < 3 := by
      intro hc
      exact hd ((sorted_after_pivot_selection_snd lt s).mpr hc)
    have hh3 : hoare lt (sorted_after_pivot_selection lt s).1 = none := hh
    have hps1 : (sorted_after_pivot_selection lt s).1
        = bring_median_of_three_to_front lt s := by
      rw [sorted_after_pivot_selection_false lt s h3]
    rw [hps1] at hh3
    obtain ⟨pivot, hpiv, hstop⟩ := @median_stopper _ lt h s (by omega)
    obtain ⟨t, m, hsome, _, _, _, _, _, _⟩ := hoare_spec h hpiv hstop
    rw [hsome] at hh3
    cases hh3
  | case3 s ps hd t m hh ih1 ih2 =>
    rw [quicksort_hoare_step lt s hd hh]
    have h3 : ¬s.length < 3 := by
      intro hc
      exact hd ((sorted_after_pivot_selection_snd lt s).mpr hc)
    have hh2 : hoare lt (sorted_after_pivot_selection lt s).1 = some (t, m) := hh
    have hps1 : (sorted_after_pivot_selection lt s).1
        = bring_median_of_three_to_front lt s := by
      rw [sorted_after_pivot_selection_false lt s h3]
    rw [hps1] at hh2
    obtain ⟨pivot, hpiv, hstop⟩ := @median_stopper _ lt h s (by omega)
    obtain ⟨t2, m2, hsome, htlen, hperm2, hm1, hm2, hL, hR⟩ := hoare_spec h hpiv hstop
    rw [hsome] at hh2
    injection hh2 with e
    injection e with e1 e2
    subst e1
    subst e2
    refine pairwise_append_le h pivot ih1 ih2 ?_ ?_
    · intro x hx
      have hx2 := (quicksort_hoare_perm lt _).mem_iff.mp hx
      obtain ⟨i, hi, his⟩ := mem_take_iff.mp hx2
      exact hL i x hi his
    · intro y hy
      have hy2 := (quicksort_hoare_perm lt _).mem_iff.mp hy
      obtain ⟨k, hk⟩ := List.mem_iff_getElem?.mp hy2
      rw [List.getElem?_drop _ _ k] at hk
      exact hR _ y (by omega) hk

/-! ### The iterative quicksorts

Each keeps a stack of intervals.  One `while`-iteration pops an interval
`(f, l)`, processes the subrange — either finishing it (`continue`) or
partitioning it — and in the latter case pushes the right subinterval and
then the left one, so the left is handled first, exactly as the recursion
does.  `proc` is the body shared with the recursive variant; `δ` is `1` when
the pivot position is excluded from both subintervals (Lomuto) and `0` when
the partition point starts the right subinterval (Hoare). -/

def qStep (proc : List α → List α × Option Nat) (δ : Nat) :
    List α × List (Nat × Nat) → Option (List α × List (Nat × Nat))
  | (_, []) => none
  | (s, (f, l) :: S) =>
    match proc ((s.drop f).take (l - f)) with
    | (B2, none) => some (s.take f ++ B2 ++ s.drop l, S)
    | (B2, some m) =>
      some (s.take f ++ B2 ++ s.drop l, (f, f + m) :: (f + m + δ, l) :: S)

def qRun (proc : List α → List α × Option Nat) (δ : Nat) :
    Nat → List α × List (Nat × Nat) → List α × List (Nat × Nat)
  | 0, st => st
  | n + 1, st =>
    match qStep proc δ st with
    | none => st
    | some st2 => qRun proc δ n st2

theorem qRun_succ {proc : List α → List α × Option Nat} {δ : Nat}
    {st st2 : List α × List (Nat × Nat)} (hstep : qStep proc δ st = some st2)
    (n : Nat) : qRun proc δ (n + 1) st = qRun proc δ n st2 := by
  rw [qRun, hstep]

theorem qRun_nilStack (proc : List α → List α × Option Nat) (δ : Nat)
    (s : List α) : ∀ n, qRun proc δ n (s, []) = (s, []) := by
  intro n
  cases n with
  | zero => rfl
  | succ n => rw [qRun]; rfl

theorem qStep_span_none (proc : List α → List α × Option Nat) (δ : Nat)
    (A B D : List α) (S : List (Nat × Nat)) {B2 : List α}
    (hp : proc B = (B2, none)) :
    qStep proc δ (A ++ B ++ D, (A.length, A.length + B.length) :: S)
      = some (A ++ B2 ++ D, S) := by
  have e1 : A ++ B ++ D = A ++ (B ++ D) := by simp [List.append_assoc]
  have hdropf : (A ++ B ++ D).drop A.length = B ++ D := by
    rw [e1]; exact List.drop_left' rfl
  have hslice : ((A ++ B ++ D).drop A.length).take (A.length + B.length - A.length)
      = B := by
    rw [hdropf, (by omega : A.length + B.length - A.length = B.length)]
    exact List.take_left' rfl
  have htakef : (A ++ B ++ D).take A.length = A := by
    rw [e1]; exact List.take_left' rfl
  have hdropl : (A ++ B ++ D).drop (A.length + B.length) = D := by
    refine List.drop_left' ?_
    simp [List.length_append]
  rw [qStep, hslice, hp, htakef, hdropl]

theorem qStep_span_some (proc : List α → List α × Option Nat) (δ : Nat)
    (A B D : List α) (S : List (Nat × Nat)) {B2 : List α} {m : Nat}
    (hp : proc B = (B2, some m)) :
    qStep proc δ (A ++ B ++ D, (A.length, A.length + B.length) :: S)
      = some (A ++ B2 ++ D,
          (A.length, A.length + m) :: (A.length + m + δ, A.length + B.length) :: S) := by
  have e1 : A ++ B ++ D = A ++ (B ++ D) := by simp [List.append_assoc]
  have hdropf : (A ++ B ++ D).drop A.length = B ++ D := by
    rw [e1]; exact List.drop_left' rfl
  have hslice : ((A ++ B ++ D).drop A.length).take (A.length + B.length - A.length)
      = B := by
    rw [hdropf, (by omega : A.length + B.length - A.length = B.length)]
    exact List.take_left' rfl
  have htakef : (A ++ B ++ D).take A.length = A := by
    rw [e1]; exact List.take_left' rfl
  have hdropl : (A ++ B ++ D).drop (A.length + B.length) = D := by
    refine List.drop_left' ?_
    simp [List.length_append]
  rw [qStep, hslice, hp, htakef, hdropl]

/-- Simulation of the explicit-stack quicksorts: popping an interval covering
the middle segment `B` leads, within `2·(|B| + δ) − 1` steps, to the state in
which `B` has been replaced by its recursive sort and the rest of the stack
is untouched. -/
theorem qSim (proc : List α → List α × Option Nat) (δ : Nat)
    (qsort : List α → List α)
    (hlen : ∀ B, (proc B).1.length = B.length)
    (hqlen : ∀ B, (qsort B).length = B.length)
    (hsome : ∀ B B2 m, proc B = (B2, some m) →
      1 ≤ m + δ ∧ m < B.length ∧ m + δ ≤ B.length)
    (hrecn : ∀ B B2, proc B = (B2, none) → qsort B = B2)
    (hrecs : ∀ B B2 m, proc B = (B2, some m) →
      qsort B = qsort (B2.take m) ++ (B2.drop m).take δ ++ qsort (B2.drop (m + δ))) :
    ∀ (n : Nat) (B : List α), B.length = n → 1 ≤ n + δ →
      ∀ (A D : List α) (S : List (Nat × Nat)),
      ∃ k, 1 ≤ k ∧ k ≤ 2 * (n + δ) - 1 ∧ ∀ fuel,
        qRun proc δ (k + fuel) (A ++ B ++ D, (A.length, A.length + n) :: S)
          = qRun proc δ fuel (A ++ qsort B ++ D, S) := by
  intro n
  induction n using Nat.strong_induction_on with
  | _ n IH =>
  intro B hB hn A D S
  rcases hp : proc B with ⟨B2, mo⟩
  cases mo with
  | none =>
    refine ⟨1, le_refl 1, by omega, ?_⟩
    intro fuel
    subst hB
    have hstep := qStep_span_none proc δ A B D S hp
    rw [Nat.add_comm 1 fuel, qRun_succ hstep fuel, hrecn B B2 hp]
  | some m =>
    obtain ⟨hm1, hm2, hm3⟩ := hsome B B2 m hp
    have hB2len : B2.length = B.length := by
      have := hlen B
      rw [hp] at this
      exact this
    subst hB
    have hstep := qStep_span_some proc δ A B D S hp
    -- first subinterval: [f, f+m)
    have hsplit1 : A ++ B2 ++ D = A ++ B2.take m ++ (B2.drop m ++ D) := by
      conv_lhs => rw [← List.take_append_drop m B2]
      simp only [List.append_assoc]
    have htake1len : (B2.take m).length = m := by
      rw [List.length_take]
      omega
    obtain ⟨k1, hk1a, hk1b, hrun1⟩ := IH m (by omega) (B2.take m) htake1len
      (by omega) A (B2.drop m ++ D) ((A.length + m + δ, A.length + B.length) :: S)
    -- second subinterval: [f+m+δ, f+n)
    have hA2len : (A ++ qsort (B2.take m) ++ (B2.drop m).take δ).length
        = A.length + m + δ := by
      simp only [List.length_append, hqlen, htake1len, List.length_take,
        List.length_drop]
      omega
    have hdrop2len : (B2.drop (m + δ)).length = B.length - (m + δ) := by
      rw [List.length_drop]
      omega
    obtain ⟨k2, hk2a, hk2b, hrun2⟩ := IH (B.length - (m + δ)) (by omega)
      (B2.drop (m + δ)) hdrop2len (by omega)
      (A ++ qsort (B2.take m) ++ (B2.drop m).take δ) D S
    have hsplit2 : A ++ qsort (B2.take m) ++ (B2.drop m ++ D)
        = (A ++ qsort (B2.take m) ++ (B2.drop m).take δ) ++ B2.drop (m + δ) ++ D := by
      have hdd : B2.drop (m + δ) = ((B2.drop m).drop δ : List α) := by
        rw [List.drop_drop δ m B2, Nat.add_comm m δ]
      rw [hdd]
      conv_lhs => rw [show B2.drop m = (B2.drop m).take δ ++ (B2.drop m).drop δ from
        (List.take_append_drop δ (B2.drop m)).symm]
      simp only [List.append_assoc]
    have hfinal : (A ++ qsort (B2.take m) ++ (B2.drop m).take δ) ++
        qsort (B2.drop (m + δ)) ++ D = A ++ qsort B ++ D := by
      rw [hrecs B B2 m hp]
      simp only [List.append_assoc]
    refine ⟨1 + k1 + k2, by omega, by omega, ?_⟩
    intro fuel
    rw [(by omega : 1 + k1 + k2 + fuel = (k1 + (k2 + fuel)) + 1)]
    rw [qRun_succ hstep (k1 + (k2 + fuel))]
    rw [hsplit1]
    rw [hrun1 (k2 + fuel)]
    rw [hsplit2]
    rw [(show A.length + m + δ
      = (A ++ qsort (B2.take m) ++ (B2.drop m).take δ).length from hA2len.symm)]
    have hlenarg3 : A.length + B.length
        = (A ++ qsort (B2.take m) ++ (B2.drop m).take δ).length
          + (B.length - (m + δ)) := by
      rw [hA2len]
      omega
    rw [hlenarg3, hrun2 fuel, hfinal]


/-- Loop body of `quicksort_lomuto_simple_iterative`: subranges of fewer than
two elements are finished (`continue`); otherwise the middle element is moved
to the front and the Lomuto partition point is returned. -/
def qlsimple_proc (lt : α → α → Bool) (B : List α) : List α × Option Nat :=
  if 2 ≤ B.length then
    ((lomuto lt (bring_mid_to_front B)).1, some (lomuto lt (bring_mid_to_front B)).2)
  else (B, none)

/-- Loop body of `quicksort_lomuto_iterative`. -/
def qlomuto_proc (lt : α → α → Bool) (B : List α) : List α × Option Nat :=
  if (sorted_after_pivot_selection lt B).2 then
    ((sorted_after_pivot_selection lt B).1, none)
  else
    ((lomuto lt (sorted_after_pivot_selection lt B).1).1,
      some (lomuto lt (sorted_after_pivot_selection lt B).1).2)

/-- Loop body of `quicksort_hoare_iterative`.  The `none` branch of `hoare`
is the scanner overrun that cannot happen after median-of-three selection. -/
def qhoare_proc (lt : α → α → Bool) (B : List α) : List α × Option Nat :=
  if (sorted_after_pivot_selection lt B).2 then
    ((sorted_after_pivot_selection lt B).1, none)
  else
    match hoare lt (sorted_after_pivot_selection lt B).1 with
    | none => ((sorted_after_pivot_selection lt B).1, none)
    | some p => (p.1, some p.2)

/-- `quicksort_lomuto_simple_iterative` from sorts.cpp, as the interval-stack
machine with enough fuel to finish. -/
def quicksort_lomuto_simple_iterative (lt : α → α → Bool) (s : List α) : List α :=
  (qRun (qlsimple_proc lt) 1 (2 * (s.length + 1)) (s, [(0, s.length)])).1

/-- `quicksort_lomuto_iterative` from sorts.cpp. -/
def quicksort_lomuto_iterative (lt : α → α → Bool) (s : List α) : List α :=
  (qRun (qlomuto_proc lt) 1 (2 * (s.length + 1)) (s, [(0, s.length)])).1

/-- `quicksort_hoare_iterative` from sorts.cpp. -/
def quicksort_hoare_iterative (lt : α → α → Bool) (s : List α) : List α :=
  (qRun (qhoare_proc lt) 0 (2 * s.length + 1) (s, [(0, s.length)])).1

theorem qlsimple_len (lt : α → α → Bool) :
    ∀ B : List α, ((qlsimple_proc lt B).1).length = B.length := by
  intro B
  rw [qlsimple_proc]
  split
  · rw [lomuto_length, bring_mid_to_front, listSwap_length]
  · rfl

theorem qlsimple_some (lt : α → α → Bool) :
    ∀ (B B2 : List α) (m : Nat), qlsimple_proc lt B = (B2, some m) →
      1 ≤ m + 1 ∧ m < B.length ∧ m + 1 ≤ B.length := by
  intro B B2 m hp
  rw [qlsimple_proc] at hp
  revert hp
  split
  · rename_i h2
    intro hp
    injection hp with e1 e2
    injection e2 with e2
    have hlt := lomuto_snd_lt lt (bring_mid_to_front B)
      (by rw [bring_mid_to_front, listSwap_length]; omega)
    rw [bring_mid_to_front, listSwap_length] at hlt
    rw [bring_mid_to_front] at e2
    omega
  · intro hp
    injection hp with e1 e2
    cases e2

theorem qlsimple_none (lt : α → α → Bool) :
    ∀ B B2 : List α, qlsimple_proc lt B = (B2, none) →
      quicksort_lomuto_simple lt B = B2 := by
  intro B B2 hp
  rw [qlsimple_proc] at hp
  revert hp
  split
  · intro hp
    injection hp with e1 e2
    cases e2
  · rename_i h2
    intro hp
    injection hp with e1 e2
    rw [quicksort_lomuto_simple_stop lt B h2, e1]

theorem qlsimple_rec (lt : α → α → Bool) :
    ∀ (B B2 : List α) (m : Nat), qlsimple_proc lt B = (B2, some m) →
      quicksort_lomuto_simple lt B
        = quicksort_lomuto_simple lt (B2.take m) ++ (B2.drop m).take 1
          ++ quicksort_lomuto_simple lt (B2.drop (m + 1)) := by
  intro B B2 m hp
  rw [qlsimple_proc] at hp
  revert hp
  split
  · rename_i h2
    intro hp
    injection hp with e1 e2
    injection e2 with e2
    subst e1
    subst e2
    exact quicksort_lomuto_simple_step lt B h2
  · intro hp
    injection hp with e1 e2
    cases e2

/-- The iterative simple-Lomuto quicksort machine runs to the empty-stack
halt state, holding the recursive sort's output. -/
theorem quicksort_lomuto_simple_iterative_run (lt : α → α → Bool) (s : List α) :
    qRun (qlsimple_proc lt) 1 (2 * (s.length + 1)) (s, [(0, s.length)])
      = (quicksort_lomuto_simple lt s, []) := by
  obtain ⟨k, hk1, hk2, hrun⟩ := qSim (qlsimple_proc lt) 1 (quicksort_lomuto_simple lt)
    (qlsimple_len lt) (fun B => (quicksort_lomuto_simple_perm lt B).length_eq)
    (qlsimple_some lt) (qlsimple_none lt) (qlsimple_rec lt)
    s.length s rfl (by omega) [] [] []
  simp only [List.nil_append, List.append_nil, List.length_nil, Nat.zero_add] at hrun
  rw [(by omega : 2 * (s.length + 1) = k + (2 * (s.length + 1) - k)),
    hrun (2 * (s.length + 1) - k), qRun_nilStack]

theorem quicksort_lomuto_simple_iterative_eq (lt : α → α → Bool) (s : List α) :
    quicksort_lomuto_simple_iterative lt s = quicksort_lomuto_simple lt s := by
  rw [quicksort_lomuto_simple_iterative, quicksort_lomuto_simple_iterative_run]

theorem qlomuto_len (lt : α → α → Bool) :
    ∀ B : List α, ((qlomuto_proc lt B).1).length = B.length := by
  intro B
  rw [qlomuto_proc]
  split
  · rw [sorted_after_pivot_selection_length]
  · rw [lomuto_length, sorted_after_pivot_selection_length]

theorem qlomuto_some (lt : α → α → Bool) :
    ∀ (B B2 : List α) (m : Nat), qlomuto_proc lt B = (B2, some m) →
      1 ≤ m + 1 ∧ m < B.length ∧ m + 1 ≤ B.length := by
  intro B B2 m hp
  rw [qlomuto_proc] at hp
  revert hp
  split
  · intro hp
    injection hp with e1 e2
    cases e2
  · rename_i hd
    intro hp
    injection hp with e1 e2
    injection e2 with e2
    have h3 : ¬B.length < 3 := by
      intro hc
      exact hd ((sorted_after_pivot_selection_snd lt B).mpr hc)
    have hlt := lomuto_snd_lt lt (sorted_after_pivot_selection lt B).1
      (by rw [sorted_after_pivot_selection_length]; omega)
    rw [sorted_after_pivot_selection_length] at hlt
    omega

theorem qlomuto_none (lt : α → α → Bool) :
    ∀ B B2 : List α, qlomuto_proc lt B = (B2, none) →
      quicksort_lomuto lt B = B2 := by
  intro B B2 hp
  rw [qlomuto_proc] at hp
  revert hp
  split
  · rename_i hd
    intro hp
    injection hp with e1 e2
    rw [quicksort_lomuto_done lt B hd, e1]
  · intro hp
    injection hp with e1 e2
    cases e2

theorem qlomuto_rec (lt : α → α → Bool) :
    ∀ (B B2 : List α) (m : Nat), qlomuto_proc lt B = (B2, some m) →
      quicksort_lomuto lt B
        = quicksort_lomuto lt (B2.take m) ++ (B2.drop m).take 1
          ++ quicksort_lomuto lt (B2.drop (m + 1)) := by
  intro B B2 m hp
  rw [qlomuto_proc] at hp
  revert hp
  split
  · intro hp
    injection hp with e1 e2
    cases e2
  · rename_i hd
    intro hp
    injection hp with e1 e2
    injection e2 with e2
    subst e1
    subst e2
    exact quicksort_lomuto_step lt B hd

/-- The iterative median-of-three Lomuto quicksort machine runs to the
empty-stack halt state, holding the recursive sort's output. -/
theorem quicksort_lomuto_iterative_run (lt : α → α → Bool) (s : List α) :
    qRun (qlomuto_proc lt) 1 (2 * (s.length + 1)) (s, [(0, s.length)])
      = (quicksort_lomuto lt s, []) := by
  obtain ⟨k, hk1, hk2, hrun⟩ := qSim (qlomuto_proc lt) 1 (quicksort_lomuto lt)
    (qlomuto_len lt) (fun B => (quicksort_lomuto_perm lt B).length_eq)
    (qlomuto_some lt) (qlomuto_none lt) (qlomuto_rec lt)
    s.length s rfl (by omega) [] [] []
  simp only [List.nil_append, List.append_nil, List.length_nil, Nat.zero_add] at hrun
  rw [(by omega : 2 * (s.length + 1) = k + (2 * (s.length + 1) - k)),
    hrun (2 * (s.length + 1) - k), qRun_nilStack]

theorem quicksort_lomuto_iterative_eq (lt : α → α → Bool) (s : List α) :
    quicksort_lomuto_iterative lt s = quicksort_lomuto lt s := by
  rw [quicksort_lomuto_iterative, quicksort_lomuto_iterative_run]

theorem qhoare_len (lt : α → α → Bool) :
    ∀ B : List α, ((qhoare_proc lt B).1).length = B.length := by
  intro B
  rw [qhoare_proc]
  split
  · rw [sorted_after_pivot_selection_length]
  · split
    · rw [sorted_after_pivot_selection_length]
    · rename_i p hh
      rcases p with ⟨t, m⟩
      have := (hoare_some_struct hh).2.2
      rw [sorted_after_pivot_selection_length] at this
      exact this

theorem qhoare_some (lt : α → α → Bool) :
    ∀ (B B2 : List α) (m : Nat), qhoare_proc lt B = (B2, some m) →
      1 ≤ m + 0 ∧ m < B.length ∧ m + 0 ≤ B.length := by
  intro B B2 m hp
  rw [qhoare_proc] at hp
  revert hp
  split
  · intro hp
    injection hp with e1 e2
    cases e2
  · rename_i hd
    split
    · intro hp
      injection hp with e1 e2
      cases e2
    · rename_i p hh
      rcases p with ⟨t, m2⟩
      intro hp
      injection hp with e1 e2
      injection e2 with e2
      have hstruct := hoare_some_struct hh
      rw [sorted_after_pivot_selection_length] at hstruct
      omega

theorem qhoare_none (lt : α → α → Bool) :
    ∀ B B2 : List α, qhoare_proc lt B = (B2, none) →
      quicksort_hoare lt B = B2 := by
  intro B B2 hp
  rw [qhoare_proc] at hp
  revert hp
  split
  · rename_i hd
    intro hp
    injection hp with e1 e2
    rw [quicksort_hoare_done lt B hd, e1]
  · rename_i hd
    split
    · rename_i hh
      intro hp
      injection hp with e1 e2
      rw [quicksort_hoare_none lt B hd hh, e1]
    · intro hp
      injection hp with e1 e2
      cases e2

theorem qhoare_rec (lt : α → α → Bool) :
    ∀ (B B2 : List α) (m : Nat), qhoare_proc lt B = (B2, some m) →
      quicksort_hoare lt B
        = quicksort_hoare lt (B2.take m) ++ (B2.drop m).take 0
          ++ quicksort_hoare lt (B2.drop (m + 0)) := by
  intro B B2 m hp
  rw [qhoare_proc] at hp
  revert hp
  split
  · intro hp
    injection hp with e1 e2
    cases e2
  · rename_i hd
    split
    · intro hp
      injection hp with e1 e2
      cases e2
    · rename_i p hh
      rcases p with ⟨t, m2⟩
      intro hp
      injection hp with e1 e2
      injection e2 with e2
      subst e1
      subst e2
      simp only [List.take_zero, Nat.add_zero, List.append_nil]
      exact quicksort_hoare_step lt B hd hh

/-- The iterative Hoare quicksort machine runs to the empty-stack halt
state, holding the recursive sort's output. -/
theorem quicksort_hoare_iterative_run (lt : α → α → Bool) (s : List α) :
    qRun (qhoare_proc lt) 0 (2 * s.length + 1) (s, [(0, s.length)])
      = (quicksort_hoare lt s, []) := by
  by_cases hnil : s.length = 0
  · have hs : s = [] := List.eq_nil_of_length_eq_zero hnil
    subst hs
    have h1 : qRun (qhoare_proc lt) 0 (2 * ([] : List α).length + 1)
        (([] : List α), [(0, ([] : List α).length)]) = (([] : List α), []) := rfl
    have h2 : (sorted_after_pivot_selection lt ([] : List α)).2 = true := rfl
    rw [h1, quicksort_hoare_done lt [] h2]
    rfl
  · obtain ⟨k, hk1, hk2, hrun⟩ := qSim (qhoare_proc lt) 0 (quicksort_hoare lt)
      (qhoare_len lt) (fun B => (quicksort_hoare_perm lt B).length_eq)
      (qhoare_some lt) (qhoare_none lt) (qhoare_rec lt)
      s.length s rfl (by omega) [] [] []
    simp only [List.nil_append, List.append_nil, List.length_nil, Nat.zero_add] at hrun
    rw [(by omega : 2 * s.length + 1 = k + (2 * s.length + 1 - k)),
      hrun (2 * s.length + 1 - k), qRun_nilStack]

theorem quicksort_hoare_iterative_eq (lt : α → α → Bool) (s : List α) :
    quicksort_hoare_iterative lt s = quicksort_hoare lt s := by
  rw [quicksort_hoare_iterative, quicksort_hoare_iterative_run]

/-! ### Shellsort

`detail::insertion_sort_subsequence` works on the range through indices with
stride `gap`; the hole-shifting inner loop is `issShift`, the outer loop
`issGo`.  A zero gap would make the C++ inner loop spin forever; every gap
generator only produces positive gaps, and the embedding carries positivity
as a hypothesis. -/

/-- The inner-loop guard `left != 0 && elem < first[left - gap]`, reading the
compared element optionally (the C++ access is always in bounds). -/
def issCond (lt : α → α → Bool) (elem : α) (t : List α) (i : Nat) : Bool :=
  match t[i]? with
  | some x => lt elem x
  | none => false

/-- Inner loop of `detail::insertion_sort_subsequence`: while the element
`gap` below exceeds `elem`, move it up into the hole; returns the shifted
list and the final hole position. -/
def issShift (lt : α → α → Bool) (elem : α) (gap : Nat) (hg : 0 < gap)
    (t : List α) (left : Nat) : List α × Nat :=
  if left = 0 then (t, left)
  else if issCond lt elem t (left - gap) then
    issShift lt elem gap hg (t.set left (t.getD (left - gap) elem)) (left - gap)
  else (t, left)
termination_by left
decreasing_by omega

theorem issShift_zero (lt : α → α → Bool) (elem : α) (gap : Nat) (hg : 0 < gap)
    (t : List α) : issShift lt elem gap hg t 0 = (t, 0) := by
  rw [issShift]
  simp

theorem issShift_go (lt : α → α → Bool) (elem : α) (gap : Nat) (hg : 0 < gap)
    (t : List α) (left : Nat) (h0 : left ≠ 0)
    (hc : issCond lt elem t (left - gap) = true) :
    issShift lt elem gap hg t left
      = issShift lt elem gap hg (t.set left (t.getD (left - gap) elem)) (left - gap) := by
  rw [issShift, if_neg h0, if_pos hc]

theorem issShift_stop (lt : α → α → Bool) (elem : α) (gap : Nat) (hg : 0 < gap)
    (t : List α) (left : Nat) (h0 : left ≠ 0)
    (hc : ¬issCond lt elem t (left - gap) = true) :
    issShift lt elem gap hg t left = (t, left) := by
  rw [issShift, if_neg h0, if_neg hc]

theorem issShift_length (lt : α → α → Bool) (elem : α) (gap : Nat) (hg : 0 < gap) :
    ∀ (left : Nat) (t : List α),
      (issShift lt elem gap hg t left).1.length = t.length := by
  intro left
  induction left using Nat.strong_induction_on with
  | _ left IH =>
  intro t
  by_cases h0 : left = 0
  · subst h0
    rw [issShift_zero]
  · by_cases hc : issCond lt elem t (left - gap) = true
    · rw [issShift_go lt elem gap hg t left h0 hc,
        IH (left - gap) (by omega), List.length_set]
    · rw [issShift_stop lt elem gap hg t left h0 hc]

theorem issShift_snd_le (lt : α → α → Bool) (elem : α) (gap : Nat) (hg : 0 < gap) :
    ∀ (left : Nat) (t : List α), (issShift lt elem gap hg t left).2 ≤ left := by
  intro left
  induction left using Nat.strong_induction_on with
  | _ left IH =>
  intro t
  by_cases h0 : left = 0
  · subst h0
    rw [issShift_zero]
  · by_cases hc : issCond lt elem t (left - gap) = true
    · rw [issShift_go lt elem gap hg t left h0 hc]
      exact le_trans (IH (left - gap) (by omega) _) (by omega)
    · rw [issShift_stop lt elem gap hg t left h0 hc]

theorem issCond_some {lt : α → α → Bool} {elem : α} {t : List α} {i : Nat}
    (hc : issCond lt elem t i = true) :
    ∃ x, t[i]? = some x ∧ lt elem x = true := by
  rw [issCond] at hc
  revert hc
  split
  · rename_i x hx
    intro hc
    exact ⟨x, hx, hc⟩
  · intro hc
    cases hc

/-- Placing `elem` into the hole left by the shifting loop permutes the list
that has `elem` placed at the original hole: each shift step is a swap of the
hole with the slot `gap` below it. -/
theorem issShift_set_perm (lt : α → α → Bool) (elem : α) (gap : Nat)
    (hg : 0 < gap) :
    ∀ (left : Nat) (t : List α), left < t.length →
      List.Perm
        ((issShift lt elem gap hg t left).1.set (issShift lt elem gap hg t left).2 elem)
        (t.set left elem) := by
  intro left
  induction left using Nat.strong_induction_on with
  | _ left IH =>
  intro t hl
  by_cases h0 : left = 0
  · subst h0
    rw [issShift_zero]
  · by_cases hc : issCond lt elem t (left - gap) = true
    · rw [issShift_go lt elem gap hg t left h0 hc]
      obtain ⟨x, hx, hltx⟩ := issCond_some hc
      have hxd : t.getD (left - gap) elem = x := by
        simp [List.getD_eq_getElem?_getD, hx]
      rw [hxd]
      have hstep := IH (left - gap) (by omega) (t.set left x)
        (by rw [List.length_set]; omega)
      refine hstep.trans ?_
      have hlg : left - gap < t.length := by omega
      have hne : left - gap ≠ left := by omega
      have heq : (t.set left x).set (left - gap) elem
          = listSwap (t.set left elem) (left - gap) left := by
        refine List.ext_getElem? ?_
        intro k
        rw [getElem?_listSwap (t.set left elem) (left - gap) left
          (by rw [List.length_set]; omega) (by rw [List.length_set]; omega) k]
        simp only [List.getElem?_set, List.length_set]
        split_ifs
        all_goals first | rfl | omega | (exact hx.symm)
      rw [heq]
      exact listSwap_perm (t.set left elem) (left - gap) left
    · rw [issShift_stop lt elem gap hg t left h0 hc]

/-- Outer loop of `detail::insertion_sort_subsequence`: for
`right = gap, 2*gap, ...` below the length, shift and place the element at
`right`. -/
def issGo (lt : α → α → Bool) (gap : Nat) (hg : 0 < gap) (t : List α)
    (right : Nat) : List α :=
  if right < t.length then
    match t[right]? with
    | some elem =>
      issGo lt gap hg
        ((issShift lt elem gap hg t right).1.set (issShift lt elem gap hg t right).2 elem)
        (right + gap)
    | none => t
  else t
termination_by t.length - right
decreasing_by
  rw [List.length_set, issShift_length]
  omega

theorem issGo_step (lt : α → α → Bool) (gap : Nat) (hg : 0 < gap) (t : List α)
    (right : Nat) (hr : right < t.length) {elem : α} (he : t[right]? = some elem) :
    issGo lt gap hg t right
      = issGo lt gap hg
          ((issShift lt elem gap hg t right).1.set (issShift lt elem gap hg t right).2 elem)
          (right + gap) := by
  rw [issGo, if_pos hr, he]

theorem issGo_stop (lt : α → α → Bool) (gap : Nat) (hg : 0 < gap) (t : List α)
    (right : Nat) (hr : ¬right < t.length) : issGo lt gap hg t right = t := by
  rw [issGo, if_neg hr]

theorem issGo_perm (lt : α → α → Bool) (gap : Nat) (hg : 0 < gap) :
    ∀ (n : Nat) (t : List α) (right : Nat), t.length - right = n →
      List.Perm (issGo lt gap hg t right) t := by
  intro n
  induction n using Nat.strong_induction_on with
  | _ n IH =>
  intro t right hn
  by_cases hr : right < t.length
  · cases he : t[right]? with
    | none =>
      rw [List.getElem?_eq_none_iff] at he
      omega
    | some elem =>
      rw [issGo_step lt gap hg t right hr he]
      have hlen : ((issShift lt elem gap hg t right).1.set
          (issShift lt elem gap hg t right).2 elem).length = t.length := by
        rw [List.length_set, issShift_length]
      have hrec := IH (t.length - (right + gap)) (by omega) _ (right + gap)
        (by rw [hlen])
      refine hrec.trans ?_
      have hperm := issShift_set_perm lt elem gap hg right t hr
      have helem : elem = t[right] := by
        rw [List.getElem?_eq_getElem hr] at he
        injection he with he2
        exact he2.symm
      refine hperm.trans ?_
      rw [helem, set_getElem_id t right hr]
  · rw [issGo_stop lt gap hg t right hr]

theorem issGo_length (lt : α → α → Bool) (gap : Nat) (hg : 0 < gap)
    (t : List α) (right : Nat) : (issGo lt gap hg t right).length = t.length :=
  (issGo_perm lt gap hg (t.length - right) t right rfl).length_eq

/-- `detail::insertion_sort_subsequence` on the range `[first, last)` given
as a list, with the stride `gap`. -/
def insertion_sort_subsequence (lt : α → α → Bool) (gap : Nat) (hg : 0 < gap)
    (t : List α) : List α :=
  issGo lt gap hg t gap

theorem insertion_sort_subsequence_perm (lt : α → α → Bool) (gap : Nat)
    (hg : 0 < gap) (t : List α) :
    List.Perm (insertion_sort_subsequence lt gap hg t) t :=
  issGo_perm lt gap hg (t.length - gap) t gap rfl

theorem insertion_sort_subsequence_length (lt : α → α → Bool) (gap : Nat)
    (hg : 0 < gap) (t : List α) :
    (insertion_sort_subsequence lt gap hg t).length = t.length :=
  (insertion_sort_subsequence_perm lt gap hg t).length_eq

theorem issCond_false {lt : α → α → Bool} {elem : α} {t : List α} {i : Nat}
    (hc : ¬issCond lt elem t i = true) :
    ∀ x, t[i]? = some x → lt elem x = false := by
  intro x hx
  rw [issCond, hx] at hc
  exact Bool.of_not_eq_true hc

/-- Full specification of the inner shifting loop at gap `1`: placing `elem`
into the final hole produces the contiguous rearrangement where the elements
strictly between the hole and `left` (all greater than `elem`) moved up one
slot, the stop slot (if any) is not greater than `elem`, and every shifted
slot was greater than `elem`. -/
theorem issShift_one_spec {lt : α → α → Bool} {elem : α} (hg : 0 < 1) :
    ∀ (left : Nat) (t : List α), left < t.length →
      ∀ t2 l2, issShift lt elem 1 hg t left = (t2, l2) →
        l2 ≤ left
        ∧ t2.set l2 elem
            = t.take l2 ++ elem :: (t.drop l2).take (left - l2) ++ t.drop (left + 1)
        ∧ (∀ x, t[l2 - 1]? = some x → l2 ≠ 0 → lt elem x = false)
        ∧ (∀ j, l2 ≤ j → j < left → ∀ x, t[j]? = some x → lt elem x = true) := by
  intro left
  induction left using Nat.strong_induction_on with
  | _ left IH =>
  intro t hl t2 l2 hp
  by_cases h0 : left = 0
  · subst h0
    rw [issShift_zero] at hp
    injection hp with e1 e2
    subst e1
    subst e2
    refine ⟨le_refl 0, ?_, ?_, ?_⟩
    · rw [List.set_eq_take_cons_drop elem hl]
      simp
    · intro x hx hn
      exact absurd rfl hn
    · intro j hj1 hj2
      omega
  · by_cases hc : issCond lt elem t (left - 1) = true
    · rw [issShift_go lt elem 1 hg t left h0 hc] at hp
      obtain ⟨x, hx, hltx⟩ := issCond_some hc
      have hxd : t.getD (left - 1) elem = x := by
        simp [List.getD_eq_getElem?_getD, hx]
      rw [hxd] at hp
      have hl1 : left - 1 < (t.set left x).length := by
        rw [List.length_set]
        omega
      obtain ⟨ih1, ih2, ih3, ih4⟩ := IH (left - 1) (by omega) (t.set left x) hl1 t2 l2 hp
      refine ⟨by omega, ?_, ?_, ?_⟩
      · rw [ih2]
        rw [List.take_set_of_lt x t (show l2 < left by omega)]
        have hmid : ((t.set left x).drop l2).take (left - 1 - l2)
            = (t.drop l2).take (left - 1 - l2) := by
          refine List.ext_getElem? ?_
          intro k
          rw [List.getElem?_take, List.getElem?_take, List.getElem?_drop,
            List.getElem?_drop]
          split
          · rename_i hk
            rw [List.getElem?_set_ne (show left ≠ l2 + k by omega)]
          · rfl
        rw [hmid]
        rw [(show left - 1 + 1 = left by omega)]
        have hdropleft : (t.set left x).drop left = x :: t.drop (left + 1) := by
          rw [List.drop_eq_getElem_cons (show left < (t.set left x).length by
            rw [List.length_set]; omega)]
          rw [List.drop_set_of_lt x t (show left < left + 1 by omega)]
          congr 1
          rw [List.getElem_set_self]
        rw [hdropleft]
        have htk : (t.drop l2).take (left - l2)
            = (t.drop l2).take (left - 1 - l2) ++ [x] := by
          rw [(show left - l2 = (left - 1 - l2) + 1 by omega), List.take_succ,
            List.getElem?_drop, (show l2 + (left - 1 - l2) = left - 1 by omega), hx]
          rfl
        rw [htk]
        simp only [List.append_assoc, List.cons_append, List.nil_append]
      · intro y hy hn
        refine ih3 y ?_ hn
        rw [List.getElem?_set_ne (show left ≠ l2 - 1 by omega)]
        exact hy
      · intro j hj1 hj2 y hy
        by_cases hjl : j = left - 1
        · subst hjl
          rw [hx] at hy
          injection hy with hy2
          subst hy2
          exact hltx
        · refine ih4 j hj1 (by omega) y ?_
          rw [List.getElem?_set_ne (show left ≠ j by omega)]
          exact hy
    · rw [issShift_stop lt elem 1 hg t left h0 hc] at hp
      injection hp with e1 e2
      subst e1
      subst e2
      refine ⟨le_refl left, ?_, ?_, ?_⟩
      · rw [List.set_eq_take_cons_drop elem hl]
        simp
      · intro y hy hn
        exact issCond_false hc y hy
      · intro j hj1 hj2
        omega

/-- At gap `1` the outer loop is the classic shifting insertion sort: a sorted
prefix `t.take right` grows by one slot per iteration. -/
theorem issGo_one_sorted {lt : α → α → Bool} (h : IsSWO lt) (hg : 0 < 1) :
    ∀ (n : Nat) (t : List α) (right : Nat), t.length - right = n →
      List.Pairwise (leOf lt) (t.take right) →
      List.Pairwise (leOf lt) (issGo lt 1 hg t right) := by
  intro n
  induction n using Nat.strong_induction_on with
  | _ n IH =>
  intro t right hn hsorted
  by_cases hr : right < t.length
  · cases he : t[right]? with
    | none =>
      rw [List.getElem?_eq_none_iff] at he
      omega
    | some elem =>
      rw [issGo_step lt 1 hg t right hr he]
      rcases hp : issShift lt elem 1 hg t right with ⟨t2, l2⟩
      obtain ⟨hle, hform, hstop, hshift⟩ := issShift_one_spec hg right t hr t2 l2 hp
      have hsortIdx : ∀ i j, i < j → j < right → ∀ a b,
          t[i]? = some a → t[j]? = some b → leOf lt a b := by
        intro i j hij hjr a b ha hb
        have hlen : (t.take right).length = right := by
          rw [List.length_take]
          omega
        have hgi : (t.take right)[i]? = some a := by
          rw [List.getElem?_take, if_pos (by omega)]
          exact ha
        have hgj : (t.take right)[j]? = some b := by
          rw [List.getElem?_take, if_pos (by omega)]
          exact hb
        have hpg := List.pairwise_iff_getElem.mp hsorted i j
          (by omega) (by omega) hij
        rw [List.getElem?_eq_getElem (by omega : i < (t.take right).length)] at hgi
        rw [List.getElem?_eq_getElem (by omega : j < (t.take right).length)] at hgj
        injection hgi with hgi
        injection hgj with hgj
        rw [← hgi, ← hgj]
        exact hpg
      have hr2 : (t2.set l2 elem).length = t.length := by
        have := issShift_length lt elem 1 hg right t
        rw [hp] at this
        simp only at this
        rw [List.length_set, this]
      have hA : List.Pairwise (leOf lt) (t.take l2) := by
        have : t.take l2 = (t.take right).take l2 := by
          rw [List.take_take, Nat.min_eq_left (by omega)]
        rw [this]
        exact hsorted.sublist (List.take_sublist _ _)
      have hM : List.Pairwise (leOf lt) ((t.drop l2).take (right - l2)) := by
        have : (t.drop l2).take (right - l2) = (t.take right).drop l2 := by
          rw [List.drop_take]
        rw [this]
        exact hsorted.sublist (List.drop_sublist _ _)
      have hAmem : ∀ z ∈ t.take l2, ∃ i, i < l2 ∧ t[i]? = some z := by
        intro z hz
        obtain ⟨i, hi⟩ := List.mem_iff_getElem?.mp hz
        rw [List.getElem?_take] at hi
        revert hi
        split
        · rename_i hi2
          intro hi
          exact ⟨i, hi2, hi⟩
        · intro hi
          cases hi
      have hMmem : ∀ y ∈ (t.drop l2).take (right - l2),
          ∃ j, l2 ≤ j ∧ j < right ∧ t[j]? = some y := by
        intro y hy
        obtain ⟨k, hk⟩ := List.mem_iff_getElem?.mp hy
        rw [List.getElem?_take] at hk
        revert hk
        split
        · rename_i hk2
          intro hk
          rw [List.getElem?_drop] at hk
          exact ⟨l2 + k, by omega, by omega, hk⟩
        · intro hk
          cases hk
      have hAelem : ∀ z ∈ t.take l2, leOf lt z elem := by
        intro z hz
        obtain ⟨i, hi, hiz⟩ := hAmem z hz
        have hl2pos : l2 ≠ 0 := by omega
        cases hx0 : t[l2 - 1]? with
        | none =>
          rw [List.getElem?_eq_none_iff] at hx0
          omega
        | some x0 =>
          have hx0le : leOf lt x0 elem := hstop x0 hx0 hl2pos
          by_cases hil : i = l2 - 1
          · subst hil
            rw [hx0] at hiz
            injection hiz with hiz
            subst hiz
            exact hx0le
          · exact h.le_trans (hsortIdx i (l2 - 1) (by omega) (by omega) z x0 hiz hx0) hx0le
      have hElemM : ∀ y ∈ (t.drop l2).take (right - l2), leOf lt elem y := by
        intro y hy
        obtain ⟨j, hj1, hj2, hjy⟩ := hMmem y hy
        have := hshift j hj1 hj2 y hjy
        rw [leOf]
        exact h.asymm elem y this
      have hAM : ∀ z ∈ t.take l2, ∀ y ∈ (t.drop l2).take (right - l2), leOf lt z y := by
        intro z hz y hy
        obtain ⟨i, hi, hiz⟩ := hAmem z hz
        obtain ⟨j, hj1, hj2, hjy⟩ := hMmem y hy
        exact hsortIdx i j (by omega) (by omega) z y hiz hjy
      have hprefix : List.Pairwise (leOf lt)
          (t.take l2 ++ elem :: (t.drop l2).take (right - l2)) := by
        rw [List.pairwise_append]
        refine ⟨hA, ?_, ?_⟩
        · rw [List.pairwise_cons]
          exact ⟨hElemM, hM⟩
        · intro z hz y hy
          rcases List.mem_cons.mp hy with hy1 | hy2
          · subst hy1
            exact hAelem z hz
          · exact hAM z hz y hy2
      have htake : (t2.set l2 elem).take (right + 1)
          = t.take l2 ++ elem :: (t.drop l2).take (right - l2) := by
        rw [hform]
        refine List.take_left' ?_
        simp only [List.length_append, List.length_take, List.length_cons,
          List.length_drop]
        omega
      refine IH ((t2.set l2 elem).length - (right + 1)) (by omega) (t2.set l2 elem)
        (right + 1) rfl ?_
      rw [htake]
      exact hprefix
  · rw [issGo_stop lt 1 hg t right hr]
    rw [List.take_of_length_le (by omega)] at hsorted
    exact hsorted

theorem insertion_sort_subsequence_one_pairwise {lt : α → α → Bool}
    (h : IsSWO lt) (hg : 0 < 1) (t : List α) :
    List.Pairwise (leOf lt) (insertion_sort_subsequence lt 1 hg t) := by
  rw [insertion_sort_subsequence]
  refine issGo_one_sorted h hg (t.length - 1) t 1 rfl ?_
  cases t with
  | nil => simp
  | cons a l => simp

/-- One gap's worth of work in `detail::shellsort`: the loop
`for (start = first; start != bound; ++start)` running
`insertion_sort_subsequence(start, last, gap)` on each offset. -/
def gapPassGo (lt : α → α → Bool) (gap : Nat) (hg : 0 < gap) (t : List α)
    (o : Nat) : List α :=
  if o < gap then
    gapPassGo lt gap hg
      (t.take o ++ insertion_sort_subsequence lt gap hg (t.drop o)) (o + 1)
  else t
termination_by gap - o

def gapPass (lt : α → α → Bool) (gap : Nat) (hg : 0 < gap) (t : List α) :
    List α :=
  gapPassGo lt gap hg t 0

theorem gapPassGo_step (lt : α → α → Bool) (gap : Nat) (hg : 0 < gap)
    (t : List α) (o : Nat) (ho : o < gap) :
    gapPassGo lt gap hg t o
      = gapPassGo lt gap hg
          (t.take o ++ insertion_sort_subsequence lt gap hg (t.drop o)) (o + 1) := by
  rw [gapPassGo, if_pos ho]

theorem gapPassGo_stop (lt : α → α → Bool) (gap : Nat) (hg : 0 < gap)
    (t : List α) (o : Nat) (ho : ¬o < gap) : gapPassGo lt gap hg t o = t := by
  rw [gapPassGo, if_neg ho]

theorem gapPassGo_perm (lt : α → α → Bool) (gap : Nat) (hg : 0 < gap) :
    ∀ (n : Nat) (t : List α) (o : Nat), gap - o = n →
      List.Perm (gapPassGo lt gap hg t o) t := by
  intro n
  induction n using Nat.strong_induction_on with
  | _ n IH =>
  intro t o hn
  by_cases ho : o < gap
  · rw [gapPassGo_step lt gap hg t o ho]
    have hrec := IH (gap - (o + 1)) (by omega)
      (t.take o ++ insertion_sort_subsequence lt gap hg (t.drop o)) (o + 1) rfl
    refine hrec.trans ?_
    have hiss := insertion_sort_subsequence_perm lt gap hg (t.drop o)
    have := List.Perm.append (List.Perm.refl (t.take o)) hiss
    refine this.trans ?_
    rw [List.take_append_drop]
  · rw [gapPassGo_stop lt gap hg t o ho]

theorem gapPass_perm (lt : α → α → Bool) (gap : Nat) (hg : 0 < gap)
    (t : List α) : List.Perm (gapPass lt gap hg t) t :=
  gapPassGo_perm lt gap hg (gap - 0) t 0 rfl

theorem gapPass_one_eq (lt : α → α → Bool) (hg : 0 < 1) (t : List α) :
    gapPass lt 1 hg t = insertion_sort_subsequence lt 1 hg t := by
  rw [gapPass, gapPassGo_step lt 1 hg t 0 (by omega),
    gapPassGo_stop lt 1 hg _ 1 (by omega)]
  simp

theorem gapPass_one_pairwise {lt : α → α → Bool} (h : IsSWO lt) (hg : 0 < 1)
    (t : List α) : List.Pairwise (leOf lt) (gapPass lt 1 hg t) := by
  rw [gapPass_one_eq]
  exact insertion_sort_subsequence_one_pairwise h hg t

/-- The `std::for_each(crbegin(gaps), crend(gaps), ...)` of `detail::shellsort`,
as a recursion over the gap list: gaps are generated in increasing order and
applied from the largest down to the front one. -/
def shellsortGaps (lt : α → α → Bool) :
    (gaps : List Nat) → (∀ g ∈ gaps, 0 < g) → List α → List α
  | [], _, t => t
  | g :: rest, hpos, t =>
    gapPass lt g (hpos g (List.mem_cons_self g rest))
      (shellsortGaps lt rest (fun x hx => hpos x (List.mem_cons_of_mem g hx)) t)

theorem shellsortGaps_perm (lt : α → α → Bool) :
    ∀ (gaps : List Nat) (hpos : ∀ g ∈ gaps, 0 < g) (t : List α),
      List.Perm (shellsortGaps lt gaps hpos t) t := by
  intro gaps
  induction gaps with
  | nil =>
    intro hpos t
    exact List.Perm.refl t
  | cons g rest ih =>
    intro hpos t
    rw [shellsortGaps]
    exact (gapPass_perm lt g _ _).trans (ih _ t)

theorem pairwise_of_length_le_one {R : α → α → Prop} {l : List α}
    (hl : l.length ≤ 1) : List.Pairwise R l := by
  cases l with
  | nil => exact List.Pairwise.nil
  | cons a rest =>
    cases rest with
    | nil => exact List.pairwise_singleton R a
    | cons b rest2 => simp at hl

theorem shellsortGaps_pairwise {lt : α → α → Bool} (h : IsSWO lt) :
    ∀ (gaps : List Nat) (hpos : ∀ g ∈ gaps, 0 < g) (t : List α),
      (gaps = [] → t.length ≤ 1) → (∀ g rest, gaps = g :: rest → g = 1) →
      List.Pairwise (leOf lt) (shellsortGaps lt gaps hpos t) := by
  intro gaps
  cases gaps with
  | nil =>
    intro hpos t hemp hhead
    exact pairwise_of_length_le_one (hemp rfl)
  | cons g rest =>
    intro hpos t hemp hhead
    have hg1 : g = 1 := hhead g rest rfl
    subst hg1
    rw [shellsortGaps]
    exact gapPass_one_pairwise h _ _

/-! ### The gap generators (`detail::gaps`) -/

/-- `detail::gaps::hibbard`: emit `2^k - 1` for `k = 1, 2, ...` while below
the length. -/
def hibbardGo (len : Nat) (k : Nat) : List Nat :=
  if 2 ^ k - 1 < len then (2 ^ k - 1) :: hibbardGo len (k + 1) else []
termination_by (len + 1) - 2 ^ k
decreasing_by
  rename_i hc
  have h1 : 0 < 2 ^ k := Nat.pow_pos (by omega)
  have h2 : 2 ^ (k + 1) = 2 ^ k * 2 := Nat.pow_succ 2 k
  omega

def hibbard (len : Nat) : List Nat := hibbardGo len 1

theorem hibbardGo_emit (len k : Nat) (hc : 2 ^ k - 1 < len) :
    hibbardGo len k = (2 ^ k - 1) :: hibbardGo len (k + 1) := by
  rw [hibbardGo, if_pos hc]

theorem hibbardGo_nil (len k : Nat) (hc : ¬2 ^ k - 1 < len) :
    hibbardGo len k = [] := by
  rw [hibbardGo, if_neg hc]

theorem hibbardGo_spec (len : Nat) : ∀ (m k : Nat), (len + 1) - 2 ^ k = m →
    (∀ x ∈ hibbardGo len k, x < len ∧ 2 ^ k - 1 ≤ x)
      ∧ List.Pairwise (fun a b => a < b) (hibbardGo len k) := by
  intro m
  induction m using Nat.strong_induction_on with
  | _ m IH =>
  intro k hm
  by_cases hc : 2 ^ k - 1 < len
  · have h1 : 0 < 2 ^ k := Nat.pow_pos (by omega)
    have h2 : 2 ^ (k + 1) = 2 ^ k * 2 := Nat.pow_succ 2 k
    obtain ⟨ihb, ihs⟩ := IH ((len + 1) - 2 ^ (k + 1)) (by omega) (k + 1) rfl
    rw [hibbardGo_emit len k hc]
    constructor
    · intro x hx
      rcases List.mem_cons.mp hx with hx1 | hx2
      · subst hx1
        exact ⟨hc, le_refl _⟩
      · obtain ⟨hxl, hxb⟩ := ihb x hx2
        exact ⟨hxl, by omega⟩
    · rw [List.pairwise_cons]
      refine ⟨?_, ihs⟩
      intro x hx
      obtain ⟨hxl, hxb⟩ := ihb x hx
      omega
  · rw [hibbardGo_nil len k hc]
    exact ⟨fun x hx => absurd hx (List.not_mem_nil x), List.Pairwise.nil⟩

theorem hibbard_lt_len (len : Nat) : ∀ x ∈ hibbard len, x < len :=
  fun x hx => ((hibbardGo_spec len ((len + 1) - 2 ^ 1) 1 rfl).1 x hx).1

theorem hibbard_pos (len : Nat) : ∀ x ∈ hibbard len, 0 < x := by
  intro x hx
  have := ((hibbardGo_spec len ((len + 1) - 2 ^ 1) 1 rfl).1 x hx).2
  omega

theorem hibbard_sorted (len : Nat) :
    List.Pairwise (fun a b => a < b) (hibbard len) :=
  (hibbardGo_spec len ((len + 1) - 2 ^ 1) 1 rfl).2

theorem hibbard_head (len : Nat) (h2 : 2 ≤ len) :
    (hibbard len).head? = some 1 := by
  rw [hibbard, hibbardGo_emit len 1 (by omega)]
  rfl

theorem hibbard_front (len : Nat) :
    hibbard len = [] ∨ (hibbard len).head? = some 1 := by
  by_cases hc : 2 ^ 1 - 1 < len
  · right
    rw [hibbard, hibbardGo_emit len 1 hc]
    rfl
  · left
    rw [hibbard, hibbardGo_nil len 1 hc]

theorem hibbard_nil_small (len : Nat) (hnil : hibbard len = []) : len ≤ 1 := by
  by_contra hlen
  rw [hibbard, hibbardGo_emit len 1 (by omega)] at hnil
  cases hnil

/-- `detail::gaps::sedgewick`: emit `1`, then `4^(i+1) + 3*2^i + 1` for
`i = 0, 1, ...` while below the length (nothing at all for length `0`). -/
def sedgewickGo (len : Nat) (i : Nat) : List Nat :=
  if 2 ^ ((i + 1) * 2) + 2 ^ i * 3 + 1 < len then
    (2 ^ ((i + 1) * 2) + 2 ^ i * 3 + 1) :: sedgewickGo len (i + 1)
  else []
termination_by (len + 1) - 2 ^ i
decreasing_by
  rename_i hc
  have h1 : 0 < 2 ^ i := Nat.pow_pos (by omega)
  have h2 : 2 ^ (i + 1) = 2 ^ i * 2 := Nat.pow_succ 2 i
  have h3 : 2 ^ i ≤ 2 ^ ((i + 1) * 2) := Nat.pow_le_pow_right (by omega) (by omega)
  omega

def sedgewick (len : Nat) : List Nat :=
  if len = 0 then [] else 1 :: sedgewickGo len 0

theorem sedgewickGo_emit (len i : Nat)
    (hc : 2 ^ ((i + 1) * 2) + 2 ^ i * 3 + 1 < len) :
    sedgewickGo len i
      = (2 ^ ((i + 1) * 2) + 2 ^ i * 3 + 1) :: sedgewickGo len (i + 1) := by
  rw [sedgewickGo, if_pos hc]

theorem sedgewickGo_nil (len i : Nat)
    (hc : ¬2 ^ ((i + 1) * 2) + 2 ^ i * 3 + 1 < len) : sedgewickGo len i = [] := by
  rw [sedgewickGo, if_neg hc]

theorem sedgewickGo_spec (len : Nat) : ∀ (m i : Nat), (len + 1) - 2 ^ i = m →
    (∀ x ∈ sedgewickGo len i, x < len ∧ 2 ^ ((i + 1) * 2) + 2 ^ i * 3 + 1 ≤ x)
      ∧ List.Pairwise (fun a b => a < b) (sedgewickGo len i) := by
  intro m
  induction m using Nat.strong_induction_on with
  | _ m IH =>
  intro i hm
  by_cases hc : 2 ^ ((i + 1) * 2) + 2 ^ i * 3 + 1 < len
  · have h1 : 0 < 2 ^ i := Nat.pow_pos (by omega)
    have h2 : 2 ^ (i + 1) = 2 ^ i * 2 := Nat.pow_succ 2 i
    have h3 : 2 ^ i ≤ 2 ^ ((i + 1) * 2) := Nat.pow_le_pow_right (by omega) (by omega)
    have h4 : 2 ^ ((i + 1) * 2) < 2 ^ ((i + 2) * 2) :=
      Nat.pow_lt_pow_right (by omega) (by omega)
    obtain ⟨ihb, ihs⟩ := IH ((len + 1) - 2 ^ (i + 1)) (by omega) (i + 1) rfl
    rw [sedgewickGo_emit len i hc]
    have hnext : 2 ^ ((i + 1) * 2) + 2 ^ i * 3 + 1
        < 2 ^ ((i + 1 + 1) * 2) + 2 ^ (i + 1) * 3 + 1 := by
      have : (i + 1 + 1) * 2 = (i + 2) * 2 := by omega
      rw [this]
      omega
    constructor
    · intro x hx
      rcases List.mem_cons.mp hx with hx1 | hx2
      · subst hx1
        exact ⟨hc, le_refl _⟩
      · obtain ⟨hxl, hxb⟩ := ihb x hx2
        exact ⟨hxl, by omega⟩
    · rw [List.pairwise_cons]
      refine ⟨?_, ihs⟩
      intro x hx
      obtain ⟨hxl, hxb⟩ := ihb x hx
      omega
  · rw [sedgewickGo_nil len i hc]
    exact ⟨fun x hx => absurd hx (List.not_mem_nil x), List.Pairwise.nil⟩

theorem sedgewick_pos (len : Nat) : ∀ x ∈ sedgewick len, 0 < x := by
  intro x hx
  rw [sedgewick] at hx
  revert hx
  split
  · intro hx
    cases hx
  · intro hx
    rcases List.mem_cons.mp hx with hx1 | hx2
    · omega
    · have := ((sedgewickGo_spec len ((len + 1) - 2 ^ 0) 0 rfl).1 x hx2).2
      omega

theorem sedgewick_sorted (len : Nat) :
    List.Pairwise (fun a b => a < b) (sedgewick len) := by
  rw [sedgewick]
  split
  · exact List.Pairwise.nil
  · rw [List.pairwise_cons]
    refine ⟨?_, (sedgewickGo_spec len ((len + 1) - 2 ^ 0) 0 rfl).2⟩
    intro x hx
    have := ((sedgewickGo_spec len ((len + 1) - 2 ^ 0) 0 rfl).1 x hx).2
    omega

theorem sedgewick_head (len : Nat) (h1 : 1 ≤ len) :
    (sedgewick len).head? = some 1 := by
  rw [sedgewick, if_neg (by omega)]
  rfl

theorem sedgewick_front (len : Nat) :
    sedgewick len = [] ∨ (sedgewick len).head? = some 1 := by
  by_cases h0 : len = 0
  · left
    rw [sedgewick, if_pos h0]
  · right
    exact sedgewick_head len (by omega)

theorem sedgewick_nil_small (len : Nat) (hnil : sedgewick len = []) :
    len ≤ 1 := by
  by_contra hlen
  rw [sedgewick, if_neg (by omega)] at hnil
  cases hnil

/-- The tail of `sedgewick` (everything after the unconditional leading `1`)
is below the length. -/
theorem sedgewick_tail_lt_len (len : Nat) : ∀ x ∈ sedgewickGo len 0, x < len :=
  fun x hx => ((sedgewickGo_spec len ((len + 1) - 2 ^ 0) 0 rfl).1 x hx).1

/-- At length `1`, `sedgewick` emits the single gap `1`, which is not below
the length: the claimed bound `every term < n` fails here. -/
theorem sedgewick_one : sedgewick 1 = [1] ∧ ¬(∀ x ∈ sedgewick 1, x < 1) := by
  constructor
  · rw [sedgewick, if_neg (by omega), sedgewickGo_nil 1 0 (by omega)]
  · intro hall
    have h1 : (1 : Nat) ∈ sedgewick 1 := by
      rw [sedgewick, if_neg (by omega)]
      exact List.mem_cons_self 1 _
    exact absurd (hall 1 h1) (by omega)

/-- `detail::gaps::tokuda`: `h` starts at `1` and grows by `h ↦ 2.25h + 1`;
each gap is the ceiling of `h`, emitted while below the length.  The C++
computes `h` in floating point; the embedding uses exact rationals.  The loop
is fuelled: every iteration emits one gap and the gaps strictly increase, so
`len` iterations are never exhausted before the break. -/
def tokudaGo (len : Nat) : Nat → ℚ → List Nat
  | 0, _ => []
  | fuel + 1, h =>
    if (Int.ceil h).toNat < len then
      (Int.ceil h).toNat :: tokudaGo len fuel (h * (9 / 4) + 1)
    else []

def tokuda (len : Nat) : List Nat := tokudaGo len len 1

theorem tokudaGo_spec (len : Nat) : ∀ (fuel : Nat) (h : ℚ), 1 ≤ h →
    (∀ x ∈ tokudaGo len fuel h, x < len ∧ (Int.ceil h).toNat ≤ x)
      ∧ List.Pairwise (fun a b => a < b) (tokudaGo len fuel h) := by
  intro fuel
  induction fuel with
  | zero =>
    intro h hh
    rw [tokudaGo]
    exact ⟨fun x hx => absurd hx (List.not_mem_nil x), List.Pairwise.nil⟩
  | succ fuel IH =>
    intro h hh
    rw [tokudaGo]
    split
    · rename_i hc
      have hnext1 : (1 : ℚ) ≤ h * (9 / 4) + 1 := by linarith
      obtain ⟨ihb, ihs⟩ := IH (h * (9 / 4) + 1) hnext1
      have hmono : Int.ceil h + 1 ≤ Int.ceil (h * (9 / 4) + 1) := by
        have h1 : h + 1 ≤ h * (9 / 4) + 1 := by linarith
        have h2 := Int.ceil_le_ceil h1
        rw [Int.ceil_add_one h] at h2
        exact h2
      have hpos : 0 < Int.ceil h := Int.ceil_pos.mpr (by linarith)
      constructor
      · intro x hx
        rcases List.mem_cons.mp hx with hx1 | hx2
        · subst hx1
          exact ⟨hc, le_refl _⟩
        · obtain ⟨hxl, hxb⟩ := ihb x hx2
          refine ⟨hxl, ?_⟩
          omega
      · rw [List.pairwise_cons]
        refine ⟨?_, ihs⟩
        intro x hx
        obtain ⟨hxl, hxb⟩ := ihb x hx
        omega
    · exact ⟨fun x hx => absurd hx (List.not_mem_nil x), List.Pairwise.nil⟩

theorem tokuda_lt_len (len : Nat) : ∀ x ∈ tokuda len, x < len :=
  fun x hx => ((tokudaGo_spec len len 1 (le_refl 1)).1 x hx).1

theorem tokuda_pos (len : Nat) : ∀ x ∈ tokuda len, 0 < x := by
  intro x hx
  have := ((tokudaGo_spec len len 1 (le_refl 1)).1 x hx).2
  have hceil : Int.ceil (1 : ℚ) = 1 := Int.ceil_one
  rw [hceil] at this
  omega

theorem tokuda_sorted (len : Nat) :
    List.Pairwise (fun a b => a < b) (tokuda len) :=
  (tokudaGo_spec len len 1 (le_refl 1)).2

theorem tokuda_head (len : Nat) (h2 : 2 ≤ len) :
    (tokuda len).head? = some 1 := by
  rw [tokuda]
  obtain ⟨f, hf⟩ : ∃ f, len = f + 1 := ⟨len - 1, by omega⟩
  have hceil : Int.ceil (1 : ℚ) = 1 := Int.ceil_one
  have hunfold : tokudaGo len (f + 1) (1 : ℚ)
      = if (Int.ceil (1 : ℚ)).toNat < len then
          (Int.ceil (1 : ℚ)).toNat :: tokudaGo len f ((1 : ℚ) * (9 / 4) + 1)
        else [] := by
    rw [tokudaGo]
  rw [(show tokudaGo len len (1 : ℚ) = tokudaGo len (f + 1) (1 : ℚ) by rw [← hf]),
    hunfold, hceil, if_pos (by omega : (1 : ℤ).toNat < len)]
  rfl

theorem tokuda_front (len : Nat) :
    tokuda len = [] ∨ (tokuda len).head? = some 1 := by
  by_cases h2 : 2 ≤ len
  · right
    exact tokuda_head len h2
  · left
    interval_cases len
    · rfl
    · rw [tokuda]
      have hceil : Int.ceil (1 : ℚ) = 1 := Int.ceil_one
      rw [(show (1 : Nat) = 0 + 1 by omega), tokudaGo, hceil]
      rw [if_neg (by omega)]

theorem tokuda_nil_small (len : Nat) (hnil : tokuda len = []) : len ≤ 1 := by
  by_contra hlen
  have hh := tokuda_head len (by omega)
  rw [hnil] at hh
  cases hh

/-- The experimentally derived table `detail::ciura_gaps`. -/
def ciura_gaps : List Nat := [1, 4, 10, 23, 57, 132, 301, 701, 1750]

/-- The `while` extension loop of `detail::gaps::quasi_ciura`: keep
multiplying by `9/4` (the C++ truncates `g * 2.25` back to an integer, which
is `9*g/4` in natural division) while below the length. -/
def quasiCiuraExt (len : Nat) : Nat → Nat → List Nat
  | 0, _ => []
  | fuel + 1, g =>
    if 9 * g / 4 < len then (9 * g / 4) :: quasiCiuraExt len fuel (9 * g / 4)
    else []

/-- The table loop of `detail::gaps::quasi_ciura`: emit table entries while
below the length (returning early otherwise), then extend from the last one. -/
def quasiCiuraGo (len : Nat) : List Nat → Nat → List Nat
  | [], g => quasiCiuraExt len len g
  | h :: rest, _ => if len ≤ h then [] else h :: quasiCiuraGo len rest h

def quasi_ciura (len : Nat) : List Nat := quasiCiuraGo len ciura_gaps 0

theorem quasiCiuraExt_spec (len : Nat) : ∀ (fuel g : Nat), 1 ≤ g →
    (∀ x ∈ quasiCiuraExt len fuel g, x < len ∧ g < x)
      ∧ List.Pairwise (fun a b => a < b) (quasiCiuraExt len fuel g) := by
  intro fuel
  induction fuel with
  | zero =>
    intro g hg
    rw [quasiCiuraExt]
    exact ⟨fun x hx => absurd hx (List.not_mem_nil x), List.Pairwise.nil⟩
  | succ fuel IH =>
    intro g hg
    rw [quasiCiuraExt]
    split
    · rename_i hc
      have hgrow : g < 9 * g / 4 := by omega
      obtain ⟨ihb, ihs⟩ := IH (9 * g / 4) (by omega)
      constructor
      · intro x hx
        rcases List.mem_cons.mp hx with hx1 | hx2
        · subst hx1
          exact ⟨hc, hgrow⟩
        · obtain ⟨hxl, hxb⟩ := ihb x hx2
          exact ⟨hxl, by omega⟩
      · rw [List.pairwise_cons]
        refine ⟨?_, ihs⟩
        intro x hx
        obtain ⟨hxl, hxb⟩ := ihb x hx
        omega
    · exact ⟨fun x hx => absurd hx (List.not_mem_nil x), List.Pairwise.nil⟩

theorem quasiCiuraGo_spec (len : Nat) : ∀ (tbl : List Nat) (g : Nat),
    (tbl = [] → 1 ≤ g) → (∀ x ∈ tbl, g < x) → (∀ x ∈ tbl, 1 ≤ x) →
    List.Pairwise (fun a b => a < b) tbl →
    (∀ x ∈ quasiCiuraGo len tbl g, x < len ∧ g < x)
      ∧ List.Pairwise (fun a b => a < b) (quasiCiuraGo len tbl g) := by
  intro tbl
  induction tbl with
  | nil =>
    intro g hemp hgt h1 hsort
    rw [quasiCiuraGo]
    exact quasiCiuraExt_spec len len g (hemp rfl)
  | cons h rest IH =>
    intro g hemp hgt h1 hsort
    rw [quasiCiuraGo]
    split
    · exact ⟨fun x hx => absurd hx (List.not_mem_nil x), List.Pairwise.nil⟩
    · rename_i hc
      rw [List.pairwise_cons] at hsort
      obtain ⟨hhd, hsrest⟩ := hsort
      obtain ⟨ihb, ihs⟩ := IH h
        (fun _ => h1 h (List.mem_cons_self h rest))
        hhd (fun x hx => h1 x (List.mem_cons_of_mem h hx)) hsrest
      constructor
      · intro x hx
        rcases List.mem_cons.mp hx with hx1 | hx2
        · subst hx1
          exact ⟨by omega, hgt x (List.mem_cons_self x rest)⟩
        · obtain ⟨hxl, hxb⟩ := ihb x hx2
          have := hgt h (List.mem_cons_self h rest)
          exact ⟨hxl, by omega⟩
      · rw [List.pairwise_cons]
        refine ⟨?_, ihs⟩
        intro x hx
        exact (ihb x hx).2
    
theorem quasi_ciura_lt_len (len : Nat) : ∀ x ∈ quasi_ciura len, x < len := by
  intro x hx
  exact ((quasiCiuraGo_spec len ciura_gaps 0 (by intro he; cases he)
    (by decide) (by decide) (by decide)).1 x hx).1

theorem quasi_ciura_pos (len : Nat) : ∀ x ∈ quasi_ciura len, 0 < x := by
  intro x hx
  exact ((quasiCiuraGo_spec len ciura_gaps 0 (by intro he; cases he)
    (by decide) (by decide) (by decide)).1 x hx).2

theorem quasi_ciura_sorted (len : Nat) :
    List.Pairwise (fun a b => a < b) (quasi_ciura len) :=
  (quasiCiuraGo_spec len ciura_gaps 0 (by intro he; cases he)
    (by decide) (by decide) (by decide)).2

theorem quasi_ciura_head (len : Nat) (h2 : 2 ≤ len) :
    (quasi_ciura len).head? = some 1 := by
  rw [quasi_ciura, ciura_gaps, quasiCiuraGo, if_neg (by omega)]
  rfl

theorem quasi_ciura_front (len : Nat) :
    quasi_ciura len = [] ∨ (quasi_ciura len).head? = some 1 := by
  by_cases h2 : 2 ≤ len
  · right
    exact quasi_ciura_head len h2
  · left
    rw [quasi_ciura, ciura_gaps, quasiCiuraGo, if_pos (by omega)]

theorem quasi_ciura_nil_small (len : Nat) (hnil : quasi_ciura len = []) :
    len ≤ 1 := by
  by_contra hlen
  have hh := quasi_ciura_head len (by omega)
  rw [hnil] at hh
  cases hh

/-- `detail::gaps::three_smooth`: generates the 3-smooth numbers by Dijkstra's
merging scheme — `aux` accumulates the sequence and two cursors point at the
values whose double and triple are the next candidates.  Fuelled: each
iteration emits one gap and the gaps strictly increase, so `len` iterations
are never exhausted before the loop condition fails. -/
def threeSmoothGo (len : Nat) : Nat → List Nat → Nat → Nat → List Nat
  | 0, _, _, _ => []
  | fuel + 1, aux, i2, i3 =>
    if aux.getLastD 0 < len then
      aux.getLastD 0 ::
        threeSmoothGo len fuel
          (aux ++ [min (2 * aux.getD i2 0) (3 * aux.getD i3 0)])
          (if 2 * aux.getD i2 0 ≤ 3 * aux.getD i3 0 then i2 + 1 else i2)
          (if 3 * aux.getD i3 0 ≤ 2 * aux.getD i2 0 then i3 + 1 else i3)
    else []

def three_smooth (len : Nat) : List Nat := threeSmoothGo len len [1] 0 0

theorem threeSmoothGo_emit (len fuel : Nat) (aux : List Nat) (i2 i3 : Nat)
    (hc : aux.getLastD 0 < len) :
    threeSmoothGo len (fuel + 1) aux i2 i3
      = aux.getLastD 0 ::
          threeSmoothGo len fuel
            (aux ++ [min (2 * aux.getD i2 0) (3 * aux.getD i3 0)])
            (if 2 * aux.getD i2 0 ≤ 3 * aux.getD i3 0 then i2 + 1 else i2)
            (if 3 * aux.getD i3 0 ≤ 2 * aux.getD i2 0 then i3 + 1 else i3) := by
  rw [threeSmoothGo, if_pos hc]

theorem threeSmoothGo_nil (len fuel : Nat) (aux : List Nat) (i2 i3 : Nat)
    (hc : ¬aux.getLastD 0 < len) :
    threeSmoothGo len (fuel + 1) aux i2 i3 = [] := by
  rw [threeSmoothGo, if_neg hc]

/-- The loop invariant of `three_smooth`'s generation: `aux` is strictly
increasing with positive entries, the cursors are in bounds, and doubling
(resp. tripling) the cursor values exceeds the current back. -/
def TSInv (aux : List Nat) (i2 i3 : Nat) : Prop :=
  List.Pairwise (fun a b => a < b) aux
  ∧ (∀ x ∈ aux, 1 ≤ x)
  ∧ i2 < aux.length ∧ i3 < aux.length ∧ aux ≠ []
  ∧ aux.getLastD 0 < 2 * aux.getD i2 0
  ∧ aux.getLastD 0 < 3 * aux.getD i3 0

theorem mem_le_getLastD {l : List Nat}
    (hs : List.Pairwise (fun a b => a < b) l) (x : Nat) (hx : x ∈ l) :
    x ≤ l.getLastD 0 := by
  obtain ⟨i, hi⟩ := List.mem_iff_getElem?.mp hx
  have hlen : i < l.length := by
    by_contra hc
    rw [List.getElem?_eq_none_iff.mpr (by omega)] at hi
    cases hi
  rw [List.getLastD_eq_getLast?, List.getLast?_eq_getElem?,
    List.getElem?_eq_getElem (show l.length - 1 < l.length by omega)]
  by_cases hil : i = l.length - 1
  · subst hil
    rw [List.getElem?_eq_getElem hlen] at hi
    injection hi with hi
    subst hi
    exact le_refl _
  · have hpg := List.pairwise_iff_getElem.mp hs i (l.length - 1) hlen
      (by omega) (by omega)
    rw [List.getElem?_eq_getElem hlen] at hi
    injection hi with hi
    subst hi
    exact le_of_lt hpg

theorem TSInv_step {aux : List Nat} {i2 i3 : Nat} (hinv : TSInv aux i2 i3) :
    TSInv (aux ++ [min (2 * aux.getD i2 0) (3 * aux.getD i3 0)])
        (if 2 * aux.getD i2 0 ≤ 3 * aux.getD i3 0 then i2 + 1 else i2)
        (if 3 * aux.getD i3 0 ≤ 2 * aux.getD i2 0 then i3 + 1 else i3)
      ∧ aux.getLastD 0
          < (aux ++ [min (2 * aux.getD i2 0) (3 * aux.getD i3 0)]).getLastD 0 := by
  obtain ⟨hsort, hone, hi2, hi3, hne, hb2, hb3⟩ := hinv
  have hlastv : (aux ++ [min (2 * aux.getD i2 0) (3 * aux.getD i3 0)]).getLastD 0
      = min (2 * aux.getD i2 0) (3 * aux.getD i3 0) := by
    rw [List.getLastD_eq_getLast?, List.getLast?_concat]
    rfl
  have ha2mem : aux.getD i2 0 ∈ aux := by
    rw [List.getD_eq_getElem?_getD, List.getElem?_eq_getElem hi2]
    exact List.getElem_mem hi2
  have ha3mem : aux.getD i3 0 ∈ aux := by
    rw [List.getD_eq_getElem?_getD, List.getElem?_eq_getElem hi3]
    exact List.getElem_mem hi3
  have ha2pos : 1 ≤ aux.getD i2 0 := hone _ ha2mem
  have ha3pos : 1 ≤ aux.getD i3 0 := hone _ ha3mem
  have hlastlt : aux.getLastD 0 < min (2 * aux.getD i2 0) (3 * aux.getD i3 0) := by
    omega
  have hvpos : 1 ≤ min (2 * aux.getD i2 0) (3 * aux.getD i3 0) := by
    omega
  have hsort2 : List.Pairwise (fun a b => a < b)
      (aux ++ [min (2 * aux.getD i2 0) (3 * aux.getD i3 0)]) := by
    rw [List.pairwise_append]
    refine ⟨hsort, List.pairwise_singleton _ _, ?_⟩
    intro x hx y hy
    rw [List.mem_singleton] at hy
    subst hy
    exact lt_of_le_of_lt (mem_le_getLastD hsort x hx) hlastlt
  have hone2 : ∀ x ∈ aux ++ [min (2 * aux.getD i2 0) (3 * aux.getD i3 0)],
      1 ≤ x := by
    intro x hx
    rcases List.mem_append.mp hx with hx1 | hx2
    · exact hone x hx1
    · rw [List.mem_singleton] at hx2
      subst hx2
      exact hvpos
  have hlen2 : (aux ++ [min (2 * aux.getD i2 0) (3 * aux.getD i3 0)]).length
      = aux.length + 1 := by
    rw [List.length_append, List.length_singleton]
  have hgetA : ∀ j, j < aux.length →
      (aux ++ [min (2 * aux.getD i2 0) (3 * aux.getD i3 0)]).getD j 0
        = aux.getD j 0 := by
    intro j hj
    rw [List.getD_eq_getElem?_getD, List.getElem?_append, if_pos hj,
      ← List.getD_eq_getElem?_getD]
  have hgetV : (aux ++ [min (2 * aux.getD i2 0) (3 * aux.getD i3 0)]).getD
      aux.length 0 = min (2 * aux.getD i2 0) (3 * aux.getD i3 0) := by
    rw [List.getD_eq_getElem?_getD, List.getElem?_concat_length]
    rfl
  have hadj : ∀ j, j + 1 < aux.length → aux.getD j 0 < aux.getD (j + 1) 0 := by
    intro j hj
    have hpg := List.pairwise_iff_getElem.mp hsort j (j + 1) (by omega) (by omega)
      (by omega)
    rw [List.getD_eq_getElem?_getD, List.getD_eq_getElem?_getD,
      List.getElem?_eq_getElem (show j < aux.length by omega),
      List.getElem?_eq_getElem (show j + 1 < aux.length by omega)]
    exact hpg
  refine ⟨⟨hsort2, hone2, ?_, ?_, by simp, ?_, ?_⟩, ?_⟩
  · rw [hlen2]
    split_ifs <;> omega
  · rw [hlen2]
    split_ifs <;> omega
  · rw [hlastv]
    by_cases h2 : 2 * aux.getD i2 0 ≤ 3 * aux.getD i3 0
    · rw [if_pos h2]
      by_cases hend : i2 + 1 < aux.length
      · rw [hgetA (i2 + 1) hend]
        have := hadj i2 hend
        omega
      · rw [(show i2 + 1 = aux.length by omega), hgetV]
        omega
    · rw [if_neg h2, hgetA i2 hi2]
      omega
  · rw [hlastv]
    by_cases h3 : 3 * aux.getD i3 0 ≤ 2 * aux.getD i2 0
    · rw [if_pos h3]
      by_cases hend : i3 + 1 < aux.length
      · rw [hgetA (i3 + 1) hend]
        have := hadj i3 hend
        omega
      · rw [(show i3 + 1 = aux.length by omega), hgetV]
        omega
    · rw [if_neg h3, hgetA i3 hi3]
      omega
  · rw [hlastv]
    exact hlastlt

theorem threeSmoothGo_spec (len : Nat) :
    ∀ (fuel : Nat) (aux : List Nat) (i2 i3 : Nat), TSInv aux i2 i3 →
      (∀ x ∈ threeSmoothGo len fuel aux i2 i3, x < len ∧ aux.getLastD 0 ≤ x)
        ∧ List.Pairwise (fun a b => a < b) (threeSmoothGo len fuel aux i2 i3) := by
  intro fuel
  induction fuel with
  | zero =>
    intro aux i2 i3 hinv
    rw [threeSmoothGo]
    exact ⟨fun x hx => absurd hx (List.not_mem_nil x), List.Pairwise.nil⟩
  | succ fuel IH =>
    intro aux i2 i3 hinv
    by_cases hc : aux.getLastD 0 < len
    · rw [threeSmoothGo_emit len fuel aux i2 i3 hc]
      obtain ⟨hinv2, hgrow⟩ := TSInv_step hinv
      obtain ⟨ihb, ihs⟩ := IH _ _ _ hinv2
      constructor
      · intro x hx
        rcases List.mem_cons.mp hx with hx1 | hx2
        · subst hx1
          exact ⟨hc, le_refl _⟩
        · obtain ⟨hxl, hxb⟩ := ihb x hx2
          exact ⟨hxl, by omega⟩
      · rw [List.pairwise_cons]
        refine ⟨?_, ihs⟩
        intro x hx
        obtain ⟨hxl, hxb⟩ := ihb x hx
        omega
    · rw [threeSmoothGo_nil len fuel aux i2 i3 hc]
      exact ⟨fun x hx => absurd hx (List.not_mem_nil x), List.Pairwise.nil⟩

theorem TSInv_init : TSInv [1] 0 0 := by
  refine ⟨List.pairwise_singleton _ 1, ?_, by simp, by simp, by simp, ?_, ?_⟩
  · intro x hx
    rw [List.mem_singleton] at hx
    omega
  · decide
  · decide

theorem three_smooth_lt_len (len : Nat) : ∀ x ∈ three_smooth len, x < len :=
  fun x hx => ((threeSmoothGo_spec len len [1] 0 0 TSInv_init).1 x hx).1

theorem three_smooth_pos (len : Nat) : ∀ x ∈ three_smooth len, 0 < x := by
  intro x hx
  have := ((threeSmoothGo_spec len len [1] 0 0 TSInv_init).1 x hx).2
  have h1 : ([1] : List Nat).getLastD 0 = 1 := rfl
  omega

theorem three_smooth_sorted (len : Nat) :
    List.Pairwise (fun a b => a < b) (three_smooth len) :=
  (threeSmoothGo_spec len len [1] 0 0 TSInv_init).2

theorem three_smooth_head (len : Nat) (h2 : 2 ≤ len) :
    (three_smooth len).head? = some 1 := by
  rw [three_smooth]
  have hfe : threeSmoothGo len len [1] 0 0
      = threeSmoothGo len ((len - 1) + 1) [1] 0 0 := by
    congr 1
    omega
  rw [hfe, threeSmoothGo_emit len (len - 1) [1] 0 0
    (show ([1] : List Nat).getLastD 0 < len by
      have h1 : ([1] : List Nat).getLastD 0 = 1 := rfl
      omega)]
  rfl

theorem three_smooth_front (len : Nat) :
    three_smooth len = [] ∨ (three_smooth len).head? = some 1 := by
  by_cases h2 : 2 ≤ len
  · right
    exact three_smooth_head len h2
  · left
    interval_cases len
    · rfl
    · rw [three_smooth, (show (1 : Nat) = 0 + 1 by omega),
        threeSmoothGo_nil 1 0 [1] 0 0 (by decide)]

theorem three_smooth_nil_small (len : Nat) (hnil : three_smooth len = []) :
    len ≤ 1 := by
  by_contra hlen
  have hh := three_smooth_head len (by omega)
  rw [hnil] at hh
  cases hh

/-! ### The five shellsort entry points -/

def shellsort_hibbard (lt : α → α → Bool) (s : List α) : List α :=
  shellsortGaps lt (hibbard s.length) (hibbard_pos s.length) s

def shellsort_3smooth (lt : α → α → Bool) (s : List α) : List α :=
  shellsortGaps lt (three_smooth s.length) (three_smooth_pos s.length) s

def shellsort_sedgewick (lt : α → α → Bool) (s : List α) : List α :=
  shellsortGaps lt (sedgewick s.length) (sedgewick_pos s.length) s

def shellsort_tokuda (lt : α → α → Bool) (s : List α) : List α :=
  shellsortGaps lt (tokuda s.length) (tokuda_pos s.length) s

def shellsort_quasi_ciura (lt : α → α → Bool) (s : List α) : List α :=
  shellsortGaps lt (quasi_ciura s.length) (quasi_ciura_pos s.length) s

theorem shellsort_hibbard_perm (lt : α → α → Bool) (s : List α) :
    List.Perm (shellsort_hibbard lt s) s :=
  shellsortGaps_perm lt _ _ s

theorem shellsort_3smooth_perm (lt : α → α → Bool) (s : List α) :
    List.Perm (shellsort_3smooth lt s) s :=
  shellsortGaps_perm lt _ _ s

theorem shellsort_sedgewick_perm (lt : α → α → Bool) (s : List α) :
    List.Perm (shellsort_sedgewick lt s) s :=
  shellsortGaps_perm lt _ _ s

theorem shellsort_tokuda_perm (lt : α → α → Bool) (s : List α) :
    List.Perm (shellsort_tokuda lt s) s :=
  shellsortGaps_perm lt _ _ s

theorem shellsort_quasi_ciura_perm (lt : α → α → Bool) (s : List α) :
    List.Perm (shellsort_quasi_ciura lt s) s :=
  shellsortGaps_perm lt _ _ s

theorem shellsort_hibbard_pairwise {lt : α → α → Bool} (h : IsSWO lt)
    (s : List α) : List.Pairwise (leOf lt) (shellsort_hibbard lt s) := by
  refine shellsortGaps_pairwise h (hibbard s.length) _ s ?_ ?_
  · intro hnil
    have := hibbard_nil_small s.length hnil
    omega
  · intro g rest hcons
    rcases hibbard_front s.length with hf | hf
    · rw [hcons] at hf
      cases hf
    · rw [hcons] at hf
      simp only [List.head?_cons] at hf
      exact Option.some.inj hf

theorem shellsort_3smooth_pairwise {lt : α → α → Bool} (h : IsSWO lt)
    (s : List α) : List.Pairwise (leOf lt) (shellsort_3smooth lt s) := by
  refine shellsortGaps_pairwise h (three_smooth s.length) _ s ?_ ?_
  · intro hnil
    have := three_smooth_nil_small s.length hnil
    omega
  · intro g rest hcons
    rcases three_smooth_front s.length with hf | hf
    · rw [hcons] at hf
      cases hf
    · rw [hcons] at hf
      simp only [List.head?_cons] at hf
      exact Option.some.inj hf

theorem shellsort_sedgewick_pairwise {lt : α → α → Bool} (h : IsSWO lt)
    (s : List α) : List.Pairwise (leOf lt) (shellsort_sedgewick lt s) := by
  refine shellsortGaps_pairwise h (sedgewick s.length) _ s ?_ ?_
  · intro hnil
    have := sedgewick_nil_small s.length hnil
    omega
  · intro g rest hcons
    rcases sedgewick_front s.length with hf | hf
    · rw [hcons] at hf
      cases hf
    · rw [hcons] at hf
      simp only [List.head?_cons] at hf
      exact Option.some.inj hf

theorem shellsort_tokuda_pairwise {lt : α → α → Bool} (h : IsSWO lt)
    (s : List α) : List.Pairwise (leOf lt) (shellsort_tokuda lt s) := by
  refine shellsortGaps_pairwise h (tokuda s.length) _ s ?_ ?_
  · intro hnil
    have := tokuda_nil_small s.length hnil
    omega
  · intro g rest hcons
    rcases tokuda_front s.length with hf | hf
    · rw [hcons] at hf
      cases hf
    · rw [hcons] at hf
      simp only [List.head?_cons] at hf
      exact Option.some.inj hf

theorem shellsort_quasi_ciura_pairwise {lt : α → α → Bool} (h : IsSWO lt)
    (s : List α) : List.Pairwise (leOf lt) (shellsort_quasi_ciura lt s) := by
  refine shellsortGaps_pairwise h (quasi_ciura s.length) _ s ?_ ?_
  · intro hnil
    have := quasi_ciura_nil_small s.length hnil
    omega
  · intro g rest hcons
    rcases quasi_ciura_front s.length with hf | hf
    · rw [hcons] at hf
      cases hf
    · rw [hcons] at hf
      simp only [List.head?_cons] at hf
      exact Option.some.inj hf

/-! ### Termination witnesses for the loops the spec calls out -/

/-- The iterative top-down mergesort machine halts: after the definition's
fuel, no further step is possible. -/
theorem mergesort_topdown_iterative_halts (lt : α → α → Bool) (s : List α) :
    tdiStep lt (tdiRun lt (3 * s.length + 1)
      ⟨s, 0, s.length, [], s.length, s.length⟩) = none := by
  by_cases hnil : s = []
  · subst hnil
    simp only [List.length_nil]
    have hfix : tdiStep lt (⟨[], 0, 0, [], 0, 0⟩ : TDIState α) = none := by
      rw [tdiStep, if_pos ⟨rfl, rfl⟩]
    rw [tdiRun_none hfix]
    exact hfix
  · obtain ⟨k, x, hk1, hkle, hrun⟩ :=
      tdiSim lt s.length [] s []
        (by have := List.length_pos.mpr hnil; omega) rfl [] s.length s.length
    simp only [List.nil_append, List.append_nil, List.length_nil, Nat.zero_add] at hrun
    have hfix : tdiStep lt
        (⟨mergesort_topdown lt s, x, x, [], 0, s.length⟩ : TDIState α) = none := by
      rw [tdiStep, if_pos ⟨rfl, rfl⟩]
    rw [(by omega : 3 * s.length + 1 = k + (3 * s.length + 1 - k)),
      hrun (3 * s.length + 1 - k), tdiRun_none hfix]
    exact hfix

/-- Iterating classic bubble sort's pass (the body of its
`do ... while (swapped)` loop). -/
def bubblePassIter (lt : α → α → Bool) : Nat → List α → List α
  | 0, l => l
  | n + 1, l => bubblePassIter lt n (bubblePass lt l).1

/-- Classic bubble sort's repeat-until-no-swap loop exits: some number of
passes reaches a pass that swaps nothing. -/
theorem bubble_loop_terminates {lt : α → α → Bool} (h : IsSWO lt) :
    ∀ l : List α, ∃ n, (bubblePass lt (bubblePassIter lt n l)).2 = false := by
  suffices hall : ∀ (m : Nat) (l : List α), invCount lt l = m →
      ∃ n, (bubblePass lt (bubblePassIter lt n l)).2 = false by
    intro l
    exact hall (invCount lt l) l rfl
  intro m
  induction m using Nat.strong_induction_on with
  | _ m IH =>
  intro l hm
  by_cases hsw : (bubblePass lt l).2 = true
  · have hdec := bubblePass_invCount h l
    rw [if_pos hsw] at hdec
    obtain ⟨n, hn⟩ := IH (invCount lt (bubblePass lt l).1) (by omega) _ rfl
    refine ⟨n + 1, ?_⟩
    rw [(show bubblePassIter lt (n + 1) l
      = bubblePassIter lt n (bubblePass lt l).1 from rfl)]
    exact hn
  · exact ⟨0, Bool.of_not_eq_true hsw⟩

/-- The state machine of `bubble_sort_maxadaptive`'s outer loop: the range
bound shrinks to the last swap position of each pass. -/
def maGo (lt : α → α → Bool) : Nat → List α × Nat → List α × Nat
  | 0, st => st
  | k + 1, (l, n) =>
    if n = 0 then (l, n)
    else maGo lt k
      ((bubblePassLS lt (l.take n)).1 ++ l.drop n, (bubblePassLS lt (l.take n)).2)

/-- The fully-adaptive bubble loop exits: the range bound reaches zero. -/
theorem maxadaptive_loop_terminates (lt : α → α → Bool) :
    ∀ (n : Nat) (l : List α), ∃ k, (maGo lt k (l, n)).2 = 0 := by
  intro n
  induction n using Nat.strong_induction_on with
  | _ n IH =>
  intro l
  by_cases hn : n = 0
  · exact ⟨0, hn⟩
  · have hlt : (bubblePassLS lt (l.take n)).2 < n := by
      rcases bubblePassLS_bound lt (l.take n) with h1 | h1
      · rw [List.length_take] at h1
        omega
      · omega
    obtain ⟨k, hk⟩ := IH _ hlt ((bubblePassLS lt (l.take n)).1 ++ l.drop n)
    refine ⟨k + 1, ?_⟩
    rw [(show maGo lt (k + 1) (l, n)
      = maGo lt k
          ((bubblePassLS lt (l.take n)).1 ++ l.drop n,
            (bubblePassLS lt (l.take n)).2) from by rw [maGo, if_neg hn])]
    exact hk

/-- Gnome sort's cursor loop with explicit fuel; `none` means the fuel ran
out before the cursor reached the end. -/
def gnomeFuel (lt : α → α → Bool) : Nat → List α → List α → Option (List α)
  | 0, _, _ => none
  | fuel + 1, rpre, suf =>
    match rpre, suf with
    | rpre, [] => some rpre.reverse
    | [], c :: rest => gnomeFuel lt fuel [c] rest
    | p :: ps, c :: rest =>
      if lt c p then gnomeFuel lt fuel ps (c :: p :: rest)
      else gnomeFuel lt fuel (c :: p :: ps) rest

/-- Gnome sort's cursor loop finishes on every input: some finite fuel
suffices, and the run computes `gnome_sort`'s recursion. -/
theorem gnome_loop_terminates {lt : α → α → Bool} (h : IsSWO lt) :
    ∀ (rpre suf : List α),
      ∃ fuel, gnomeFuel lt fuel rpre suf = some (gnome_sortGo lt h rpre suf) := by
  intro rpre suf
  induction rpre, suf using gnome_sortGo.induct lt h with
  | case1 rpre =>
    refine ⟨1, ?_⟩
    rw [gnome_sortGo]
    cases rpre <;> rfl
  | case2 c rest ih =>
    obtain ⟨fuel, hf⟩ := ih
    refine ⟨fuel + 1, ?_⟩
    rw [(show gnome_sortGo lt h [] (c :: rest) = gnome_sortGo lt h [c] rest from
      by rw [gnome_sortGo])]
    exact hf
  | case3 p ps c rest hlt ih =>
    obtain ⟨fuel, hf⟩ := ih
    refine ⟨fuel + 1, ?_⟩
    rw [(show gnome_sortGo lt h (p :: ps) (c :: rest)
      = gnome_sortGo lt h ps (c :: p :: rest) from by rw [gnome_sortGo, if_pos hlt])]
    rw [(show gnomeFuel lt (fuel + 1) (p :: ps) (c :: rest)
      = if lt c p then gnomeFuel lt fuel ps (c :: p :: rest)
        else gnomeFuel lt fuel (c :: p :: ps) rest from rfl), if_pos hlt]
    exact hf
  | case4 p ps c rest hlt ih =>
    obtain ⟨fuel, hf⟩ := ih
    refine ⟨fuel + 1, ?_⟩
    rw [(show gnome_sortGo lt h (p :: ps) (c :: rest)
      = gnome_sortGo lt h (c :: p :: ps) rest from by rw [gnome_sortGo, if_neg hlt])]
    rw [(show gnomeFuel lt (fuel + 1) (p :: ps) (c :: rest)
      = if lt c p then gnomeFuel lt fuel ps (c :: p :: rest)
        else gnomeFuel lt fuel (c :: p :: ps) rest from rfl), if_neg hlt]
    exact hf

/-- `quicksort_hoare`'s recursion with explicit fuel; `none` means the fuel
ran out before the recursion completed. -/
def quicksort_hoareFuel (lt : α → α → Bool) : Nat → List α → Option (List α)
  | 0, _ => none
  | fuel + 1, s =>
    if (sorted_after_pivot_selection lt s).2 then
      some (sorted_after_pivot_selection lt s).1
    else
      match hoare lt (sorted_after_pivot_selection lt s).1 with
      | none => some (sorted_after_pivot_selection lt s).1
      | some (t, m) =>
        match quicksort_hoareFuel lt fuel (t.take m),
            quicksort_hoareFuel lt fuel (t.drop m) with
        | some a, some b => some (a ++ b)
        | _, _ => none

theorem quicksort_hoareFuel_done (lt : α → α → Bool) (fuel : Nat) (s : List α)
    (hd : (sorted_after_pivot_selection lt s).2 = true) :
    quicksort_hoareFuel lt (fuel + 1) s
      = some (sorted_after_pivot_selection lt s).1 := by
  rw [quicksort_hoareFuel, if_pos hd]

theorem quicksort_hoareFuel_isNone (lt : α → α → Bool) (fuel : Nat) (s : List α)
    (hd : ¬(sorted_after_pivot_selection lt s).2 = true)
    (hh : hoare lt (sorted_after_pivot_selection lt s).1 = none) :
    quicksort_hoareFuel lt (fuel + 1) s
      = some (sorted_after_pivot_selection lt s).1 := by
  rw [quicksort_hoareFuel, if_neg hd, hh]

theorem quicksort_hoareFuel_step (lt : α → α → Bool) (fuel : Nat) (s : List α)
    (hd : ¬(sorted_after_pivot_selection lt s).2 = true) {t : List α} {m : Nat}
    (hh : hoare lt (sorted_after_pivot_selection lt s).1 = some (t, m)) :
    quicksort_hoareFuel lt (fuel + 1) s
      = match quicksort_hoareFuel lt fuel (t.take m),
            quicksort_hoareFuel lt fuel (t.drop m) with
        | some a, some b => some (a ++ b)
        | _, _ => none := by
  rw [quicksort_hoareFuel, if_neg hd, hh]

theorem quicksort_hoareFuel_mono (lt : α → α → Bool) :
    ∀ (fuel : Nat) (s : List α) (r : List α),
      quicksort_hoareFuel lt fuel s = some r →
      quicksort_hoareFuel lt (fuel + 1) s = some r := by
  intro fuel
  induction fuel with
  | zero =>
    intro s r hr
    rw [quicksort_hoareFuel] at hr
    cases hr
  | succ fuel IH =>
    intro s r hr
    by_cases hd : (sorted_after_pivot_selection lt s).2 = true
    · rw [quicksort_hoareFuel_done lt fuel s hd] at hr
      rw [quicksort_hoareFuel_done lt (fuel + 1) s hd]
      exact hr
    · cases hh : hoare lt (sorted_after_pivot_selection lt s).1 with
      | none =>
        rw [quicksort_hoareFuel_isNone lt fuel s hd hh] at hr
        rw [quicksort_hoareFuel_isNone lt (fuel + 1) s hd hh]
        exact hr
      | some p =>
        rcases p with ⟨t, m⟩
        rw [quicksort_hoareFuel_step lt fuel s hd hh] at hr
        rw [quicksort_hoareFuel_step lt (fuel + 1) s hd hh]
        split at hr
        · rename_i a b h1 h2
          rw [IH _ a h1, IH _ b h2]
          exact hr
        all_goals cases hr

theorem quicksort_hoareFuel_le_mono (lt : α → α → Bool) {a b : Nat}
    (hab : a ≤ b) : ∀ {u r : List α},
      quicksort_hoareFuel lt a u = some r →
      quicksort_hoareFuel lt b u = some r := by
  induction b with
  | zero =>
    intro u r h
    have ha : a = 0 := by omega
    subst ha
    exact h
  | succ b IHb =>
    intro u r h
    by_cases hab2 : a = b + 1
    · subst hab2
      exact h
    · exact quicksort_hoareFuel_mono lt b u r (IHb (by omega) h)

/-- The `quicksort_hoare` recursion reaches completion on every input: some
finite fuel suffices and computes the recursion's value. -/
theorem quicksort_hoare_recursion_completes (lt : α → α → Bool) :
    ∀ s : List α,
      ∃ fuel, quicksort_hoareFuel lt fuel s = some (quicksort_hoare lt s) := by
  intro s
  induction s using quicksort_hoare.induct lt with
  | case1 s ps hd =>
    refine ⟨0 + 1, ?_⟩
    rw [quicksort_hoare_done lt s hd]
    rw [quicksort_hoareFuel_done lt 0 s hd]
  | case2 s ps hd hh =>
    refine ⟨0 + 1, ?_⟩
    have hh2 : hoare lt (sorted_after_pivot_selection lt s).1 = none := hh
    have hd2 : ¬(sorted_after_pivot_selection lt s).2 = true := hd
    rw [quicksort_hoare_none lt s hd2 hh2]
    rw [quicksort_hoareFuel_isNone lt 0 s hd2 hh2]
  | case3 s ps hd t m hh ih1 ih2 =>
    obtain ⟨f1, hf1⟩ := ih1
    obtain ⟨f2, hf2⟩ := ih2
    refine ⟨max f1 f2 + 1, ?_⟩
    have hh2 : hoare lt (sorted_after_pivot_selection lt s).1 = some (t, m) := hh
    have hd2 : ¬(sorted_after_pivot_selection lt s).2 = true := hd
    rw [quicksort_hoare_step lt s hd2 hh2]
    rw [quicksort_hoareFuel_step lt (max f1 f2) s hd2 hh2]
    rw [quicksort_hoareFuel_le_mono lt (Nat.le_max_left f1 f2) hf1,
      quicksort_hoareFuel_le_mono lt (Nat.le_max_right f1 f2) hf2]

/-! ### The claims -/

/-- The element order used by concrete witnesses: `operator<` on `Nat`. -/
def natLt (a b : Nat) : Bool := decide (a < b)

/-- C10: for each of the five gap generators and every input length `n ≥ 0`,
the gap vector collected inside `detail::shellsort` is either empty or has
`1` as its first element, so `assert(empty(gaps) || gaps.front() == 1)`
holds on every call made through the five shellsort entry points. -/
theorem claim_C10_gaps_front (n : Nat) :
    (hibbard n = [] ∨ (hibbard n).head? = some 1)
      ∧ (three_smooth n = [] ∨ (three_smooth n).head? = some 1)
      ∧ (sedgewick n = [] ∨ (sedgewick n).head? = some 1)
      ∧ (tokuda n = [] ∨ (tokuda n).head? = some 1)
      ∧ (quasi_ciura n = [] ∨ (quasi_ciura n).head? = some 1) :=
  ⟨hibbard_front n, three_smooth_front n, sedgewick_front n, tokuda_front n,
    quasi_ciura_front n⟩

/-- C2 (amended): for every gap generator and every length `n ≥ 1` the
emitted gaps are strictly decreasing when consumed in reverse order of
emission; every emitted term is strictly less than `n` — except that
`sedgewick` at `n = 1` emits the single gap `1`, which is not less than
`n` — and when `n > 1` the smallest emitted term is exactly `1`. -/
theorem claim_C2_gap_sequences (n : Nat) (hn : 1 ≤ n) :
    (List.Pairwise (fun a b => b < a) (hibbard n).reverse
      ∧ (∀ x ∈ hibbard n, x < n)
      ∧ (2 ≤ n → 1 ∈ hibbard n ∧ ∀ x ∈ hibbard n, 1 ≤ x))
    ∧ (List.Pairwise (fun a b => b < a) (three_smooth n).reverse
      ∧ (∀ x ∈ three_smooth n, x < n)
      ∧ (2 ≤ n → 1 ∈ three_smooth n ∧ ∀ x ∈ three_smooth n, 1 ≤ x))
    ∧ (List.Pairwise (fun a b => b < a) (sedgewick n).reverse
      ∧ (2 ≤ n → ∀ x ∈ sedgewick n, x < n)
      ∧ (n = 1 → sedgewick n = [1])
      ∧ (2 ≤ n → 1 ∈ sedgewick n ∧ ∀ x ∈ sedgewick n, 1 ≤ x))
    ∧ (List.Pairwise (fun a b => b < a) (tokuda n).reverse
      ∧ (∀ x ∈ tokuda n, x < n)
      ∧ (2 ≤ n → 1 ∈ tokuda n ∧ ∀ x ∈ tokuda n, 1 ≤ x))
    ∧ (List.Pairwise (fun a b => b < a) (quasi_ciura n).reverse
      ∧ (∀ x ∈ quasi_ciura n, x < n)
      ∧ (2 ≤ n → 1 ∈ quasi_ciura n ∧ ∀ x ∈ quasi_ciura n, 1 ≤ x)) := by
  refine ⟨⟨?_, hibbard_lt_len n, ?_⟩, ⟨?_, three_smooth_lt_len n, ?_⟩,
    ⟨?_, ?_, ?_, ?_⟩, ⟨?_, tokuda_lt_len n, ?_⟩, ⟨?_, quasi_ciura_lt_len n, ?_⟩⟩
  · exact List.pairwise_reverse.mpr (hibbard_sorted n)
  · intro h2
    refine ⟨List.mem_of_mem_head? (by rw [hibbard_head n h2]; rfl), ?_⟩
    intro x hx
    have := hibbard_pos n x hx
    omega
  · exact List.pairwise_reverse.mpr (three_smooth_sorted n)
  · intro h2
    refine ⟨List.mem_of_mem_head? (by rw [three_smooth_head n h2]; rfl), ?_⟩
    intro x hx
    have := three_smooth_pos n x hx
    omega
  · exact List.pairwise_reverse.mpr (sedgewick_sorted n)
  · intro h2 x hx
    rw [sedgewick, if_neg (by omega)] at hx
    rcases List.mem_cons.mp hx with hx1 | hx2
    · omega
    · exact sedgewick_tail_lt_len n x hx2
  · intro h1
    subst h1
    rw [sedgewick, if_neg (by omega), sedgewickGo_nil 1 0 (by norm_num)]
  · intro h2
    refine ⟨List.mem_of_mem_head? (by rw [sedgewick_head n (by omega)]; rfl), ?_⟩
    intro x hx
    have := sedgewick_pos n x hx
    omega
  · exact List.pairwise_reverse.mpr (tokuda_sorted n)
  · intro h2
    refine ⟨List.mem_of_mem_head? (by rw [tokuda_head n h2]; rfl), ?_⟩
    intro x hx
    have := tokuda_pos n x hx
    omega
  · exact List.pairwise_reverse.mpr (quasi_ciura_sorted n)
  · intro h2
    refine ⟨List.mem_of_mem_head? (by rw [quasi_ciura_head n h2]; rfl), ?_⟩
    intro x hx
    have := quasi_ciura_pos n x hx
    omega

theorem claim_C2_witness :
    1 ≤ 2 ∧ List.Pairwise (fun a b => b < a) ((hibbard 2).reverse : List Nat) :=
  ⟨by omega, (claim_C2_gap_sequences 2 (by omega)).1.1⟩

/-- The counterexample forcing C2's amendment: at `n = 1` the `sedgewick`
generator emits the gap `1`, which is not strictly less than `n = 1`. -/
theorem claim_C2_counterexample :
    sedgewick 1 = [1] ∧ (1 : Nat) ∈ sedgewick 1 ∧ ¬(1 : Nat) < 1 := by
  have h1 : sedgewick 1 = [1] := by
    rw [sedgewick, if_neg (by omega), sedgewickGo_nil 1 0 (by norm_num)]
  refine ⟨h1, ?_, by omega⟩
  rw [h1]
  exact List.mem_singleton.mpr rfl

/-- C3 (amended): in both heapsorts' sift-down, whenever a node has two
children the right child is selected exactly when the left child is strictly
smaller than the right; when the right child is not larger than the left —
ties included — `detail::pick_child` selects the left child. -/
theorem claim_C3_pick_child {lt : α → α → Bool} (s : List α) (len parent : Nat)
    (htwo : parent * 2 + 1 + 1 < len) {xl xr : α}
    (hl : s[parent * 2 + 1]? = some xl) (hr : s[parent * 2 + 1 + 1]? = some xr) :
    pick_child lt s len parent
      = some (if lt xl xr then parent * 2 + 1 + 1 else parent * 2 + 1) := by
  rw [pick_child]
  rw [if_neg (by omega), if_neg (by omega), hl, hr]

theorem claim_C3_witness :
    0 * 2 + 1 + 1 < 3
      ∧ pick_child natLt [0, 5, 6] 3 0
          = some (if natLt 5 6 then 0 * 2 + 1 + 1 else 0 * 2 + 1) :=
  ⟨by omega, claim_C3_pick_child [0, 5, 6] 3 0 (by omega) rfl rfl⟩

/-- The counterexample refuting C3 as stated: with two equal children (the
right child is not smaller than the left), `detail::pick_child` selects the
left child (index 1), not the right one (index 2). -/
theorem claim_C3_counterexample :
    natLt 5 5 = false
      ∧ pick_child natLt [0, 5, 5] 3 0 = some 1
      ∧ ¬pick_child natLt [0, 5, 5] 3 0 = some 2 := by
  have h1 : pick_child natLt [0, 5, 5] 3 0 = some 1 := by
    rw [pick_child]
    rw [if_neg (by omega), if_neg (by omega),
      (show ([0, 5, 5] : List Nat)[0 * 2 + 1]? = some 5 from rfl),
      (show ([0, 5, 5] : List Nat)[0 * 2 + 1 + 1]? = some 5 from rfl)]
    rfl
  refine ⟨rfl, h1, ?_⟩
  rw [h1]
  intro hcontra
  injection hcontra with hcontra
  cases hcontra

/-- C6: for every nonempty range, `detail::partitions::lomuto` permutes the
range, returns a position holding the value initially at `first` (the
pivot), every element before that position is strictly less than the pivot,
and every element after it is not less than the pivot. -/
theorem claim_C6_lomuto {lt : α → α → Bool} {s : List α} {pivot : α}
    (hs0 : s[0]? = some pivot) :
    List.Perm (lomuto lt s).1 s
      ∧ (lomuto lt s).1[(lomuto lt s).2]? = some pivot
      ∧ (∀ i x, i < (lomuto lt s).2 → (lomuto lt s).1[i]? = some x →
          lt x pivot = true)
      ∧ (∀ j x, (lomuto lt s).2 < j → (lomuto lt s).1[j]? = some x →
          lt x pivot = false) := by
  obtain ⟨h1, h2, h3⟩ := lomuto_spec hs0
  exact ⟨lomuto_perm lt s, h1, h2, h3⟩

theorem claim_C6_witness :
    (([2, 1, 3] : List Nat)[0]? = some 2)
      ∧ List.Perm (lomuto natLt [2, 1, 3]).1 [2, 1, 3] :=
  ⟨rfl, (@claim_C6_lomuto Nat natLt [2, 1, 3] 2 rfl).1⟩

/-- C5: on a range of at least two elements whose first element is neither
strictly less than all other elements nor strictly greater than all other
elements, `detail::partitions::hoare` stays inside the range (no `none`),
and returns a cut `m` with `1 ≤ m < len` such that sorting the two sides
independently leaves the whole range sorted; without the precondition the
scanners may overrun, as on `[5, 1, 2]`. -/
theorem claim_C5_hoare {lt : α → α → Bool} (h : IsSWO lt) {s : List α}
    {pivot : α} (hs0 : s[0]? = some pivot) (h2 : 2 ≤ s.length)
    (hnotmax : ∃ a, 1 ≤ a ∧ a < s.length ∧
      ∀ x, s[a]? = some x → lt x pivot = false)
    (hnotmin : ∃ b, 1 ≤ b ∧ b < s.length ∧
      ∀ x, s[b]? = some x → lt pivot x = false) :
    (∃ t m, hoare lt s = some (t, m) ∧ List.Perm t s ∧ 1 ≤ m ∧ m < s.length ∧
      ∀ u v : List α, List.Perm u (t.take m) → List.Perm v (t.drop m) →
        List.Pairwise (leOf lt) u → List.Pairwise (leOf lt) v →
        List.Pairwise (leOf lt) (u ++ v))
      ∧ hoare natLt [5, 1, 2] = none := by
  obtain ⟨t, m, hh, htlen, hperm, hm1, hm2, hleft, hright⟩ := hoare_spec h hs0 hnotmax
  constructor
  · refine ⟨t, m, hh, hperm, hm1, hm2, ?_⟩
    intro u v hu hv hus hvs
    refine pairwise_append_le h pivot hus hvs ?_ ?_
    · intro x hx
      have hx2 : x ∈ t.take m := hu.mem_iff.mp hx
      obtain ⟨k, hk, hkx⟩ := mem_take_iff.mp hx2
      exact hleft k x hk hkx
    · intro y hy
      have hy2 : y ∈ t.drop m := hv.mem_iff.mp hy
      obtain ⟨k, hk⟩ := List.mem_iff_getElem?.mp hy2
      rw [List.getElem?_drop] at hk
      exact hright (m + k) y (by omega) hk
  · have e1 : hoare natLt [5, 1, 2] = hoareLoop natLt 5 [5, 1, 2] 0 3 := rfl
    rw [e1]
    have hs1 : hoareScanUp natLt 5 [5, 1, 2] 0
        = hoareScanUp natLt 5 [5, 1, 2] (0 + 1) :=
      hoareScanUp_go rfl rfl
    have hs2 : hoareScanUp natLt 5 [5, 1, 2] (0 + 1)
        = hoareScanUp natLt 5 [5, 1, 2] (0 + 1 + 1) :=
      hoareScanUp_go rfl rfl
    have hs3 : hoareScanUp natLt 5 [5, 1, 2] (0 + 1 + 1) = none :=
      hoareScanUp_none rfl
    exact hoareLoop_upNone (hs1.trans (hs2.trans hs3))

theorem claim_C5_witness :
    (([2, 1, 3] : List Nat)[0]? = some 2)
      ∧ 2 ≤ ([2, 1, 3] : List Nat).length
      ∧ (∃ a, 1 ≤ a ∧ a < ([2, 1, 3] : List Nat).length ∧
          ∀ x, ([2, 1, 3] : List Nat)[a]? = some x → natLt x 2 = false)
      ∧ (∃ b, 1 ≤ b ∧ b < ([2, 1, 3] : List Nat).length ∧
          ∀ x, ([2, 1, 3] : List Nat)[b]? = some x → natLt 2 x = false)
      ∧ hoare natLt [5, 1, 2] = none := by
  refine ⟨rfl, by decide, ⟨2, by omega, by decide, ?_⟩, ⟨1, by omega, by decide, ?_⟩,
    (@claim_C5_hoare Nat natLt (isSWO_of_linearOrder : IsSWO natLt) [2, 1, 3] 2
      rfl (by decide)
      ⟨2, by omega, by decide, by
        intro x hx
        injection hx with hx
        subst hx
        rfl⟩
      ⟨1, by omega, by decide, by
        intro x hx
        injection hx with hx
        subst hx
        rfl⟩).2⟩
  · intro x hx
    injection hx with hx
    subst hx
    rfl
  · intro x hx
    injection hx with hx
    subst hx
    rfl

/-- C7: the three mergesorts compute exactly the same output, and the
mergesort is stable: filtering by any predicate that selects a single
equivalence class of the ordering (the formal counterpart of "equal elements
keep their original relative order") commutes with sorting. -/
theorem claim_C7_mergesorts {lt : α → α → Bool} (h : IsSWO lt) (l : List α) :
    mergesort_topdown_iterative lt l = mergesort_topdown lt l
      ∧ mergesort_bottomup_iterative lt l = mergesort_topdown lt l
      ∧ (∀ q : α → Bool, stablePred lt q →
          (mergesort_topdown lt l).filter q = l.filter q) :=
  ⟨mergesort_topdown_iterative_eq lt l, mergesort_bottomup_eq_topdown h l,
    fun _ hq => mergesort_topdown_filter h hq l⟩

theorem claim_C7_witness :
    IsSWO natLt
      ∧ mergesort_topdown_iterative natLt [2, 1]
          = mergesort_topdown natLt [2, 1] :=
  ⟨(isSWO_of_linearOrder : IsSWO natLt),
    (claim_C7_mergesorts (isSWO_of_linearOrder : IsSWO natLt) [2, 1]).1⟩

/-- C8: the four insertion sorts, the three bubble sorts, gnome sort and the
three mergesorts are stable: filtering by any predicate selecting one
equivalence class of the ordering commutes with each sort. -/
theorem claim_C8_stability {lt : α → α → Bool} (h : IsSWO lt) (l : List α)
    (q : α → Bool) (hq : stablePred lt q) :
    (insertion_sort lt l).filter q = l.filter q
      ∧ (insertion_sort_byswap lt l).filter q = l.filter q
      ∧ (binary_insertion_sort lt l).filter q = l.filter q
      ∧ (binary_insertion_sort_byrotate lt l).filter q = l.filter q
      ∧ (bubble_sort lt h l).filter q = l.filter q
      ∧ (bubble_sort_nonadaptive lt l).filter q = l.filter q
      ∧ (bubble_sort_maxadaptive lt l).filter q = l.filter q
      ∧ (gnome_sort lt h l).filter q = l.filter q
      ∧ (mergesort_topdown lt l).filter q = l.filter q
      ∧ (mergesort_topdown_iterative lt l).filter q = l.filter q
      ∧ (mergesort_bottomup_iterative lt l).filter q = l.filter q := by
  refine ⟨?_, ?_, ?_, ?_, bubble_sort_filter h hq l, ?_, ?_,
    gnome_sort_filter h hq l, mergesort_topdown_filter h hq l, ?_,
    mergesort_bottomup_iterative_filter h hq l⟩
  · rw [insertion_sort_eq_isortFold h l]
    exact isortFold_filter h hq l
  · rw [insertion_sort_byswap_eq lt l, insertion_sort_eq_isortFold h l]
    exact isortFold_filter h hq l
  · rw [binary_insertion_sort_eq_isortFold lt l]
    exact isortFold_filter h hq l
  · rw [binary_insertion_sort_byrotate_eq lt l,
      binary_insertion_sort_eq_isortFold lt l]
    exact isortFold_filter h hq l
  · rw [bubble_sort_nonadaptive]
    exact bubble_sort_nonadaptiveGo_filter hq l.length l
  · rw [bubble_sort_maxadaptive]
    exact bubble_sort_maxadaptiveGo_filter hq l l.length
  · rw [mergesort_topdown_iterative_eq lt l]
    exact mergesort_topdown_filter h hq l

theorem claim_C8_witness :
    IsSWO natLt ∧ stablePred natLt (eqvOf natLt 1)
      ∧ (insertion_sort natLt [2, 1]).filter (eqvOf natLt 1)
          = ([2, 1] : List Nat).filter (eqvOf natLt 1) :=
  ⟨(isSWO_of_linearOrder : IsSWO natLt),
    stablePred_eqvOf (isSWO_of_linearOrder : IsSWO natLt) 1,
    (claim_C8_stability (isSWO_of_linearOrder : IsSWO natLt) [2, 1]
      (eqvOf natLt 1)
      (stablePred_eqvOf (isSWO_of_linearOrder : IsSWO natLt) 1)).1⟩

/-- C4: the loops the spec calls out all reach completion — classic bubble
sort's repeat-until-no-swap loop exits after finitely many passes, the
fully-adaptive bubble loop drives its bound to zero, gnome sort's cursor
loop finishes with finite fuel, the explicit-stack iterative mergesort and
the three explicit-stack iterative quicksorts empty their stacks within
their fuel, and the `quicksort_hoare` recursion completes with finite
fuel. -/
theorem claim_C4_termination {lt : α → α → Bool} (h : IsSWO lt) (l : List α) :
    (∃ n, (bubblePass lt (bubblePassIter lt n l)).2 = false)
      ∧ (∃ k, (maGo lt k (l, l.length)).2 = 0)
      ∧ (∃ fuel, gnomeFuel lt fuel [] l = some (gnome_sortGo lt h [] l))
      ∧ tdiStep lt (tdiRun lt (3 * l.length + 1)
          ⟨l, 0, l.length, [], l.length, l.length⟩) = none
      ∧ (qRun (qlsimple_proc lt) 1 (2 * (l.length + 1)) (l, [(0, l.length)])).2 = []
      ∧ (qRun (qlomuto_proc lt) 1 (2 * (l.length + 1)) (l, [(0, l.length)])).2 = []
      ∧ (qRun (qhoare_proc lt) 0 (2 * l.length + 1) (l, [(0, l.length)])).2 = []
      ∧ (∃ fuel, quicksort_hoareFuel lt fuel l = some (quicksort_hoare lt l)) := by
  refine ⟨bubble_loop_terminates h l, maxadaptive_loop_terminates lt l.length l,
    gnome_loop_terminates h [] l, mergesort_topdown_iterative_halts lt l,
    ?_, ?_, ?_, quicksort_hoare_recursion_completes lt l⟩
  · rw [quicksort_lomuto_simple_iterative_run]
  · rw [quicksort_lomuto_iterative_run]
  · rw [quicksort_hoare_iterative_run]

theorem claim_C4_witness :
    IsSWO natLt
      ∧ ∃ n, (bubblePass natLt (bubblePassIter natLt n [2, 1])).2 = false :=
  ⟨(isSWO_of_linearOrder : IsSWO natLt),
    (claim_C4_termination (isSWO_of_linearOrder : IsSWO natLt) [2, 1]).1⟩

/-- C1: every sorting algorithm in the file returns a permutation of its
input that is non-decreasing under the ordering — the insertion sorts, the
selection sort, the bubble sorts, gnome sort, the five shellsorts, the three
mergesorts, both heapsorts and all six quicksorts. -/
theorem claim_C1_sorted_perm {lt : α → α → Bool} (h : IsSWO lt) (l : List α) :
    (List.Perm (insertion_sort lt l) l
        ∧ List.Pairwise (leOf lt) (insertion_sort lt l))
      ∧ (List.Perm (insertion_sort_byswap lt l) l
        ∧ List.Pairwise (leOf lt) (insertion_sort_byswap lt l))
      ∧ (List.Perm (binary_insertion_sort lt l) l
        ∧ List.Pairwise (leOf lt) (binary_insertion_sort lt l))
      ∧ (List.Perm (binary_insertion_sort_byrotate lt l) l
        ∧ List.Pairwise (leOf lt) (binary_insertion_sort_byrotate lt l))
      ∧ (List.Perm (selection_sort lt l) l
        ∧ List.Pairwise (leOf lt) (selection_sort lt l))
      ∧ (List.Perm (bubble_sort lt h l) l
        ∧ List.Pairwise (leOf lt) (bubble_sort lt h l))
      ∧ (List.Perm (bubble_sort_nonadaptive lt l) l
        ∧ List.Pairwise (leOf lt) (bubble_sort_nonadaptive lt l))
      ∧ (List.Perm (bubble_sort_maxadaptive lt l) l
        ∧ List.Pairwise (leOf lt) (bubble_sort_maxadaptive lt l))
      ∧ (List.Perm (gnome_sort lt h l) l
        ∧ List.Pairwise (leOf lt) (gnome_sort lt h l))
      ∧ (List.Perm (shellsort_hibbard lt l) l
        ∧ List.Pairwise (leOf lt) (shellsort_hibbard lt l))
      ∧ (List.Perm (shellsort_3smooth lt l) l
        ∧ List.Pairwise (leOf lt) (shellsort_3smooth lt l))
      ∧ (List.Perm (shellsort_sedgewick lt l) l
        ∧ List.Pairwise (leOf lt) (shellsort_sedgewick lt l))
      ∧ (List.Perm (shellsort_tokuda lt l) l
        ∧ List.Pairwise (leOf lt) (shellsort_tokuda lt l))
      ∧ (List.Perm (shellsort_quasi_ciura lt l) l
        ∧ List.Pairwise (leOf lt) (shellsort_quasi_ciura lt l))
      ∧ (List.Perm (mergesort_topdown lt l) l
        ∧ List.Pairwise (leOf lt) (mergesort_topdown lt l))
      ∧ (List.Perm (mergesort_topdown_iterative lt l) l
        ∧ List.Pairwise (leOf lt) (mergesort_topdown_iterative lt l))
      ∧ (List.Perm (mergesort_bottomup_iterative lt l) l
        ∧ List.Pairwise (leOf lt) (mergesort_bottomup_iterative lt l))
      ∧ (List.Perm (heapsort lt l) l
        ∧ List.Pairwise (leOf lt) (heapsort lt l))
      ∧ (List.Perm (heapsort_byswap lt l) l
        ∧ List.Pairwise (leOf lt) (heapsort_byswap lt l))
      ∧ (List.Perm (quicksort_lomuto_simple lt l) l
        ∧ List.Pairwise (leOf lt) (quicksort_lomuto_simple lt l))
      ∧ (List.Perm (quicksort_lomuto lt l) l
        ∧ List.Pairwise (leOf lt) (quicksort_lomuto lt l))
      ∧ (List.Perm (quicksort_hoare lt l) l
        ∧ List.Pairwise (leOf lt) (quicksort_hoare lt l))
      ∧ (List.Perm (quicksort_lomuto_simple_iterative lt l) l
        ∧ List.Pairwise (leOf lt) (quicksort_lomuto_simple_iterative lt l))
      ∧ (List.Perm (quicksort_lomuto_iterative lt l) l
        ∧ List.Pairwise (leOf lt) (quicksort_lomuto_iterative lt l))
      ∧ (List.Perm (quicksort_hoare_iterative lt l) l
        ∧ List.Pairwise (leOf lt) (quicksort_hoare_iterative lt l)) := by
  have hi : insertion_sort lt l = isortFold lt l := insertion_sort_eq_isortFold h l
  have hib : insertion_sort_byswap lt l = isortFold lt l := by
    rw [insertion_sort_byswap_eq lt l, hi]
  have hbi : binary_insertion_sort lt l = isortFold lt l :=
    binary_insertion_sort_eq_isortFold lt l
  have hbr : binary_insertion_sort_byrotate lt l = isortFold lt l := by
    rw [binary_insertion_sort_byrotate_eq lt l, hbi]
  have hiso1 := isortFold_perm lt l
  have hiso2 := isortFold_pairwise h l
  refine ⟨⟨?_, ?_⟩, ⟨?_, ?_⟩, ⟨?_, ?_⟩, ⟨?_, ?_⟩,
    ⟨selection_sort_perm h l, selection_sort_pairwise h l⟩,
    bubble_sort_spec h l, bubble_sort_nonadaptive_spec h l,
    bubble_sort_maxadaptive_spec h l, gnome_sort_spec h l,
    ⟨shellsort_hibbard_perm lt l, shellsort_hibbard_pairwise h l⟩,
    ⟨shellsort_3smooth_perm lt l, shellsort_3smooth_pairwise h l⟩,
    ⟨shellsort_sedgewick_perm lt l, shellsort_sedgewick_pairwise h l⟩,
    ⟨shellsort_tokuda_perm lt l, shellsort_tokuda_pairwise h l⟩,
    ⟨shellsort_quasi_ciura_perm lt l, shellsort_quasi_ciura_pairwise h l⟩,
    ⟨mergesort_topdown_perm lt l, mergesort_topdown_pairwise h l⟩,
    ⟨?_, ?_⟩,
    ⟨mergesort_bottomup_iterative_perm h l, mergesort_bottomup_iterative_pairwise h l⟩,
    ⟨heapsort_perm lt l, heapsort_pairwise h l⟩,
    ⟨heapsort_byswap_perm lt l, heapsort_byswap_pairwise h l⟩,
    ⟨quicksort_lomuto_simple_perm lt l, quicksort_lomuto_simple_pairwise h l⟩,
    ⟨quicksort_lomuto_perm lt l, quicksort_lomuto_pairwise h l⟩,
    ⟨quicksort_hoare_perm lt l, quicksort_hoare_pairwise h l⟩,
    ⟨?_, ?_⟩, ⟨?_, ?_⟩, ⟨?_, ?_⟩⟩
  · rw [hi]
    exact hiso1
  · rw [hi]
    exact hiso2
  · rw [hib]
    exact hiso1
  · rw [hib]
    exact hiso2
  · rw [hbi]
    exact hiso1
  · rw [hbi]
    exact hiso2
  · rw [hbr]
    exact hiso1
  · rw [hbr]
    exact hiso2
  · rw [mergesort_topdown_iterative_eq lt l]
    exact mergesort_topdown_perm lt l
  · rw [mergesort_topdown_iterative_eq lt l]
    exact mergesort_topdown_pairwise h l
  · rw [quicksort_lomuto_simple_iterative_eq lt l]
    exact quicksort_lomuto_simple_perm lt l
  · rw [quicksort_lomuto_simple_iterative_eq lt l]
    exact quicksort_lomuto_simple_pairwise h l
  · rw [quicksort_lomuto_iterative_eq lt l]
    exact quicksort_lomuto_perm lt l
  · rw [quicksort_lomuto_iterative_eq lt l]
    exact quicksort_lomuto_pairwise h l
  · rw [quicksort_hoare_iterative_eq lt l]
    exact quicksort_hoare_perm lt l
  · rw [quicksort_hoare_iterative_eq lt l]
    exact quicksort_hoare_pairwise h l

theorem claim_C1_witness :
    IsSWO natLt ∧ List.Perm (insertion_sort natLt [2, 1]) [2, 1] :=
  ⟨(isSWO_of_linearOrder : IsSWO natLt),
    (claim_C1_sorted_perm (isSWO_of_linearOrder : IsSWO natLt) [2, 1]).1.1⟩

end Sorts
